import Mathlib

/-!
# Shared / weak reference-counted handles (`smart_pointers/shared_weak_ptr.h`)

A shallow embedding of the control-block counting protocol.

* The free store of control blocks is a list; the address of a block is its
  index.  Addresses are never reused, and a block that has been handed back to
  its allocator stays in the list with `Call.deallocate` recorded in its call
  history, so that a later access can be recognised as a use after free.
* Every access through a `BaseControlBlock*` goes through `Heap.access`, which
  reports a null dereference, a pointer to storage that was never allocated,
  or a use after free as a `Fault` (undefined behaviour of the C++ program).
* `std::size_t` counters are natural numbers reduced modulo `2 ^ 64` at every
  increment and decrement.
* `calls` and `deleted` are ghost fields: the history of `destroy()` /
  `deallocate()` calls on the block, and the arguments handed to the deleter
  (or to the allocator's `destroy`).
* The template parameter `T` is erased.  A pointer conversion `U* -> T*` is an
  address adjustment by a fixed offset that keeps null pointers null.
-/

namespace SmartPointers

/-- Number of values of a 64-bit `std::size_t`. -/
def SIZE_MOD : Nat := 2 ^ 64

/-- Undefined behaviour that an operation can run into. -/
inductive Fault where
  | nullDeref
  | useAfterFree
  | wildPointer
  deriving DecidableEq, Repr

/-- The two teardown entry points of a control block. -/
inductive Call where
  | destroy
  | deallocate
  deriving DecidableEq, Repr

/-- `BaseControlBlock` together with the data of its two concrete variants.
`inlineObject = false` is `ControlBlockRegular` (field `ptr` is its member
`ptr`), `inlineObject = true` is `ControlBlockMakeShared` (field `ptr` is the
address of its member `object`). -/
structure BaseControlBlock where
  shared_count : Nat
  weak_count : Nat
  inlineObject : Bool
  ptr : Option Nat
  calls : List Call
  deleted : List (Option Nat)
  deriving DecidableEq, Repr

/-- Source: `ControlBlockRegular::get_ptr` / `ControlBlockMakeShared::get_ptr`. -/
def BaseControlBlock.get_ptr (b : BaseControlBlock) : Option Nat := b.ptr

/-- Source: `ControlBlockRegular::destroy` (`deleter(ptr); ptr = nullptr`) and
`ControlBlockMakeShared::destroy` (allocator `destroy` on `get_ptr()`). -/
def BaseControlBlock.destroy (b : BaseControlBlock) : BaseControlBlock :=
  if b.inlineObject then
    { b with calls := b.calls ++ [Call.destroy], deleted := b.deleted ++ [b.get_ptr] }
  else
    { b with calls := b.calls ++ [Call.destroy], deleted := b.deleted ++ [b.ptr],
             ptr := none }

/-- Source: `ControlBlockRegular::deallocate` / `ControlBlockMakeShared::deallocate`:
the block's storage goes back to the rebound allocator. -/
def BaseControlBlock.deallocate (b : BaseControlBlock) : BaseControlBlock :=
  { b with calls := b.calls ++ [Call.deallocate] }

/-- A block as the constructor of `ControlBlockRegular` leaves it
(`shared_count = 0`, `weak_count = 0` from the default member initialisers). -/
def ControlBlockRegular (object : Option Nat) : BaseControlBlock :=
  { shared_count := 0, weak_count := 0, inlineObject := false, ptr := object,
    calls := [], deleted := [] }

/-- A block as the constructor of `ControlBlockMakeShared` leaves it; `obj` is
the address of the embedded object. -/
def ControlBlockMakeShared (obj : Nat) : BaseControlBlock :=
  { shared_count := 0, weak_count := 0, inlineObject := true, ptr := some obj,
    calls := [], deleted := [] }

/-- The free store of control blocks. -/
abbrev Heap := List BaseControlBlock

/-- Dereference of a `BaseControlBlock*`. -/
def Heap.access (h : Heap) (cb : Option Nat) : Except Fault (Nat × BaseControlBlock) :=
  match cb with
  | none => .error .nullDeref
  | some a =>
    match h[a]? with
    | none => .error .wildPointer
    | some b => if Call.deallocate ∈ b.calls then .error .useAfterFree else .ok (a, b)

/-- The virtual call `control_block->destroy()`. -/
def Heap.call_destroy (h : Heap) (cb : Option Nat) : Except Fault Heap := do
  let (a, b) ← h.access cb
  pure (h.set a b.destroy)

/-- The virtual call `control_block->deallocate()`. -/
def Heap.call_deallocate (h : Heap) (cb : Option Nat) : Except Fault Heap := do
  let (a, b) ← h.access cb
  pure (h.set a b.deallocate)

/-- Number of blocks whose storage is currently held (allocated, not yet
deallocated). -/
def Heap.outstanding (h : Heap) : Nat :=
  h.countP (fun b => decide (Call.deallocate ∉ b.calls))

/-- `SharedPtr<T>`: the two data members. -/
structure SharedPtr where
  control_block_ : Option Nat
  ptr_ : Option Nat
  deriving DecidableEq, Repr

/-- `WeakPtr<T>`: the data member. -/
structure WeakPtr where
  control_block_ : Option Nat
  deriving DecidableEq, Repr

/-- The pointer conversion `U* -> T*`. -/
def convert (off : Nat) (p : Option Nat) : Option Nat := p.map (· + off)

/-! ## Shared pointer methods -/

/-- Source: `SharedPtr() {}`. -/
def SharedPtr.default_ctor : SharedPtr := { control_block_ := none, ptr_ := none }

/-- Source: `SharedPtr<T>::increment_count`. -/
def SharedPtr.increment_count (this : SharedPtr) (h : Heap) : Except Fault Heap := do
  let (a, b) ← h.access this.control_block_
  pure (h.set a { b with shared_count := (b.shared_count + 1) % SIZE_MOD })

/-- Source: `SharedPtr<T>::decrement_count`. -/
def SharedPtr.decrement_count (this : SharedPtr) (h : Heap) : Except Fault Heap := do
  let (a, b) ← h.access this.control_block_
  pure (h.set a { b with shared_count := (b.shared_count + SIZE_MOD - 1) % SIZE_MOD })

/-- Source: `SharedPtr<T>::SharedPtr(BaseControlBlock* control_block)`. -/
def SharedPtr.block_ctor (control_block : Option Nat) (h : Heap) :
    Except Fault (Heap × SharedPtr) := do
  let (_, b) ← h.access control_block
  let this : SharedPtr := { control_block_ := control_block, ptr_ := b.get_ptr }
  let h1 ← this.increment_count h
  pure (h1, this)

/-- Source: `SharedPtr<T>::SharedPtr(T* ptr, const D& deleter, const A& alloc)`.
The new block is allocated at the next free address. -/
def SharedPtr.raw_ctor (ptr : Option Nat) (h : Heap) : Heap × SharedPtr :=
  let new_ptr := h.length
  let h1 := h ++ [ControlBlockRegular ptr]
  let this : SharedPtr := { control_block_ := some new_ptr, ptr_ := ptr }
  (h1.set new_ptr { ControlBlockRegular ptr with shared_count := 1 }, this)

/-- Source: `SharedPtr<T>::SharedPtr(const SharedPtr& other)`. -/
def SharedPtr.copy_ctor (other : SharedPtr) (h : Heap) : Except Fault (Heap × SharedPtr) :=
  let this : SharedPtr := { control_block_ := other.control_block_, ptr_ := other.ptr_ }
  if this.control_block_ ≠ none then do
    let h1 ← this.increment_count h
    pure (h1, this)
  else
    pure (h, this)

/-- Source: `SharedPtr<T>::SharedPtr(const SharedPtr<U>& other)`. -/
def SharedPtr.conv_copy_ctor (other : SharedPtr) (off : Nat) (h : Heap) :
    Except Fault (Heap × SharedPtr) := do
  let this : SharedPtr :=
    { control_block_ := other.control_block_, ptr_ := convert off other.ptr_ }
  let h1 ← this.increment_count h
  pure (h1, this)

/-- Source: `SharedPtr<T>::SharedPtr(SharedPtr&& other)`; returns the new handle
and the source as it is left. -/
def SharedPtr.move_ctor (other : SharedPtr) : SharedPtr × SharedPtr :=
  ({ control_block_ := other.control_block_, ptr_ := other.ptr_ },
   { control_block_ := none, ptr_ := none })

/-- Source: `SharedPtr<T>::SharedPtr(SharedPtr<U>&& other)`. -/
def SharedPtr.conv_move_ctor (other : SharedPtr) (off : Nat) : SharedPtr × SharedPtr :=
  ({ control_block_ := other.control_block_, ptr_ := convert off other.ptr_ },
   { control_block_ := none, ptr_ := none })

/-- Source: `SharedPtr<T>::swap`; returns the two handles as they are left. -/
def SharedPtr.swap (this other : SharedPtr) : SharedPtr × SharedPtr :=
  ({ control_block_ := other.control_block_, ptr_ := other.ptr_ },
   { control_block_ := this.control_block_, ptr_ := this.ptr_ })

/-- Source: `SharedPtr<T>::~SharedPtr`. -/
def SharedPtr.dtor (this : SharedPtr) (h : Heap) : Except Fault Heap :=
  if this.control_block_ = none then pure h
  else do
    let (_, b) ← h.access this.control_block_
    if b.shared_count = 0 then pure h
    else do
      let h1 ← this.decrement_count h
      let (_, b1) ← h1.access this.control_block_
      if b1.shared_count = 0 ∧ b1.weak_count = 0 then do
        let h2 ← h1.call_destroy this.control_block_
        h2.call_deallocate this.control_block_
      else if b1.shared_count = 0 then
        h1.call_destroy this.control_block_
      else
        pure h1

/-- Source: `SharedPtr<T>::operator=(const SharedPtr& other)`; `other` is read
after the destructor call has run, and the destructor does not write to any
handle, so the same value serves when `other` is `*this`. -/
def SharedPtr.copy_assign (this other : SharedPtr) (h : Heap) :
    Except Fault (Heap × SharedPtr) := do
  let h1 ← this.dtor h
  let this1 : SharedPtr := { control_block_ := other.control_block_, ptr_ := other.ptr_ }
  let h2 ← this1.increment_count h1
  pure (h2, this1)

/-- Source: `SharedPtr<T>::operator=(const SharedPtr<U>& other)`. -/
def SharedPtr.conv_copy_assign (this other : SharedPtr) (off : Nat) (h : Heap) :
    Except Fault (Heap × SharedPtr) := do
  let h1 ← this.dtor h
  let this1 : SharedPtr :=
    { control_block_ := other.control_block_, ptr_ := convert off other.ptr_ }
  let h2 ← this1.increment_count h1
  pure (h2, this1)

/-- Source: `SharedPtr<T>::operator=(SharedPtr&& other)`; returns the heap, the
target and the source as they are left (for `a = std::move(a)` the write to the
source comes last, so the handle ends as the second component says). -/
def SharedPtr.move_assign (this other : SharedPtr) (h : Heap) :
    Except Fault (Heap × SharedPtr × SharedPtr) := do
  let h1 ← this.dtor h
  pure (h1, { control_block_ := other.control_block_, ptr_ := other.ptr_ },
        { control_block_ := none, ptr_ := none })

/-- Source: `SharedPtr<T>::operator=(SharedPtr<U>&& other)`. -/
def SharedPtr.conv_move_assign (this other : SharedPtr) (off : Nat) (h : Heap) :
    Except Fault (Heap × SharedPtr × SharedPtr) := do
  let h1 ← this.dtor h
  pure (h1, { control_block_ := other.control_block_, ptr_ := convert off other.ptr_ },
        { control_block_ := none, ptr_ := none })

/-- Source: `SharedPtr<T>::use_count`. -/
def SharedPtr.use_count (this : SharedPtr) (h : Heap) : Except Fault Nat := do
  let (_, b) ← h.access this.control_block_
  pure b.shared_count

/-- Source: `SharedPtr<T>::reset()`: `*this = SharedPtr<T>()`, that is a move
assignment from an empty temporary, whose destructor then runs. -/
def SharedPtr.reset (this : SharedPtr) (h : Heap) : Except Fault (Heap × SharedPtr) := do
  let (h1, this1, tmp) ← this.move_assign SharedPtr.default_ctor h
  let h2 ← tmp.dtor h1
  pure (h2, this1)

/-- Source: `SharedPtr<T>::reset(U* ptr)`: `*this = ptr`, that is a temporary
built by the raw-pointer constructor, move-assigned and then destroyed. -/
def SharedPtr.reset_ptr (this : SharedPtr) (ptr : Option Nat) (h : Heap) :
    Except Fault (Heap × SharedPtr) := do
  let (h0, tmp0) := SharedPtr.raw_ctor ptr h
  let (h1, this1, tmp) ← this.move_assign tmp0 h0
  let h2 ← tmp.dtor h1
  pure (h2, this1)

/-- Source: `SharedPtr<T>::get`. -/
def SharedPtr.get (this : SharedPtr) (h : Heap) : Except Fault (Option Nat) :=
  if this.ptr_ ≠ none then pure this.ptr_
  else if this.ptr_ = none ∧ this.control_block_ = none then pure none
  else do
    let (_, b) ← h.access this.control_block_
    pure b.get_ptr

/-! ## Weak pointer methods -/

/-- Source: `WeakPtr() {}`. -/
def WeakPtr.default_ctor : WeakPtr := { control_block_ := none }

/-- Source: `WeakPtr<T>::increment_count`. -/
def WeakPtr.increment_count (this : WeakPtr) (h : Heap) : Except Fault Heap := do
  let (a, b) ← h.access this.control_block_
  pure (h.set a { b with weak_count := (b.weak_count + 1) % SIZE_MOD })

/-- Source: `WeakPtr<T>::decrement_count`. -/
def WeakPtr.decrement_count (this : WeakPtr) (h : Heap) : Except Fault Heap := do
  let (a, b) ← h.access this.control_block_
  pure (h.set a { b with weak_count := (b.weak_count + SIZE_MOD - 1) % SIZE_MOD })

/-- Source: `WeakPtr<T>::WeakPtr(const WeakPtr<T>& other)` and the converting
`WeakPtr<T>::WeakPtr(const WeakPtr<U>& other)` (the same body). -/
def WeakPtr.copy_ctor (other : WeakPtr) (h : Heap) : Except Fault (Heap × WeakPtr) := do
  let this : WeakPtr := { control_block_ := other.control_block_ }
  let h1 ← this.increment_count h
  pure (h1, this)

/-- Source: `WeakPtr<T>::WeakPtr(WeakPtr<U>&& other)`; returns the new handle and
the source as it is left. -/
def WeakPtr.move_ctor (other : WeakPtr) : WeakPtr × WeakPtr :=
  ({ control_block_ := other.control_block_ }, { control_block_ := none })

/-- Source: `WeakPtr<T>::WeakPtr(const SharedPtr<T>& other)` and the converting
`WeakPtr<T>::WeakPtr(const SharedPtr<U>& other)` (the same body). -/
def WeakPtr.from_shared (other : SharedPtr) (h : Heap) : Except Fault (Heap × WeakPtr) := do
  let this : WeakPtr := { control_block_ := other.control_block_ }
  let h1 ← this.increment_count h
  pure (h1, this)

/-- Source: `WeakPtr<T>::~WeakPtr`. -/
def WeakPtr.dtor (this : WeakPtr) (h : Heap) : Except Fault Heap :=
  if this.control_block_ = none then pure h
  else do
    let (_, b) ← h.access this.control_block_
    let h1 ← if b.weak_count ≠ 0 then this.decrement_count h else pure h
    let (_, b1) ← h1.access this.control_block_
    if b1.shared_count = 0 then
      if b1.weak_count = 0 then h1.call_deallocate this.control_block_
      else pure h1
    else pure h1

/-- Source: `WeakPtr<T>::operator=(const WeakPtr<U>& other)`
(`control_block_->weak_count++` written out). -/
def WeakPtr.conv_assign (this other : WeakPtr) (h : Heap) : Except Fault (Heap × WeakPtr) := do
  let h1 ← this.dtor h
  let this1 : WeakPtr := { control_block_ := other.control_block_ }
  let (a, b) ← h1.access this1.control_block_
  pure (h1.set a { b with weak_count := (b.weak_count + 1) % SIZE_MOD }, this1)

/-- Source: `WeakPtr<T>::operator=(const SharedPtr<T>& other)` and the converting
`WeakPtr<T>::operator=(const SharedPtr<U>& other)` (the same body). -/
def WeakPtr.assign_shared (this : WeakPtr) (other : SharedPtr) (h : Heap) :
    Except Fault (Heap × WeakPtr) := do
  let h1 ← this.dtor h
  let this1 : WeakPtr := { control_block_ := other.control_block_ }
  let h2 ← this1.increment_count h1
  pure (h2, this1)

/-- The class `WeakPtr<T>` declares no `operator=(const WeakPtr<T>&)`: its three
assignment operators take `const SharedPtr<T>&` or are templates, and a
template is never a copy assignment operator.  The compiler therefore supplies
the defaulted copy assignment, which copies the member `control_block_`, and an
assignment between two `WeakPtr<T>` of the same `T` selects it (a non-template
function is preferred to a template specialisation with the same parameter). -/
def WeakPtr.implicit_copy_assign (_this other : WeakPtr) : WeakPtr :=
  { control_block_ := other.control_block_ }

/-- Source: `WeakPtr<T>::expired`. -/
def WeakPtr.expired (this : WeakPtr) (h : Heap) : Except Fault Bool :=
  if this.control_block_ = none then pure true
  else do
    let (_, b) ← h.access this.control_block_
    pure (decide (b.shared_count = 0))

/-- Source: `WeakPtr<T>::lock`. -/
def WeakPtr.lock (this : WeakPtr) (h : Heap) : Except Fault (Heap × SharedPtr) := do
  if (← this.expired h) then pure (h, SharedPtr.default_ctor)
  else SharedPtr.block_ctor this.control_block_ h

/-- Source: `WeakPtr<T>::use_count`. -/
def WeakPtr.use_count (this : WeakPtr) (h : Heap) : Except Fault Nat := do
  if (← this.expired h) then pure 0
  else do
    let (_, b) ← h.access this.control_block_
    pure b.shared_count

/-! ## Factories -/

/-- How a call of a factory ends: it returns a handle, or the exception thrown
by the constructor of the managed object leaves the function. -/
inductive Completion where
  | returned (s : SharedPtr)
  | thrown
  deriving DecidableEq, Repr

/-- Source: `allocateShared`.  `ctorOk` tells whether the constructor of the
managed object completes for the given arguments, `obj` is the address of the
object slot inside the block.  The function has no handler: when `construct`
throws, control leaves it at that statement. -/
def allocateShared (ctorOk : Bool) (obj : Nat) (h : Heap) : Except Fault (Heap × Completion) :=
  let ptr := h.length
  let h1 := h ++ [ControlBlockMakeShared obj]
  if ctorOk then do
    let (h2, s) ← SharedPtr.block_ctor (some ptr) h1
    pure (h2, Completion.returned s)
  else
    pure (h1, Completion.thrown)

/-- Source: `makeShared`: `allocateShared` with `std::allocator`. -/
def makeShared (ctorOk : Bool) (obj : Nat) (h : Heap) : Except Fault (Heap × Completion) :=
  allocateShared ctorOk obj h

/-! ## Programs over handles -/

/-- The state of a program: the free store and the handle variables that have
been declared so far, in declaration order.  A variable whose lifetime has
ended is `none`. -/
structure World where
  heap : Heap
  sp : List (Option SharedPtr)
  wp : List (Option WeakPtr)
  deriving DecidableEq, Repr

/-- The state before anything has been declared or allocated. -/
def World.empty : World := { heap := [], sp := [], wp := [] }

/-- One statement of a program.  Indices name handle variables by declaration
order; the constructors that build a handle declare a new variable. -/
inductive Op where
  /-- `SharedPtr<T> s;` -/
  | sDefault
  /-- `SharedPtr<T> s(p);` -/
  | sRaw (p : Option Nat)
  /-- `auto s = makeShared<T>(args...);` with a constructor that completes -/
  | sMake (obj : Nat)
  /-- `SharedPtr<T> s(a_i);` -/
  | sCopy (i : Nat)
  /-- `SharedPtr<T> s(a_i);` with `a_i` a `SharedPtr<U>` -/
  | sConvCopy (i : Nat) (off : Nat)
  /-- `SharedPtr<T> s(std::move(a_i));` -/
  | sMove (i : Nat)
  /-- `SharedPtr<T> s(std::move(a_i));` with `a_i` a `SharedPtr<U>` -/
  | sConvMove (i : Nat) (off : Nat)
  /-- `auto s = w_j.lock();` -/
  | sLock (j : Nat)
  /-- the lifetime of `a_i` ends -/
  | sDtor (i : Nat)
  /-- `a_i.reset();` -/
  | sReset (i : Nat)
  /-- `a_i.reset(p);` -/
  | sResetPtr (i : Nat) (p : Option Nat)
  /-- `a_i.swap(a_j);` -/
  | sSwap (i j : Nat)
  /-- `a_i = a_j;` -/
  | sAssign (i j : Nat)
  /-- `a_i = a_j;` with `a_j` a `SharedPtr<U>` -/
  | sConvAssign (i j : Nat) (off : Nat)
  /-- `a_i = std::move(a_j);` -/
  | sMoveAssign (i j : Nat)
  /-- `a_i = std::move(a_j);` with `a_j` a `SharedPtr<U>` -/
  | sConvMoveAssign (i j : Nat) (off : Nat)
  /-- `WeakPtr<T> w;` -/
  | wDefault
  /-- `WeakPtr<T> w(w_j);` (same or related type) -/
  | wCopy (j : Nat)
  /-- `WeakPtr<T> w(std::move(w_j));` -/
  | wMove (j : Nat)
  /-- `WeakPtr<T> w(a_i);` (same or related type) -/
  | wFromShared (i : Nat)
  /-- the lifetime of `w_j` ends -/
  | wDtor (j : Nat)
  /-- `w_j = w_k;` with both of the same type -/
  | wAssign (j k : Nat)
  /-- `w_j = w_k;` with `w_k` a `WeakPtr<U>` -/
  | wConvAssign (j k : Nat)
  /-- `w_j = a_i;` (same or related type) -/
  | wAssignShared (j i : Nat)
  deriving DecidableEq, Repr

/-- The variable `a_i`, when it has been declared and is still alive. -/
def World.shared (w : World) (i : Nat) : Option SharedPtr := (w.sp[i]?).join

/-- The variable `w_j`, when it has been declared and is still alive. -/
def World.weak (w : World) (j : Nat) : Option WeakPtr := (w.wp[j]?).join

/-- Execution of one statement.  A statement that names a variable which does
not exist or whose lifetime has ended is not a statement of any program and is
skipped. -/
def step (w : World) : Op → Except Fault World
  | .sDefault => pure { w with sp := w.sp ++ [some SharedPtr.default_ctor] }
  | .sRaw p =>
    let (h, s) := SharedPtr.raw_ctor p w.heap
    pure { w with heap := h, sp := w.sp ++ [some s] }
  | .sMake obj => do
    let (h, c) ← makeShared true obj w.heap
    match c with
    | .returned s => pure { w with heap := h, sp := w.sp ++ [some s] }
    | .thrown => pure { w with heap := h }
  | .sCopy i =>
    match w.shared i with
    | some other => do
      let (h, s) ← other.copy_ctor w.heap
      pure { w with heap := h, sp := w.sp ++ [some s] }
    | none => pure w
  | .sConvCopy i off =>
    match w.shared i with
    | some other => do
      let (h, s) ← other.conv_copy_ctor off w.heap
      pure { w with heap := h, sp := w.sp ++ [some s] }
    | none => pure w
  | .sMove i =>
    match w.shared i with
    | some other =>
      let (s, other1) := other.move_ctor
      pure { w with sp := w.sp.set i (some other1) ++ [some s] }
    | none => pure w
  | .sConvMove i off =>
    match w.shared i with
    | some other =>
      let (s, other1) := other.conv_move_ctor off
      pure { w with sp := w.sp.set i (some other1) ++ [some s] }
    | none => pure w
  | .sLock j =>
    match w.weak j with
    | some wk => do
      let (h, s) ← wk.lock w.heap
      pure { w with heap := h, sp := w.sp ++ [some s] }
    | none => pure w
  | .sDtor i =>
    match w.shared i with
    | some this => do
      let h ← this.dtor w.heap
      pure { w with heap := h, sp := w.sp.set i none }
    | none => pure w
  | .sReset i =>
    match w.shared i with
    | some this => do
      let (h, this1) ← this.reset w.heap
      pure { w with heap := h, sp := w.sp.set i (some this1) }
    | none => pure w
  | .sResetPtr i p =>
    match w.shared i with
    | some this => do
      let (h, this1) ← this.reset_ptr p w.heap
      pure { w with heap := h, sp := w.sp.set i (some this1) }
    | none => pure w
  | .sSwap i j =>
    match w.shared i, w.shared j with
    | some this, some other =>
      let (this1, other1) := this.swap other
      pure { w with sp := (w.sp.set i (some this1)).set j (some other1) }
    | _, _ => pure w
  | .sAssign i j =>
    match w.shared i, w.shared j with
    | some this, some other => do
      let (h, this1) ← this.copy_assign other w.heap
      pure { w with heap := h, sp := w.sp.set i (some this1) }
    | _, _ => pure w
  | .sConvAssign i j off =>
    match w.shared i, w.shared j with
    | some this, some other => do
      let (h, this1) ← this.conv_copy_assign other off w.heap
      pure { w with heap := h, sp := w.sp.set i (some this1) }
    | _, _ => pure w
  | .sMoveAssign i j =>
    match w.shared i, w.shared j with
    | some this, some other => do
      let (h, this1, other1) ← this.move_assign other w.heap
      pure { w with heap := h, sp := (w.sp.set i (some this1)).set j (some other1) }
    | _, _ => pure w
  | .sConvMoveAssign i j off =>
    match w.shared i, w.shared j with
    | some this, some other => do
      let (h, this1, other1) ← this.conv_move_assign other off w.heap
      pure { w with heap := h, sp := (w.sp.set i (some this1)).set j (some other1) }
    | _, _ => pure w
  | .wDefault => pure { w with wp := w.wp ++ [some WeakPtr.default_ctor] }
  | .wCopy j =>
    match w.weak j with
    | some other => do
      let (h, k) ← other.copy_ctor w.heap
      pure { w with heap := h, wp := w.wp ++ [some k] }
    | none => pure w
  | .wMove j =>
    match w.weak j with
    | some other =>
      let (k, other1) := other.move_ctor
      pure { w with wp := w.wp.set j (some other1) ++ [some k] }
    | none => pure w
  | .wFromShared i =>
    match w.shared i with
    | some other => do
      let (h, k) ← WeakPtr.from_shared other w.heap
      pure { w with heap := h, wp := w.wp ++ [some k] }
    | none => pure w
  | .wDtor j =>
    match w.weak j with
    | some this => do
      let h ← this.dtor w.heap
      pure { w with heap := h, wp := w.wp.set j none }
    | none => pure w
  | .wAssign j k =>
    match w.weak j, w.weak k with
    | some this, some other =>
      pure { w with wp := w.wp.set j (some (this.implicit_copy_assign other)) }
    | _, _ => pure w
  | .wConvAssign j k =>
    match w.weak j, w.weak k with
    | some this, some other => do
      let (h, this1) ← this.conv_assign other w.heap
      pure { w with heap := h, wp := w.wp.set j (some this1) }
    | _, _ => pure w
  | .wAssignShared j i =>
    match w.weak j, w.shared i with
    | some this, some other => do
      let (h, this1) ← this.assign_shared other w.heap
      pure { w with heap := h, wp := w.wp.set j (some this1) }
    | _, _ => pure w

/-- Execution of a program, statement by statement. -/
def run (w : World) : List Op → Except Fault World
  | [] => pure w
  | op :: ops => do
    let w1 ← step w op
    run w1 ops

/-- Whether a handle variable is alive and references the block at `a`. -/
def sharedOn (a : Nat) : Option SharedPtr → Bool
  | some s => s.control_block_ == some a
  | none => false

/-- Whether a handle variable is alive and references the block at `a`. -/
def weakOn (a : Nat) : Option WeakPtr → Bool
  | some k => k.control_block_ == some a
  | none => false

/-- Number of live shared handles that reference the block at address `a`. -/
def World.sharedRefs (w : World) (a : Nat) : Nat := w.sp.countP (sharedOn a)

/-- Number of live weak handles that reference the block at address `a`. -/
def World.weakRefs (w : World) (a : Nat) : Nat := w.wp.countP (weakOn a)

/-! ## Specification vocabulary -/

deriving instance DecidableEq for Except

/-- The block as the destructor of a shared handle that references it leaves
it, when `shared_count` is positive: one unit of `shared_count` is given back,
and the teardown calls are made at the thresholds. -/
def releaseShared (b : BaseControlBlock) : BaseControlBlock :=
  if b.shared_count - 1 = 0 then
    if b.weak_count = 0 then
      ({ b with shared_count := b.shared_count - 1 } : BaseControlBlock).destroy.deallocate
    else ({ b with shared_count := b.shared_count - 1 } : BaseControlBlock).destroy
  else { b with shared_count := b.shared_count - 1 }

/-- The block as the destructor of a weak handle that references it leaves it,
when `weak_count` is positive. -/
def releaseWeak (b : BaseControlBlock) : BaseControlBlock :=
  if b.shared_count = 0 then
    if b.weak_count - 1 = 0 then
      ({ b with weak_count := b.weak_count - 1 } : BaseControlBlock).deallocate
    else { b with weak_count := b.weak_count - 1 }
  else { b with weak_count := b.weak_count - 1 }

/-- The call history that the counting protocol prescribes for a block with the
given counters: nothing while it is `Live`, `destroy()` once it is
`ObjectDestroyed`, `destroy()` then `deallocate()` once it is `Deallocated`. -/
def expectedCalls (shared weak : Nat) : List Call :=
  if shared = 0 then
    if weak = 0 then [Call.destroy, Call.deallocate] else [Call.destroy]
  else []

/-- The counting invariant at one address: an allocated block has
`shared_count` and `weak_count` equal to the numbers of live shared and weak
handles that reference it and has the call history prescribed for these
counters; no handle references an address that was never allocated. -/
def BlockOK (blk : Option BaseControlBlock) (shared weak : Nat) : Prop :=
  match blk with
  | some b =>
    b.shared_count = shared ∧ b.weak_count = weak ∧
      b.calls = expectedCalls b.shared_count b.weak_count
  | none => shared = 0 ∧ weak = 0

/-- The counting invariant of a program state. -/
def Inv (w : World) : Prop :=
  ∀ a, BlockOK w.heap[a]? (w.sharedRefs a) (w.weakRefs a)

/-- Whether the handle is non-empty, for a variable that is alive. -/
def sharedNonEmpty : Option SharedPtr → Bool
  | some s => s.control_block_.isSome
  | none => true

/-- Whether the handle is non-empty, for a variable that is alive. -/
def weakNonEmpty : Option WeakPtr → Bool
  | some k => k.control_block_.isSome
  | none => true

/-- The statements whose behaviour is defined and counted.  Excluded are:
the copy operations that dereference the control block of their source
without a null test, when the source is empty; a copy assignment `a_i = a_j`
of shared handles when both reference one block whose `shared_count` is 1
(this is `a = a` for a sole owner); a same-type weak assignment `w_j = w_k`
that changes the block `w_j` references; and the converting weak assignment
with `j = k` (the two operands have different types). -/
def Op.legal (w : World) : Op → Bool
  | .sConvCopy i _ => sharedNonEmpty (w.shared i)
  | .wCopy j => weakNonEmpty (w.weak j)
  | .wFromShared i => sharedNonEmpty (w.shared i)
  | .sAssign i j | .sConvAssign i j _ =>
    match w.shared i, w.shared j with
    | some this, some other =>
      match other.control_block_ with
      | some a =>
        this.control_block_ != some a ||
          (match w.heap[a]? with
           | some b => b.shared_count != 1
           | none => true)
      | none => false
    | _, _ => true
  | .wAssign j k =>
    match w.weak j, w.weak k with
    | some this, some other => this.control_block_ == other.control_block_
    | _, _ => true
  | .wConvAssign j k => j != k && weakNonEmpty (w.weak k)
  | .wAssignShared _ i => sharedNonEmpty (w.shared i)
  | _ => true

/-- Every statement of the program is legal in the state in which it is
executed, as far as the program executes. -/
def legalRun (w : World) : List Op → Bool
  | [] => true
  | op :: ops =>
    op.legal w &&
      (match step w op with
       | .ok w1 => legalRun w1 ops
       | .error _ => true)

/-- The conclusion of the preservation theorem for one statement: it executes
without a fault, the counting invariant holds afterwards, and it declares at
most one variable of each kind. -/
def StepOK (w : World) (op : Op) : Prop :=
  ∃ w1, step w op = .ok w1 ∧ Inv w1 ∧ w1.sp.length ≤ w.sp.length + 1 ∧
    w1.wp.length ≤ w.wp.length + 1 ∧ w.heap.length ≤ w1.heap.length

/-- A regular block with one shared owner and no observer. -/
def soleOwnerBlock : BaseControlBlock :=
  { ControlBlockRegular (some 7) with shared_count := 1 }

/-- An inline block whose object has been destroyed and which one weak handle
still observes. -/
def expiredBlock : BaseControlBlock :=
  { ControlBlockMakeShared 7 with weak_count := 1, calls := [Call.destroy] }

/-- A regular block with one shared owner and one weak observer. -/
def observedBlock : BaseControlBlock :=
  { ControlBlockRegular (some 7) with shared_count := 1, weak_count := 1 }

/-- A program that uses every kind of statement the counting protocol covers
and lets go of every handle in the end. -/
def demoProgram : List Op :=
  [.sMake 7, .sRaw (some 9), .sCopy 0, .wFromShared 0, .sConvCopy 1 4, .sMove 2, .wCopy 0,
   .sLock 0, .sAssign 0 1, .sDtor 0, .sReset 1, .sDtor 3, .sDtor 4, .sDtor 5, .wMove 1,
   .sDtor 1, .sDtor 2, .wDtor 0, .wDtor 1, .wDtor 2]

/-- A program in which a weak handle is assigned from another weak handle of
the same type: `SharedPtr<T> a(p); WeakPtr<T> w0(a); WeakPtr<T> w1; w1 = w0;`. -/
def weakAssignProgram : List Op :=
  [.sRaw (some 7), .wFromShared 0, .wDefault, .wAssign 1 0]

/-- The two ways in which a block comes into being: the raw-pointer
constructor and the factory. -/
def Op.creates : Op → Bool
  | .sRaw _ | .sMake _ => true
  | _ => false

/-- Copy construction, move construction (same-type and converting), `reset()`
and destruction of shared handles. -/
def Op.sharedBasic : Op → Bool
  | .sCopy _ | .sMove _ | .sConvMove _ _ | .sReset _ | .sDtor _ => true
  | _ => false

/-- Every shared-handle variable is alive and references the block at
address 0. -/
def AllOnFirst (w : World) : Prop := ∀ x ∈ w.sp, ∃ p, x = some ⟨some 0, p⟩

/-- Every shared-handle variable is alive. -/
def AllAlive (w : World) : Prop := ∀ i, i < w.sp.length → ∃ s, w.sp[i]? = some (some s)

/-- The teardown discipline of one block, for counters bounded by `n`:
`deallocate()` has been called exactly when both counters are 0 and at most
once, a block with `shared_count = 0` has had `destroy()` called, and a call of
`deallocate()` is the last call and comes after a call of `destroy()`. -/
def BlockSafe (n : Nat) (b : BaseControlBlock) : Prop :=
  b.shared_count ≤ n ∧ b.weak_count ≤ n ∧
  (Call.deallocate ∈ b.calls ↔ b.shared_count = 0 ∧ b.weak_count = 0) ∧
  (b.shared_count = 0 → Call.destroy ∈ b.calls) ∧
  b.calls.count Call.deallocate ≤ 1 ∧
  (Call.deallocate ∈ b.calls →
    ∃ pre, b.calls = pre ++ [Call.deallocate] ∧ Call.destroy ∈ pre)

/-- Every block of the heap keeps the teardown discipline. -/
def HeapSafe (n : Nat) (h : Heap) : Prop := ∀ b ∈ h, BlockSafe n b

/-- A program in which a weak observer outlives the last owner:
`SharedPtr<T> a(p); WeakPtr<T> w(a);` and then the end of both lifetimes. -/
def observerProgram : List Op := [.sRaw (some 7), .wFromShared 0, .sDtor 0, .wDtor 0]

/-- The state in which `observerProgram` ends. -/
def observerFinal : World :=
  ⟨[⟨0, 0, false, none, [Call.destroy, Call.deallocate], [some 7]⟩], [none], [none]⟩

/-- The assignment statements (every other statement is a construction, a copy,
a move, a conversion, a `reset`, a `swap`, a `lock` or a destruction). -/
def Op.isAssignment : Op → Bool
  | .sAssign _ _ | .sConvAssign _ _ _ | .sMoveAssign _ _ | .sConvMoveAssign _ _ _
  | .wAssign _ _ | .wConvAssign _ _ | .wAssignShared _ _ => true
  | _ => false

/-- The state in which `demoProgram` ends. -/
def demoFinal : World :=
  ⟨[⟨0, 0, true, some 7, [Call.destroy, Call.deallocate], [some 7]⟩,
    ⟨0, 0, false, none, [Call.destroy, Call.deallocate], [some 9]⟩],
   [none, none, none, none, none, none], [none, none, none]⟩

/-- A program at whose end a weak handle observes a block that has lost its
two owners. -/
def expiredProgram : List Op := [.sMake 7, .wFromShared 0, .sCopy 0, .sDtor 0, .sDtor 1]

/-- The state in which `expiredProgram` ends. -/
def expiredFinal : World :=
  ⟨[⟨0, 1, true, some 7, [Call.destroy], [some 7]⟩], [none, none], [some ⟨some 0⟩]⟩

/-- The pointer conversion back, `T* -> U*` (the cast down to the derived
type): the inverse address adjustment, null staying null. -/
def unconvert (off : Nat) (p : Option Nat) : Option Nat := p.map (· - off)

/-- A state with one owner of a block that a weak handle observes. -/
def observedWorld : World := ⟨[observedBlock], [some ⟨some 0, some 7⟩], [some ⟨some 0⟩]⟩

/-- Every block stays at its address, and a block whose object pointer is null
keeps it null. -/
def HeapGrows (h h1 : Heap) : Prop :=
  ∀ (a : Nat) (b : BaseControlBlock), h[a]? = some b →
    ∃ b1, h1[a]? = some b1 ∧ (b.ptr = none → b1.ptr = none)

/-- The cached address of a handle agrees with its control block: a handle
without control block caches null, and a handle that has a control block and
caches null references an allocated block whose object pointer is null. -/
def SharedPtr.coherent (s : SharedPtr) (h : Heap) : Prop :=
  match s.control_block_ with
  | none => s.ptr_ = none
  | some a => ∃ b, h[a]? = some b ∧ (s.ptr_ = none → b.ptr = none)

/-- Every live shared handle of the state is coherent. -/
def Coherent (w : World) : Prop := ∀ s, some s ∈ w.sp → s.coherent w.heap

/-- A program whose handles cover the cases of `get()`: a handle built from a
null raw pointer, a factory-made handle, a converted copy of it, a moved-from
handle and a default-constructed one. -/
def cachedProgram : List Op := [.sRaw none, .sMake 7, .sConvCopy 1 4, .sMove 1, .sDefault]

/-- The state in which `cachedProgram` ends. -/
def cachedFinal : World :=
  ⟨[⟨1, 0, false, none, [], []⟩, ⟨2, 0, true, some 7, [], []⟩],
   [some ⟨some 0, none⟩, some ⟨none, none⟩, some ⟨some 1, some 11⟩, some ⟨some 1, some 7⟩,
    some ⟨none, none⟩], []⟩

/-- A regular block with two shared owners. -/
def sharedTwiceBlock : BaseControlBlock :=
  { ControlBlockRegular (some 7) with shared_count := 2 }

/-- A state with two handles on one block, whose cached pointers differ, and an
empty handle. -/
def pairWorld : World :=
  ⟨[sharedTwiceBlock], [some ⟨some 0, some 7⟩, some ⟨some 0, some 11⟩, some ⟨none, none⟩], []⟩

/-- The statements on weak handles: construction (default, from a weak handle,
by move, from a shared handle), destruction and the three assignments.
`lock()` is the statement `sLock`; `expired()` and `use_count()` are functions
that return no heap. -/
def Op.isWeakOp : Op → Bool
  | .wDefault | .wCopy _ | .wMove _ | .wFromShared _ | .wDtor _
  | .wAssign _ _ | .wConvAssign _ _ | .wAssignShared _ _ => true
  | _ => false

/-- What concerns ownership of the object is the same in two blocks:
`shared_count`, the stored pointer, the record of deleter invocations and the
number of `destroy()` calls. -/
def BaseControlBlock.sameOwnership (b b1 : BaseControlBlock) : Prop :=
  b1.shared_count = b.shared_count ∧ b1.ptr = b.ptr ∧ b1.deleted = b.deleted ∧
    b1.calls.count Call.destroy = b.calls.count Call.destroy

/-- No block is allocated and ownership is the same in every block. -/
def OwnershipKept (h h1 : Heap) : Prop :=
  h1.length = h.length ∧
    ∀ (a : Nat) (b : BaseControlBlock), h[a]? = some b →
      ∃ b1, h1[a]? = some b1 ∧ b.sameOwnership b1

/-- Statements on weak handles around the one owner of `observedWorld`: two
constructions, an assignment from the shared handle, a move and a
destruction. -/
def observersProgram : List Op :=
  [.wFromShared 0, .wCopy 0, .wDefault, .wAssignShared 3 0, .wMove 1, .wDtor 0]

/-- The state in which `observersProgram` ends when started in
`observedWorld`. -/
def observersFinal : World :=
  ⟨[⟨1, 3, false, some 7, [], []⟩], [some ⟨some 0, some 7⟩],
   [none, some ⟨none⟩, some ⟨some 0⟩, some ⟨some 0⟩, some ⟨some 0⟩]⟩

/-- Source: `SharedPtr<T>::operator*`; the value is the address that is
dereferenced. -/
def SharedPtr.deref (this : SharedPtr) (h : Heap) : Except Fault Nat :=
  match this.ptr_ with
  | some p => pure p
  | none => do
    let (_, b) ← h.access this.control_block_
    match b.get_ptr with
    | some p => pure p
    | none => .error .nullDeref

/-- Source: `SharedPtr<T>::operator->`. -/
def SharedPtr.arrow (this : SharedPtr) (h : Heap) : Except Fault (Option Nat) :=
  this.get h

/-- The program `auto a = makeShared<T>(args...); WeakPtr<T> w(a); a = a;`. -/
def reviveProgram : List Op := [.sMake 7, .wFromShared 0, .sAssign 0 0]

/-- An inline block with one owner and one observer whose object has been
destroyed. -/
def revivedBlock : BaseControlBlock := ⟨1, 1, true, some 7, [Call.destroy], [some 7]⟩

/-- The program `SharedPtr<T> a(p); WeakPtr<T> w(a); a = a; auto b = w.lock();`. -/
def readDestroyedProgram : List Op := [.sRaw (some 7), .wFromShared 0, .sAssign 0 0, .sLock 0]

/-- The state in which `readDestroyedProgram` ends. -/
def readDestroyedFinal : World :=
  ⟨[⟨2, 1, false, none, [Call.destroy], [some 7]⟩],
   [some ⟨some 0, some 7⟩, some ⟨some 0, none⟩], [some ⟨some 0⟩]⟩

/-- An inline block with one shared owner and one weak observer. -/
def observedInlineBlock : BaseControlBlock :=
  { ControlBlockMakeShared 7 with shared_count := 1, weak_count := 1 }

/-- A second regular block, with one shared owner and no observer. -/
def otherOwnerBlock : BaseControlBlock :=
  { ControlBlockRegular (some 9) with shared_count := 1 }

/-- A state with the sole owners of two blocks, the first of which a weak
handle observes, and an empty weak handle. -/
def twoBlockWorld : World :=
  ⟨[observedBlock, otherOwnerBlock], [some ⟨some 0, some 7⟩, some ⟨some 1, some 9⟩],
   [some ⟨some 0⟩, some ⟨none⟩]⟩

/-- The state of `twoBlockWorld` after `a_0 = std::move(a_1)`. -/
def twoBlockMoved : World :=
  ⟨[⟨0, 1, false, none, [Call.destroy], [some 7]⟩, otherOwnerBlock],
   [some ⟨some 1, some 9⟩, some ⟨none, none⟩], [some ⟨some 0⟩, some ⟨none⟩]⟩

/-- The statements on shared handles: the constructions (default, from a raw
pointer, by the factory, by copy, by move, converting or not), destruction,
`reset`, `swap` and the four assignments.  `get()` and `use_count()` are
functions that return no heap. -/
def Op.isSharedOp : Op → Bool
  | .sDefault | .sRaw _ | .sMake _ | .sCopy _ | .sConvCopy _ _ | .sMove _ | .sConvMove _ _
  | .sDtor _ | .sReset _ | .sResetPtr _ _ | .sSwap _ _
  | .sAssign _ _ | .sConvAssign _ _ _ | .sMoveAssign _ _ | .sConvMoveAssign _ _ _ => true
  | _ => false

/-- Every block stays at its address and keeps `weak_count` and its call
history (a counter of owners may have changed, blocks may have been
allocated). -/
def CountedOnly (h h1 : Heap) : Prop :=
  ∀ (a : Nat) (b : BaseControlBlock), h[a]? = some b →
    ∃ b1, h1[a]? = some b1 ∧ b1.weak_count = b.weak_count ∧ b1.calls = b.calls

/-- Every block stays at its address and keeps `weak_count`, and a block
without owner is untouched. -/
def ReleasedOnly (h h1 : Heap) : Prop :=
  ∀ (a : Nat) (b : BaseControlBlock), h[a]? = some b →
    ∃ b1, h1[a]? = some b1 ∧ b1.weak_count = b.weak_count ∧ (b.shared_count = 0 → b1 = b)

/-- Every block stays at its address and keeps `weak_count`. -/
def WeakCountKept (h h1 : Heap) : Prop :=
  ∀ (a : Nat) (b : BaseControlBlock), h[a]? = some b →
    ∃ b1, h1[a]? = some b1 ∧ b1.weak_count = b.weak_count

/-- Every block stays at its address and keeps `weak_count`, and no teardown
call is made on a block without owner. -/
def ObserversKept (h h1 : Heap) : Prop :=
  ∀ (a : Nat) (b : BaseControlBlock), h[a]? = some b →
    ∃ b1, h1[a]? = some b1 ∧ b1.weak_count = b.weak_count ∧
      (b.shared_count = 0 → b1.calls = b.calls)

/-- Statements on the two owners of `twoBlockWorld`: a copy, an assignment
across the blocks, a `reset`, a move assignment, a `swap`, a raw-pointer
construction and a destruction. -/
def ownersProgram : List Op :=
  [.sCopy 0, .sAssign 0 1, .sReset 2, .sMoveAssign 2 1, .sSwap 0 2, .sRaw (some 5), .sDtor 0]

/-- The state in which `ownersProgram` ends when started in `twoBlockWorld`. -/
def ownersFinal : World :=
  ⟨[⟨0, 1, false, none, [Call.destroy], [some 7]⟩, ⟨1, 0, false, some 9, [], []⟩,
    ⟨1, 0, false, some 5, [], []⟩],
   [none, some ⟨none, none⟩, some ⟨some 1, some 9⟩, some ⟨some 2, some 5⟩],
   [some ⟨some 0⟩, some ⟨none⟩]⟩

/-! ## Auxiliary facts about lists, the heap and the two counters -/

theorem getElem?_set_of_some {α : Type} {l : List α} {a : Nat} {b c : α}
    (hb : l[a]? = some b) : (l.set a c)[a]? = some c := by
  have hlt : a < l.length := by
    by_contra hge
    rw [List.getElem?_eq_none (by omega)] at hb
    cases hb
  simp [List.getElem?_set, hlt]

theorem lt_length_of_getElem? {α : Type} {l : List α} {a : Nat} {b : α}
    (hb : l[a]? = some b) : a < l.length := by
  by_contra hge
  rw [List.getElem?_eq_none (by omega)] at hb
  cases hb

theorem countP_set_add {α : Type} (p : α → Bool) {l : List α} {i : Nat} {old : α} (new : α)
    (hi : l[i]? = some old) :
    (l.set i new).countP p + (if p old then 1 else 0) =
      l.countP p + (if p new then 1 else 0) := by
  have hlt := lt_length_of_getElem? hi
  have hold : l[i] = old := by
    rw [List.getElem?_eq_getElem hlt] at hi
    exact Option.some.inj hi
  have hle : (if p l[i] = true then 1 else 0) ≤ l.countP p :=
    List.boole_getElem_le_countP p l i hlt
  rw [List.countP_set p l i new hlt, hold]
  rw [hold] at hle
  omega

theorem access_some {h : Heap} {a : Nat} {b : BaseControlBlock} (hb : h[a]? = some b)
    (hf : Call.deallocate ∉ b.calls) : h.access (some a) = .ok (a, b) := by
  simp [Heap.access, hb, hf]

theorem dec_mod {n : Nat} (h0 : n ≠ 0) (hlt : n < SIZE_MOD) :
    (n + SIZE_MOD - 1) % SIZE_MOD = n - 1 := by
  have : n + SIZE_MOD - 1 = (n - 1) + SIZE_MOD := by omega
  rw [this, Nat.add_mod_right, Nat.mod_eq_of_lt (by omega)]

theorem SharedPtr.dtor_empty_eq (p : Option Nat) (h : Heap) :
    SharedPtr.dtor ⟨none, p⟩ h = .ok h := by
  simp [SharedPtr.dtor, pure, Except.pure]

theorem SharedPtr.dtor_block_eq {h : Heap} {a : Nat} {b : BaseControlBlock} (p : Option Nat)
    (hb : h[a]? = some b) (hf : Call.deallocate ∉ b.calls) (h0 : b.shared_count ≠ 0)
    (hlt : b.shared_count < SIZE_MOD) :
    SharedPtr.dtor ⟨some a, p⟩ h = .ok (h.set a (releaseShared b)) := by
  have hb1 := fun c => getElem?_set_of_some (c := c) hb
  have hb2 := fun c d => getElem?_set_of_some (c := d) (hb1 c)
  have hd : ∀ c : BaseControlBlock, c.calls = b.calls → Call.deallocate ∉ c.destroy.calls := by
    intro c hc
    unfold BaseControlBlock.destroy
    split <;> simp [hc, hf]
  simp only [SharedPtr.dtor, SharedPtr.decrement_count, Heap.call_destroy, Heap.call_deallocate,
    access_some hb hf, bind, Except.bind, pure, Except.pure, h0, if_false,
    dec_mod h0 hlt, reduceCtorEq]
  rw [access_some (hb1 _) (by simpa using hf)]
  simp only [releaseShared]
  by_cases h1 : b.shared_count - 1 = 0
  · by_cases h2 : b.weak_count = 0
    · simp only [h1, h2, and_self, if_true]
      have hc := hd { b with shared_count := 0, weak_count := 0 } rfl
      rw [access_some (hb2 _ _) hc]
      simp
    · simp [h1, h2]
  · simp [h1]

theorem WeakPtr.weak_dtor_empty_eq (h : Heap) : WeakPtr.dtor ⟨none⟩ h = .ok h := by
  simp [WeakPtr.dtor, pure, Except.pure]

theorem WeakPtr.weak_dtor_block_eq {h : Heap} {a : Nat} {b : BaseControlBlock}
    (hb : h[a]? = some b) (hf : Call.deallocate ∉ b.calls) (h0 : b.weak_count ≠ 0)
    (hlt : b.weak_count < SIZE_MOD) :
    WeakPtr.dtor ⟨some a⟩ h = .ok (h.set a (releaseWeak b)) := by
  have hb1 := fun c => getElem?_set_of_some (c := c) hb
  simp only [WeakPtr.dtor, WeakPtr.decrement_count, Heap.call_deallocate,
    access_some hb hf, bind, Except.bind, pure, Except.pure, h0, if_false, ne_eq,
    not_false_eq_true, if_true, dec_mod h0 hlt, reduceCtorEq]
  rw [access_some (hb1 _) (by simpa using hf)]
  simp only [releaseWeak]
  by_cases h1 : b.shared_count = 0
  · by_cases h2 : b.weak_count - 1 = 0
    · simp [h1, h2]
    · simp [h1, h2]
  · simp [h1]

theorem SharedPtr.increment_count_block_eq {h : Heap} {a : Nat} {b : BaseControlBlock}
    (p : Option Nat) (hb : h[a]? = some b) (hf : Call.deallocate ∉ b.calls)
    (hlt : b.shared_count + 1 < SIZE_MOD) :
    SharedPtr.increment_count ⟨some a, p⟩ h =
      .ok (h.set a { b with shared_count := b.shared_count + 1 }) := by
  simp [SharedPtr.increment_count, access_some hb hf, bind, Except.bind, pure, Except.pure,
    Nat.mod_eq_of_lt hlt]

theorem WeakPtr.weak_increment_count_block_eq {h : Heap} {a : Nat} {b : BaseControlBlock}
    (hb : h[a]? = some b) (hf : Call.deallocate ∉ b.calls)
    (hlt : b.weak_count + 1 < SIZE_MOD) :
    WeakPtr.increment_count ⟨some a⟩ h =
      .ok (h.set a { b with weak_count := b.weak_count + 1 }) := by
  simp [WeakPtr.increment_count, access_some hb hf, bind, Except.bind, pure, Except.pure,
    Nat.mod_eq_of_lt hlt]


@[simp] theorem sharedOn_none (x : Nat) : sharedOn x none = false := rfl

theorem sharedOn_some (x : Nat) (s : SharedPtr) :
    sharedOn x (some s) = (s.control_block_ == some x) := rfl

@[simp] theorem sharedOn_empty (x : Nat) (p : Option Nat) :
    sharedOn x (some ⟨none, p⟩) = false := rfl

@[simp] theorem sharedOn_block (x a : Nat) (p : Option Nat) :
    sharedOn x (some ⟨some a, p⟩) = decide (x = a) := by
  by_cases h : x = a
  · simp [sharedOn_some, h]
  · have h1 : ¬ a = x := fun e => h e.symm
    simp [sharedOn_some, h, h1]

@[simp] theorem weakOn_none (x : Nat) : weakOn x none = false := rfl

theorem weakOn_some (x : Nat) (k : WeakPtr) :
    weakOn x (some k) = (k.control_block_ == some x) := rfl

@[simp] theorem weakOn_empty (x : Nat) : weakOn x (some ⟨none⟩) = false := rfl

@[simp] theorem weakOn_block (x a : Nat) : weakOn x (some ⟨some a⟩) = decide (x = a) := by
  by_cases h : x = a
  · simp [weakOn_some, h]
  · have h1 : ¬ a = x := fun e => h e.symm
    simp [weakOn_some, h, h1]

theorem expectedCalls_pos {s : Nat} (w : Nat) (h : s ≠ 0) : expectedCalls s w = [] := by
  simp [expectedCalls, h]

theorem not_freed_of_expected {b : BaseControlBlock}
    (hc : b.calls = expectedCalls b.shared_count b.weak_count)
    (h : b.shared_count ≠ 0 ∨ b.weak_count ≠ 0) : Call.deallocate ∉ b.calls := by
  rw [hc]
  unfold expectedCalls
  rcases h with h | h
  · simp [h]
  · split <;> simp [h]

theorem sharedRefs_pos {w : World} {i a : Nat} {s : SharedPtr} (hi : w.sp[i]? = some (some s))
    (ha : s.control_block_ = some a) : 0 < w.sharedRefs a := by
  unfold World.sharedRefs
  rw [List.countP_pos_iff]
  exact ⟨some s, List.getElem?_mem hi, by simp [sharedOn_some, ha]⟩

theorem weakRefs_pos {w : World} {j a : Nat} {k : WeakPtr} (hj : w.wp[j]? = some (some k))
    (ha : k.control_block_ = some a) : 0 < w.weakRefs a := by
  unfold World.weakRefs
  rw [List.countP_pos_iff]
  exact ⟨some k, List.getElem?_mem hj, by simp [weakOn_some, ha]⟩

theorem Inv.block_of_sharedRefs {w : World} (hInv : Inv w) {a : Nat} (ha : 0 < w.sharedRefs a) :
    ∃ b, w.heap[a]? = some b ∧ b.shared_count = w.sharedRefs a ∧ b.weak_count = w.weakRefs a ∧
      b.calls = [] := by
  have h := hInv a
  unfold BlockOK at h
  split at h
  · rename_i b hb
    refine ⟨b, hb, h.1, h.2.1, ?_⟩
    rw [h.2.2, expectedCalls_pos]
    omega
  · omega

theorem Inv.block_of_weakRefs {w : World} (hInv : Inv w) {a : Nat} (ha : 0 < w.weakRefs a) :
    ∃ b, w.heap[a]? = some b ∧ b.shared_count = w.sharedRefs a ∧ b.weak_count = w.weakRefs a ∧
      b.calls = expectedCalls b.shared_count b.weak_count ∧ Call.deallocate ∉ b.calls := by
  have h := hInv a
  unfold BlockOK at h
  split at h
  · rename_i b hb
    exact ⟨b, hb, h.1, h.2.1, h.2.2, not_freed_of_expected h.2.2 (Or.inr (by omega))⟩
  · omega

theorem Inv.of_counts_eq {w w1 : World} (hInv : Inv w) (hh : w1.heap = w.heap)
    (hs : ∀ x, w1.sharedRefs x = w.sharedRefs x) (hw : ∀ x, w1.weakRefs x = w.weakRefs x) :
    Inv w1 := by
  intro x
  rw [hh, hs, hw]
  exact hInv x

theorem Inv.acquire_shared {w w1 : World} (hInv : Inv w) {a : Nat} {b b1 : BaseControlBlock}
    (hb : w.heap[a]? = some b) (h0 : b.shared_count ≠ 0)
    (hh : w1.heap = w.heap.set a b1)
    (hsc : b1.shared_count = b.shared_count + 1) (hwc : b1.weak_count = b.weak_count)
    (hcalls : b1.calls = b.calls)
    (hs : ∀ x, w1.sharedRefs x = w.sharedRefs x + if x = a then 1 else 0)
    (hw : ∀ x, w1.weakRefs x = w.weakRefs x) : Inv w1 := by
  intro x
  have hx := hInv x
  rw [hh, hs, hw]
  by_cases hxa : x = a
  · subst hxa
    rw [getElem?_set_of_some hb]
    rw [hb] at hx
    simp only [BlockOK, if_true] at hx ⊢
    refine ⟨by omega, by omega, ?_⟩
    rw [hcalls, hx.2.2, expectedCalls_pos _ h0, expectedCalls_pos]
    omega
  · rw [List.getElem?_set_ne (Ne.symm hxa)]
    simpa [hxa] using hx

theorem Inv.acquire_weak {w w1 : World} (hInv : Inv w) {a : Nat} {b b1 : BaseControlBlock}
    (hb : w.heap[a]? = some b) (h0 : b.shared_count ≠ 0 ∨ b.weak_count ≠ 0)
    (hh : w1.heap = w.heap.set a b1)
    (hsc : b1.shared_count = b.shared_count) (hwc : b1.weak_count = b.weak_count + 1)
    (hcalls : b1.calls = b.calls)
    (hs : ∀ x, w1.sharedRefs x = w.sharedRefs x)
    (hw : ∀ x, w1.weakRefs x = w.weakRefs x + if x = a then 1 else 0) : Inv w1 := by
  intro x
  have hx := hInv x
  rw [hh, hs, hw]
  by_cases hxa : x = a
  · subst hxa
    rw [getElem?_set_of_some hb]
    rw [hb] at hx
    simp only [BlockOK, if_true] at hx ⊢
    refine ⟨by omega, by omega, ?_⟩
    rw [hcalls, hx.2.2, hsc, hwc]
    unfold expectedCalls
    rcases h0 with h0 | h0
    · simp [h0]
    · simp [h0]
  · rw [List.getElem?_set_ne (Ne.symm hxa)]
    simpa [hxa] using hx

theorem Inv.release_shared {w w1 : World} (hInv : Inv w) {a : Nat} {b : BaseControlBlock}
    (hb : w.heap[a]? = some b) (h0 : b.shared_count ≠ 0)
    (hh : w1.heap = w.heap.set a (releaseShared b))
    (hs : ∀ x, w1.sharedRefs x + (if x = a then 1 else 0) = w.sharedRefs x)
    (hw : ∀ x, w1.weakRefs x = w.weakRefs x) : Inv w1 := by
  intro x
  have hx := hInv x
  have hsx := hs x
  rw [hh, hw]
  by_cases hxa : x = a
  · subst hxa
    rw [getElem?_set_of_some hb]
    rw [hb] at hx
    simp only [BlockOK, if_true] at hx hsx ⊢
    have hcalls : b.calls = [] := by rw [hx.2.2, expectedCalls_pos _ h0]
    unfold releaseShared
    by_cases h1 : b.shared_count - 1 = 0
    · by_cases h2 : b.weak_count = 0
      · simp only [h1, h2, if_true, BaseControlBlock.destroy, BaseControlBlock.deallocate]
        split <;> simp [expectedCalls, hcalls] <;> omega
      · simp only [h1, h2, if_true, if_false, BaseControlBlock.destroy]
        split <;> simp [expectedCalls, hcalls, h2] <;> omega
    · simp only [h1, if_false]
      refine ⟨by omega, by omega, ?_⟩
      rw [hcalls, expectedCalls_pos _ h1]
  · rw [List.getElem?_set_ne (Ne.symm hxa)]
    simp only [hxa, if_false, Nat.add_zero] at hsx
    rw [hsx]
    exact hx

theorem Inv.release_weak {w w1 : World} (hInv : Inv w) {a : Nat} {b : BaseControlBlock}
    (hb : w.heap[a]? = some b) (h0 : b.weak_count ≠ 0)
    (hh : w1.heap = w.heap.set a (releaseWeak b))
    (hs : ∀ x, w1.sharedRefs x = w.sharedRefs x)
    (hw : ∀ x, w1.weakRefs x + (if x = a then 1 else 0) = w.weakRefs x) : Inv w1 := by
  intro x
  have hx := hInv x
  have hwx := hw x
  rw [hh, hs]
  by_cases hxa : x = a
  · subst hxa
    rw [getElem?_set_of_some hb]
    rw [hb] at hx
    simp only [BlockOK, if_true] at hx hwx ⊢
    unfold releaseWeak
    by_cases h1 : b.shared_count = 0
    · have hcalls : b.calls = [Call.destroy] := by
        rw [hx.2.2]
        simp [expectedCalls, h1, h0]
      by_cases h2 : b.weak_count - 1 = 0
      · simp only [h1, h2, if_true, BaseControlBlock.deallocate]
        refine ⟨by omega, by omega, ?_⟩
        simp [expectedCalls, hcalls]
      · simp only [h1, h2, if_true, if_false]
        refine ⟨by omega, by omega, ?_⟩
        simp [expectedCalls, hcalls, h2]
    · simp only [h1, if_false]
      refine ⟨by omega, by omega, ?_⟩
      rw [hx.2.2, expectedCalls_pos _ h1, expectedCalls_pos _ h1]
  · rw [List.getElem?_set_ne (Ne.symm hxa)]
    simp only [hxa, if_false, Nat.add_zero] at hwx
    rw [hwx]
    exact hx

theorem Inv.new_block {w w1 : World} (hInv : Inv w) {nb : BaseControlBlock}
    (hh : w1.heap = w.heap ++ [nb])
    (hsc : nb.shared_count = 1) (hwc : nb.weak_count = 0) (hcalls : nb.calls = [])
    (hs : ∀ x, w1.sharedRefs x = w.sharedRefs x + if x = w.heap.length then 1 else 0)
    (hw : ∀ x, w1.weakRefs x = w.weakRefs x) : Inv w1 := by
  intro x
  have hx := hInv x
  rw [hh, hs, hw]
  rcases Nat.lt_trichotomy x w.heap.length with hlt | heq | hgt
  · rw [List.getElem?_append_left hlt]
    simpa [Nat.ne_of_lt hlt] using hx
  · subst heq
    rw [List.getElem?_eq_none (Nat.le_refl _)] at hx
    simp only [BlockOK] at hx
    simp [BlockOK, hsc, hwc, hcalls, hx.1, hx.2, expectedCalls]
  · rw [List.getElem?_eq_none (by omega)] at hx
    rw [List.getElem?_eq_none (by simp; omega)]
    simpa [Nat.ne_of_gt hgt] using hx

theorem shared_eq_some {w : World} {i : Nat} {s : SharedPtr} :
    w.shared i = some s ↔ w.sp[i]? = some (some s) := by
  unfold World.shared
  cases w.sp[i]? with
  | none => simp
  | some x => cases x <;> simp

theorem weak_eq_some {w : World} {j : Nat} {k : WeakPtr} :
    w.weak j = some k ↔ w.wp[j]? = some (some k) := by
  unfold World.weak
  cases w.wp[j]? with
  | none => simp
  | some x => cases x <;> simp

theorem Inv.shared_block {w : World} (hInv : Inv w) {i a : Nat} {s : SharedPtr}
    (hi : w.shared i = some s) (ha : s.control_block_ = some a) :
    ∃ b, w.heap[a]? = some b ∧ b.shared_count = w.sharedRefs a ∧
      b.weak_count = w.weakRefs a ∧ b.calls = [] ∧ b.shared_count ≠ 0 ∧
      b.shared_count ≤ w.sp.length ∧ b.weak_count ≤ w.wp.length := by
  have hpos := sharedRefs_pos (shared_eq_some.1 hi) ha
  obtain ⟨b, hb, hsc, hwc, hcalls⟩ := hInv.block_of_sharedRefs hpos
  refine ⟨b, hb, hsc, hwc, hcalls, by omega, ?_, ?_⟩
  · rw [hsc]; exact List.countP_le_length _
  · rw [hwc]; exact List.countP_le_length _

theorem Inv.weak_block {w : World} (hInv : Inv w) {j a : Nat} {k : WeakPtr}
    (hj : w.weak j = some k) (ha : k.control_block_ = some a) :
    ∃ b, w.heap[a]? = some b ∧ b.shared_count = w.sharedRefs a ∧
      b.weak_count = w.weakRefs a ∧ b.calls = expectedCalls b.shared_count b.weak_count ∧
      Call.deallocate ∉ b.calls ∧ b.weak_count ≠ 0 ∧
      b.shared_count ≤ w.sp.length ∧ b.weak_count ≤ w.wp.length := by
  have hpos := weakRefs_pos (weak_eq_some.1 hj) ha
  obtain ⟨b, hb, hsc, hwc, hcalls, hf⟩ := hInv.block_of_weakRefs hpos
  refine ⟨b, hb, hsc, hwc, hcalls, hf, by omega, ?_, ?_⟩
  · rw [hsc]; exact List.countP_le_length _
  · rw [hwc]; exact List.countP_le_length _

theorem set_length_append {α : Type} (l : List α) (x y : α) :
    (l ++ [x]).set l.length y = l ++ [y] := by
  rw [List.set_append_right _ _ (Nat.le_refl _)]
  simp

theorem SharedPtr.raw_ctor_eq (p : Option Nat) (h : Heap) :
    SharedPtr.raw_ctor p h =
      (h ++ [{ ControlBlockRegular p with shared_count := 1 }], ⟨some h.length, p⟩) := by
  simp [SharedPtr.raw_ctor, set_length_append]

theorem allocateShared_ok (obj : Nat) (h : Heap) :
    allocateShared true obj h =
      .ok (h ++ [{ ControlBlockMakeShared obj with shared_count := 1 }],
        Completion.returned ⟨some h.length, some obj⟩) := by
  have hb : (h ++ [ControlBlockMakeShared obj])[h.length]? = some (ControlBlockMakeShared obj) := by
    simp
  have hf : Call.deallocate ∉ (ControlBlockMakeShared obj).calls := by
    simp [ControlBlockMakeShared]
  simp only [allocateShared, SharedPtr.block_ctor, access_some hb hf, if_true, bind, Except.bind,
    pure, Except.pure]
  rw [SharedPtr.increment_count_block_eq _ hb hf (by simp [ControlBlockMakeShared, SIZE_MOD])]
  simp [set_length_append, ControlBlockMakeShared, BaseControlBlock.get_ptr]

theorem StepOK.skip {w : World} {op : Op} (hInv : Inv w) (h : step w op = .ok w) :
    StepOK w op := ⟨w, h, hInv, by omega, by omega, Nat.le_refl _⟩

theorem step_sDefault {w : World} (hInv : Inv w) : StepOK w .sDefault := by
  refine ⟨_, rfl, ?_, by simp, by simp, by simp⟩
  refine hInv.of_counts_eq (by rfl) ?_ ?_
  · intro x; simp [World.sharedRefs, List.countP_append, List.countP_cons, SharedPtr.default_ctor]
  · intro x; rfl

theorem step_sRaw {w : World} (hInv : Inv w) (p : Option Nat) : StepOK w (.sRaw p) := by
  refine ⟨⟨w.heap ++ [{ ControlBlockRegular p with shared_count := 1 }],
            w.sp ++ [some ⟨some w.heap.length, p⟩], w.wp⟩, ?_, ?_, by simp, by simp, by simp⟩
  · simp [step, SharedPtr.raw_ctor_eq, pure, Except.pure]
  · refine hInv.new_block (by rfl) (by rfl) (by rfl) (by rfl) ?_ ?_
    · intro x
      simp [World.sharedRefs, List.countP_append, List.countP_cons]
    · intro x; rfl

theorem step_sMake {w : World} (hInv : Inv w) (obj : Nat) : StepOK w (.sMake obj) := by
  refine ⟨⟨w.heap ++ [{ ControlBlockMakeShared obj with shared_count := 1 }],
            w.sp ++ [some ⟨some w.heap.length, some obj⟩], w.wp⟩, ?_, ?_, by simp, by simp, by simp⟩
  · simp [step, makeShared, allocateShared_ok, pure, Except.pure, bind, Except.bind]
  · refine hInv.new_block (by rfl) (by rfl) (by rfl) (by rfl) ?_ ?_
    · intro x
      simp [World.sharedRefs, List.countP_append, List.countP_cons]
    · intro x; rfl

theorem step_sCopy {w : World} (hInv : Inv w) (i : Nat) (hsp : w.sp.length + 1 < SIZE_MOD) :
    StepOK w (.sCopy i) := by
  cases hs : w.shared i with
  | none => exact StepOK.skip hInv (by simp [step, hs, pure, Except.pure])
  | some s =>
    obtain ⟨cb, p⟩ := s
    cases cb with
    | none =>
      refine ⟨{ w with sp := w.sp ++ [some ⟨none, p⟩] }, ?_, ?_, by simp, by simp, by simp⟩
      · simp [step, hs, SharedPtr.copy_ctor, pure, Except.pure, bind, Except.bind]
      · refine hInv.of_counts_eq (by rfl) ?_ ?_
        · intro x; simp [World.sharedRefs, List.countP_append, List.countP_cons]
        · intro x; rfl
    | some a =>
      obtain ⟨b, hb, hsc, hwc, hcalls, h0, hle, -⟩ := hInv.shared_block hs rfl
      have hf : Call.deallocate ∉ b.calls := by simp [hcalls]
      refine ⟨⟨w.heap.set a { b with shared_count := b.shared_count + 1 },
                w.sp ++ [some ⟨some a, p⟩], w.wp⟩, ?_, ?_, by simp, by simp, by simp⟩
      · simp [step, hs, SharedPtr.copy_ctor, pure, Except.pure, bind, Except.bind,
          SharedPtr.increment_count_block_eq p hb hf (by omega)]
      · refine hInv.acquire_shared hb h0 (by rfl) (by rfl) (by rfl) (by rfl) ?_ ?_
        · intro x
          simp [World.sharedRefs, List.countP_append, List.countP_cons]
        · intro x; rfl

theorem release_at {w : World} (hInv : Inv w) {i : Nat} {s : SharedPtr}
    (hs : w.shared i = some s) (hbound : w.sp.length < SIZE_MOD) (x : Option SharedPtr)
    (hx : ∀ a, sharedOn a x = false) :
    ∃ h1, s.dtor w.heap = .ok h1 ∧ Inv ⟨h1, w.sp.set i x, w.wp⟩ ∧
      h1.length = w.heap.length ∧
      (∀ a b, w.heap[a]? = some b → s.control_block_ ≠ some a → h1[a]? = some b) ∧
      (∀ a b, w.heap[a]? = some b → s.control_block_ = some a →
        h1[a]? = some (releaseShared b)) := by
  have hi := shared_eq_some.1 hs
  obtain ⟨cb, p⟩ := s
  cases cb with
  | none =>
    refine ⟨w.heap, SharedPtr.dtor_empty_eq p _, ?_, rfl, fun a b hb _ => hb, ?_⟩
    · refine hInv.of_counts_eq (by rfl) ?_ ?_
      · intro a
        have := countP_set_add (sharedOn a) x hi
        simpa [World.sharedRefs, hx] using this
      · intro a; rfl
    · intro a b _ hc
      cases hc
  | some a =>
    obtain ⟨b, hb, hsc, hwc, hcalls, h0, hle, -⟩ := hInv.shared_block hs rfl
    have hf : Call.deallocate ∉ b.calls := by simp [hcalls]
    refine ⟨_, SharedPtr.dtor_block_eq p hb hf h0 (by omega), ?_, by simp, ?_, ?_⟩
    · refine hInv.release_shared hb h0 (by rfl) ?_ ?_
      · intro y
        have := countP_set_add (sharedOn y) x hi
        simpa [World.sharedRefs, hx] using this
      · intro y; rfl
    · intro y c hc hne
      have : a ≠ y := fun e => hne (by rw [e])
      rw [List.getElem?_set_ne this]
      exact hc
    · intro y c hc he
      cases he
      rw [hb] at hc
      cases hc
      exact getElem?_set_of_some hb

theorem acquire_at {w : World} (hInv : Inv w) {i a : Nat} {old : Option SharedPtr}
    {b : BaseControlBlock} (hi : w.sp[i]? = some old) (hold : ∀ x, sharedOn x old = false)
    (hb : w.heap[a]? = some b) (h0 : b.shared_count ≠ 0) (hbound : w.sp.length < SIZE_MOD)
    (p : Option Nat) :
    ∃ h1, SharedPtr.increment_count ⟨some a, p⟩ w.heap = .ok h1 ∧
      Inv ⟨h1, w.sp.set i (some ⟨some a, p⟩), w.wp⟩ ∧ h1.length = w.heap.length := by
  have hcount : ∀ x, (w.sp.set i (some ⟨some a, p⟩)).countP (sharedOn x) =
      w.sp.countP (sharedOn x) + if x = a then 1 else 0 := by
    intro x
    have := countP_set_add (sharedOn x) (some ⟨some a, p⟩) hi
    simpa [hold] using this
  have hx := hInv a
  rw [hb] at hx
  simp only [BlockOK] at hx
  have hle : (w.sp.set i (some ⟨some a, p⟩)).countP (sharedOn a) ≤ w.sp.length := by
    have := List.countP_le_length (sharedOn a) (l := w.sp.set i (some ⟨some a, p⟩))
    simpa using this
  have hlt : b.shared_count + 1 < SIZE_MOD := by
    have := hcount a
    simp only [if_true] at this
    have h1 : b.shared_count = w.sp.countP (sharedOn a) := hx.1
    omega
  have hf : Call.deallocate ∉ b.calls := by
    rw [hx.2.2, expectedCalls_pos _ h0]; simp
  refine ⟨_, SharedPtr.increment_count_block_eq p hb hf hlt, ?_, by simp⟩
  exact hInv.acquire_shared hb h0 (by rfl) (by rfl) (by rfl) (by rfl) hcount (fun _ => rfl)

theorem countP_set_set_add {α : Type} (p : α → Bool) {l : List α} {i j : Nat} {a b : α}
    (x y : α) (hi : l[i]? = some a) (hj : l[j]? = some b) (hne : i ≠ j) :
    ((l.set i x).set j y).countP p + (if p a then 1 else 0) + (if p b then 1 else 0) =
      l.countP p + (if p x then 1 else 0) + (if p y then 1 else 0) := by
  have h1 := countP_set_add p x hi
  have hj1 : (l.set i x)[j]? = some b := by rw [List.getElem?_set_ne hne]; exact hj
  have h2 := countP_set_add p y hj1
  omega

theorem step_sConvCopy {w : World} (hInv : Inv w) (i off : Nat)
    (hl : (Op.sConvCopy i off).legal w = true) (hsp : w.sp.length + 1 < SIZE_MOD) :
    StepOK w (.sConvCopy i off) := by
  cases hs : w.shared i with
  | none => exact StepOK.skip hInv (by simp [step, hs, pure, Except.pure])
  | some s =>
    obtain ⟨cb, p⟩ := s
    cases cb with
    | none => simp [Op.legal, hs, sharedNonEmpty] at hl
    | some a =>
      obtain ⟨b, hb, hsc, hwc, hcalls, h0, hle, -⟩ := hInv.shared_block hs rfl
      have hf : Call.deallocate ∉ b.calls := by simp [hcalls]
      refine ⟨⟨w.heap.set a { b with shared_count := b.shared_count + 1 },
                w.sp ++ [some ⟨some a, convert off p⟩], w.wp⟩, ?_, ?_, by simp, by simp, by simp⟩
      · simp [step, hs, SharedPtr.conv_copy_ctor, pure, Except.pure, bind, Except.bind,
          SharedPtr.increment_count_block_eq _ hb hf (by omega)]
      · refine hInv.acquire_shared hb h0 (by rfl) (by rfl) (by rfl) (by rfl) ?_ ?_
        · intro x
          simp [World.sharedRefs, List.countP_append, List.countP_cons]
        · intro x; rfl

theorem inv_move_append {w : World} (hInv : Inv w) {i : Nat} {s : SharedPtr}
    (hs : w.shared i = some s) (p : Option Nat) :
    Inv ⟨w.heap, w.sp.set i (some ⟨none, none⟩) ++ [some ⟨s.control_block_, p⟩], w.wp⟩ := by
  have hi := shared_eq_some.1 hs
  refine hInv.of_counts_eq (by rfl) ?_ ?_
  · intro x
    have := countP_set_add (sharedOn x) (some ⟨none, none⟩) hi
    simp only [sharedOn_empty] at this
    simp only [World.sharedRefs, List.countP_append, List.countP_cons, List.countP_nil]
    have e : sharedOn x (some ⟨s.control_block_, p⟩) = sharedOn x (some s) := by
      simp [sharedOn_some]
    rw [e]
    simp only [Bool.false_eq_true, if_false] at this
    omega
  · intro x; rfl

theorem step_sMove {w : World} (hInv : Inv w) (i : Nat) : StepOK w (.sMove i) := by
  cases hs : w.shared i with
  | none => exact StepOK.skip hInv (by simp [step, hs, pure, Except.pure])
  | some s =>
    refine ⟨_, ?_, inv_move_append hInv hs s.ptr_, by simp, by simp, by simp⟩
    simp [step, hs, SharedPtr.move_ctor, pure, Except.pure]

theorem step_sConvMove {w : World} (hInv : Inv w) (i off : Nat) :
    StepOK w (.sConvMove i off) := by
  cases hs : w.shared i with
  | none => exact StepOK.skip hInv (by simp [step, hs, pure, Except.pure])
  | some s =>
    refine ⟨_, ?_, inv_move_append hInv hs (convert off s.ptr_), by simp, by simp, by simp⟩
    simp [step, hs, SharedPtr.conv_move_ctor, pure, Except.pure]

theorem step_sDtor {w : World} (hInv : Inv w) (i : Nat) (hsp : w.sp.length + 1 < SIZE_MOD) :
    StepOK w (.sDtor i) := by
  cases hs : w.shared i with
  | none => exact StepOK.skip hInv (by simp [step, hs, pure, Except.pure])
  | some s =>
    obtain ⟨h1, hd, hI, hlen, -, -⟩ := release_at hInv hs (by omega) none (fun _ => rfl)
    refine ⟨_, ?_, hI, by simp, by simp, by simp [hlen]⟩
    simp [step, hs, hd, pure, Except.pure, bind, Except.bind]

theorem SharedPtr.reset_eq {s : SharedPtr} {h h1 : Heap} (hd : s.dtor h = .ok h1) :
    s.reset h = .ok (h1, ⟨none, none⟩) := by
  simp [SharedPtr.reset, SharedPtr.move_assign, hd, SharedPtr.default_ctor, SharedPtr.dtor_empty_eq,
    pure, Except.pure, bind, Except.bind]

theorem step_sReset {w : World} (hInv : Inv w) (i : Nat) (hsp : w.sp.length < SIZE_MOD) :
    StepOK w (.sReset i) := by
  cases hs : w.shared i with
  | none => exact StepOK.skip hInv (by simp [step, hs, pure, Except.pure])
  | some s =>
    obtain ⟨h1, hd, hI, hlen, -, -⟩ :=
      release_at hInv hs (by omega) (some ⟨none, none⟩) (fun _ => rfl)
    refine ⟨_, ?_, hI, by simp, by simp, by simp [hlen]⟩
    simp [step, hs, SharedPtr.reset_eq hd, pure, Except.pure, bind, Except.bind]

theorem step_sSwap {w : World} (hInv : Inv w) (i j : Nat) : StepOK w (.sSwap i j) := by
  cases hs : w.shared i with
  | none => exact StepOK.skip hInv (by simp [step, hs, pure, Except.pure])
  | some s =>
    cases ht : w.shared j with
    | none => exact StepOK.skip hInv (by simp [step, hs, ht, pure, Except.pure])
    | some t =>
      obtain ⟨scb, sptr⟩ := s
      obtain ⟨tcb, tptr⟩ := t
      have hi := shared_eq_some.1 hs
      have hj := shared_eq_some.1 ht
      refine ⟨⟨w.heap, (w.sp.set i (some ⟨tcb, tptr⟩)).set j (some ⟨scb, sptr⟩), w.wp⟩,
        ?_, ?_, ?_, ?_⟩
      · simp only [step, hs, ht, SharedPtr.swap, pure, Except.pure]
      · refine hInv.of_counts_eq (by rfl) ?_ ?_
        · intro x
          simp only [World.sharedRefs]
          by_cases hij : i = j
          · subst hij
            rw [hs] at ht
            cases ht
            rw [List.set_set]
            have := countP_set_add (sharedOn x) (some ⟨scb, sptr⟩) hi
            omega
          · have := countP_set_set_add (sharedOn x) (some ⟨tcb, tptr⟩)
              (some ⟨scb, sptr⟩) hi hj hij
            omega
        · intro x; rfl
      · simp
      · simp

theorem inv_move_assign {w : World} {h1 : Heap} {i j : Nat} {s t : SharedPtr}
    (hs : w.shared i = some s) (ht : w.shared j = some t)
    (hI : Inv ⟨h1, w.sp.set i (some ⟨none, none⟩), w.wp⟩) (p : Option Nat) :
    Inv ⟨h1, (w.sp.set i (some ⟨t.control_block_, p⟩)).set j (some ⟨none, none⟩), w.wp⟩ := by
  obtain ⟨tcb, tptr⟩ := t
  have hi := shared_eq_some.1 hs
  have hj := shared_eq_some.1 ht
  refine hI.of_counts_eq (by rfl) ?_ ?_
  · intro x
    simp only [World.sharedRefs]
    by_cases hij : i = j
    · subst hij
      rw [List.set_set]
    · have h1 := countP_set_set_add (sharedOn x) (some ⟨tcb, p⟩) (some ⟨none, none⟩) hi hj hij
      have h2 := countP_set_add (sharedOn x) (some ⟨none, none⟩) hi
      have e : sharedOn x (some ⟨tcb, p⟩) = sharedOn x (some ⟨tcb, tptr⟩) := rfl
      rw [e] at h1
      simp only [sharedOn_empty, Bool.false_eq_true, if_false] at h1 h2
      omega
  · intro x; rfl

theorem step_sMoveAssign {w : World} (hInv : Inv w) (i j : Nat)
    (hsp : w.sp.length + 1 < SIZE_MOD) : StepOK w (.sMoveAssign i j) := by
  cases hs : w.shared i with
  | none => exact StepOK.skip hInv (by simp [step, hs, pure, Except.pure])
  | some s =>
    cases ht : w.shared j with
    | none => exact StepOK.skip hInv (by simp [step, hs, ht, pure, Except.pure])
    | some t =>
      obtain ⟨h1, hd, hI, hlen, -, -⟩ :=
        release_at hInv hs (by omega) (some ⟨none, none⟩) (fun _ => rfl)
      refine ⟨_, ?_, inv_move_assign hs ht hI t.ptr_, by simp, by simp, by simp [hlen]⟩
      simp [step, hs, ht, SharedPtr.move_assign, hd, pure, Except.pure, bind, Except.bind]

theorem step_sConvMoveAssign {w : World} (hInv : Inv w) (i j off : Nat)
    (hsp : w.sp.length + 1 < SIZE_MOD) : StepOK w (.sConvMoveAssign i j off) := by
  cases hs : w.shared i with
  | none => exact StepOK.skip hInv (by simp [step, hs, pure, Except.pure])
  | some s =>
    cases ht : w.shared j with
    | none => exact StepOK.skip hInv (by simp [step, hs, ht, pure, Except.pure])
    | some t =>
      obtain ⟨h1, hd, hI, hlen, -, -⟩ :=
        release_at hInv hs (by omega) (some ⟨none, none⟩) (fun _ => rfl)
      refine ⟨_, ?_, inv_move_assign hs ht hI (convert off t.ptr_), by simp, by simp, by simp [hlen]⟩
      simp [step, hs, ht, SharedPtr.conv_move_assign, hd, pure, Except.pure, bind, Except.bind]

/-- The two copy assignments of shared handles: after the destructor call the
block of the source still has a positive `shared_count`. -/
theorem assign_core {w : World} (hInv : Inv w) {i j a : Nat} {s : SharedPtr}
    {tptr : Option Nat} (hs : w.shared i = some s) (ht : w.shared j = some ⟨some a, tptr⟩)
    (hl : (Op.sAssign i j).legal w = true) (hsp : w.sp.length + 1 < SIZE_MOD)
    (p : Option Nat) :
    ∃ h1 h2, s.dtor w.heap = .ok h1 ∧
      SharedPtr.increment_count ⟨some a, p⟩ h1 = .ok h2 ∧
      Inv ⟨h2, w.sp.set i (some ⟨some a, p⟩), w.wp⟩ ∧ h2.length = w.heap.length := by
  obtain ⟨h1, hd, hI, hlen, hkeep, hrel⟩ :=
    release_at hInv hs (by omega) (some ⟨none, none⟩) (fun _ => rfl)
  have hi := shared_eq_some.1 hs
  have hj := shared_eq_some.1 ht
  have hi1 : (w.sp.set i (some (⟨none, none⟩ : SharedPtr)))[i]? = some (some ⟨none, none⟩) :=
    getElem?_set_of_some hi
  have hblock : ∃ b1, h1[a]? = some b1 ∧ b1.shared_count ≠ 0 := by
    obtain ⟨b, hb, hsc, -, hcalls, h0, -, -⟩ := hInv.shared_block ht rfl
    by_cases hsa : s.control_block_ = some a
    · refine ⟨_, hrel a b hb hsa, ?_⟩
      simp only [Op.legal, hs, ht, hsa, hb, bne_self_eq_false, Bool.false_or, bne_iff_ne,
        ne_eq] at hl
      have h2 : b.shared_count - 1 ≠ 0 := by omega
      simp [releaseShared, h2]
    · exact ⟨b, hkeep a b hb hsa, h0⟩
  obtain ⟨b1, hb1, h01⟩ := hblock
  obtain ⟨h2, hinc, hI2, hlen2⟩ := acquire_at hI hi1 (fun _ => rfl) hb1 h01 (by simp; omega) p
  refine ⟨h1, h2, hd, hinc, ?_, by simpa [hlen] using hlen2⟩
  simpa [List.set_set] using hI2

theorem step_sAssign {w : World} (hInv : Inv w) (i j : Nat)
    (hl : (Op.sAssign i j).legal w = true) (hsp : w.sp.length + 1 < SIZE_MOD) :
    StepOK w (.sAssign i j) := by
  cases hs : w.shared i with
  | none => exact StepOK.skip hInv (by simp [step, hs, pure, Except.pure])
  | some s =>
    cases ht : w.shared j with
    | none => exact StepOK.skip hInv (by simp [step, hs, ht, pure, Except.pure])
    | some t =>
      obtain ⟨tcb, tptr⟩ := t
      cases tcb with
      | none => simp [Op.legal, hs, ht] at hl
      | some a =>
        obtain ⟨h1, h2, hd, hinc, hI, hlen⟩ := assign_core hInv hs ht hl hsp tptr
        refine ⟨_, ?_, hI, by simp, by simp, by simp [hlen]⟩
        simp [step, hs, ht, SharedPtr.copy_assign, hd, hinc, pure, Except.pure, bind,
          Except.bind]

theorem step_sConvAssign {w : World} (hInv : Inv w) (i j off : Nat)
    (hl : (Op.sConvAssign i j off).legal w = true) (hsp : w.sp.length + 1 < SIZE_MOD) :
    StepOK w (.sConvAssign i j off) := by
  cases hs : w.shared i with
  | none => exact StepOK.skip hInv (by simp [step, hs, pure, Except.pure])
  | some s =>
    cases ht : w.shared j with
    | none => exact StepOK.skip hInv (by simp [step, hs, ht, pure, Except.pure])
    | some t =>
      obtain ⟨tcb, tptr⟩ := t
      cases tcb with
      | none => simp [Op.legal, hs, ht] at hl
      | some a =>
        obtain ⟨h1, h2, hd, hinc, hI, hlen⟩ := assign_core hInv hs ht hl hsp (convert off tptr)
        refine ⟨_, ?_, hI, by simp, by simp, by simp [hlen]⟩
        simp [step, hs, ht, SharedPtr.conv_copy_assign, hd, hinc, pure, Except.pure, bind,
          Except.bind]

theorem step_sResetPtr {w : World} (hInv : Inv w) (i : Nat) (p : Option Nat)
    (hsp : w.sp.length + 1 < SIZE_MOD) : StepOK w (.sResetPtr i p) := by
  cases hs : w.shared i with
  | none => exact StepOK.skip hInv (by simp [step, hs, pure, Except.pure])
  | some s =>
    have hi := shared_eq_some.1 hs
    have hlt := lt_length_of_getElem? hi
    -- the temporary built by the raw-pointer constructor, seen as one more variable
    have hI0 : Inv ⟨w.heap ++ [{ ControlBlockRegular p with shared_count := 1 }],
        w.sp ++ [some ⟨some w.heap.length, p⟩], w.wp⟩ := by
      refine hInv.new_block (by rfl) (by rfl) (by rfl) (by rfl) ?_ ?_
      · intro x
        simp [World.sharedRefs, List.countP_append, List.countP_cons]
      · intro x; rfl
    have hs0 : World.shared ⟨w.heap ++ [{ ControlBlockRegular p with shared_count := 1 }],
        w.sp ++ [some ⟨some w.heap.length, p⟩], w.wp⟩ i = some s := by
      rw [shared_eq_some]
      simp only []
      rw [List.getElem?_append_left hlt]
      exact hi
    obtain ⟨h1, hd, hI, hlen, -, -⟩ :=
      release_at hI0 hs0 (by simp; omega) (some ⟨none, none⟩) (fun _ => rfl)
    simp only [] at hd hI
    have hlen1 : w.heap.length ≤ h1.length := by
      rw [hlen]; simp
    refine ⟨⟨h1, w.sp.set i (some ⟨some w.heap.length, p⟩), w.wp⟩, ?_, ?_, by simp, by simp,
      hlen1⟩
    · simp [step, hs, SharedPtr.reset_ptr, SharedPtr.raw_ctor_eq, SharedPtr.move_assign, hd,
        SharedPtr.dtor_empty_eq, pure, Except.pure, bind, Except.bind]
    · refine hI.of_counts_eq (by rfl) ?_ ?_
      · intro x
        simp only [World.sharedRefs]
        rw [List.set_append_left _ _ hlt]
        have h1 := countP_set_add (sharedOn x) (some ⟨none, none⟩) hi
        have h2 := countP_set_add (sharedOn x) (some ⟨some w.heap.length, p⟩) hi
        simp only [List.countP_append, List.countP_cons, List.countP_nil]
        simp only [sharedOn_empty, Bool.false_eq_true, if_false] at h1
        omega
      · intro x; rfl

theorem step_sLock {w : World} (hInv : Inv w) (j : Nat) (hsp : w.sp.length + 1 < SIZE_MOD) :
    StepOK w (.sLock j) := by
  cases hk : w.weak j with
  | none => exact StepOK.skip hInv (by simp [step, hk, pure, Except.pure])
  | some k =>
    obtain ⟨cb⟩ := k
    have hempty : Inv ⟨w.heap, w.sp ++ [some SharedPtr.default_ctor], w.wp⟩ := by
      refine hInv.of_counts_eq (by rfl) ?_ ?_
      · intro x
        simp [World.sharedRefs, List.countP_append, List.countP_cons, SharedPtr.default_ctor]
      · intro x; rfl
    cases cb with
    | none =>
      refine ⟨_, ?_, hempty, by simp, by simp, by simp⟩
      simp [step, hk, WeakPtr.lock, WeakPtr.expired, pure, Except.pure, bind, Except.bind]
    | some a =>
      obtain ⟨b, hb, hsc, hwc, hcalls, hf, h0, hle, -⟩ := hInv.weak_block hk rfl
      by_cases hz : b.shared_count = 0
      · refine ⟨_, ?_, hempty, by simp, by simp, by simp⟩
        simp [step, hk, WeakPtr.lock, WeakPtr.expired, access_some hb hf, hz, pure, Except.pure,
          bind, Except.bind]
      · refine ⟨⟨w.heap.set a { b with shared_count := b.shared_count + 1 },
                  w.sp ++ [some ⟨some a, b.get_ptr⟩], w.wp⟩, ?_, ?_, by simp, by simp, by simp⟩
        · simp [step, hk, WeakPtr.lock, WeakPtr.expired, SharedPtr.block_ctor,
            access_some hb hf, hz, pure, Except.pure, bind, Except.bind,
            SharedPtr.increment_count_block_eq _ hb hf (by omega)]
        · refine hInv.acquire_shared hb hz (by rfl) (by rfl) (by rfl) (by rfl) ?_ ?_
          · intro x
            simp [World.sharedRefs, List.countP_append, List.countP_cons]
          · intro x; rfl

theorem wrelease_at {w : World} (hInv : Inv w) {j : Nat} {k : WeakPtr}
    (hk : w.weak j = some k) (hbound : w.wp.length < SIZE_MOD) (x : Option WeakPtr)
    (hx : ∀ a, weakOn a x = false) :
    ∃ h1, k.dtor w.heap = .ok h1 ∧ Inv ⟨h1, w.sp, w.wp.set j x⟩ ∧
      h1.length = w.heap.length := by
  have hj := weak_eq_some.1 hk
  obtain ⟨cb⟩ := k
  cases cb with
  | none =>
    refine ⟨w.heap, WeakPtr.weak_dtor_empty_eq _, ?_, rfl⟩
    refine hInv.of_counts_eq (by rfl) ?_ ?_
    · intro a; rfl
    · intro a
      have := countP_set_add (weakOn a) x hj
      simpa [World.weakRefs, hx] using this
  | some a =>
    obtain ⟨b, hb, hsc, hwc, hcalls, hf, h0, -, hle⟩ := hInv.weak_block hk rfl
    refine ⟨_, WeakPtr.weak_dtor_block_eq hb hf h0 (by omega), ?_, by simp⟩
    refine hInv.release_weak hb h0 (by rfl) ?_ ?_
    · intro y; rfl
    · intro y
      have := countP_set_add (weakOn y) x hj
      simpa [World.weakRefs, hx] using this

theorem wacquire_at {w : World} (hInv : Inv w) {j a : Nat} {old : Option WeakPtr}
    {b : BaseControlBlock} (hj : w.wp[j]? = some old) (hold : ∀ x, weakOn x old = false)
    (hb : w.heap[a]? = some b) (h0 : b.shared_count ≠ 0 ∨ b.weak_count ≠ 0)
    (hbound : w.wp.length < SIZE_MOD) :
    ∃ h1, WeakPtr.increment_count ⟨some a⟩ w.heap = .ok h1 ∧
      Inv ⟨h1, w.sp, w.wp.set j (some ⟨some a⟩)⟩ ∧ h1.length = w.heap.length := by
  have hcount : ∀ x, (w.wp.set j (some ⟨some a⟩)).countP (weakOn x) =
      w.wp.countP (weakOn x) + if x = a then 1 else 0 := by
    intro x
    have := countP_set_add (weakOn x) (some ⟨some a⟩) hj
    simpa [hold] using this
  have hx := hInv a
  rw [hb] at hx
  simp only [BlockOK] at hx
  have hle : (w.wp.set j (some ⟨some a⟩)).countP (weakOn a) ≤ w.wp.length := by
    have := List.countP_le_length (weakOn a) (l := w.wp.set j (some ⟨some a⟩))
    simpa using this
  have hlt : b.weak_count + 1 < SIZE_MOD := by
    have := hcount a
    simp only [if_true] at this
    have h1 : b.weak_count = w.wp.countP (weakOn a) := hx.2.1
    omega
  have hf : Call.deallocate ∉ b.calls := not_freed_of_expected hx.2.2 h0
  refine ⟨_, WeakPtr.weak_increment_count_block_eq hb hf hlt, ?_, by simp⟩
  exact hInv.acquire_weak hb h0 (by rfl) (by rfl) (by rfl) (by rfl) (fun _ => rfl) hcount

theorem step_wDefault {w : World} (hInv : Inv w) : StepOK w .wDefault := by
  refine ⟨_, rfl, ?_, by simp, by simp, by simp⟩
  refine hInv.of_counts_eq (by rfl) ?_ ?_
  · intro x; rfl
  · intro x; simp [World.weakRefs, List.countP_append, List.countP_cons, WeakPtr.default_ctor]

theorem step_wCopy {w : World} (hInv : Inv w) (j : Nat)
    (hl : (Op.wCopy j).legal w = true) (hwp : w.wp.length + 1 < SIZE_MOD) :
    StepOK w (.wCopy j) := by
  cases hk : w.weak j with
  | none => exact StepOK.skip hInv (by simp [step, hk, pure, Except.pure])
  | some k =>
    obtain ⟨cb⟩ := k
    cases cb with
    | none => simp [Op.legal, hk, weakNonEmpty] at hl
    | some a =>
      obtain ⟨b, hb, hsc, hwc, hcalls, hf, h0, -, hle⟩ := hInv.weak_block hk rfl
      refine ⟨⟨w.heap.set a { b with weak_count := b.weak_count + 1 }, w.sp,
                w.wp ++ [some ⟨some a⟩]⟩, ?_, ?_, by simp, by simp, by simp⟩
      · simp [step, hk, WeakPtr.copy_ctor, pure, Except.pure, bind, Except.bind,
          WeakPtr.weak_increment_count_block_eq hb hf (by omega)]
      · refine hInv.acquire_weak hb (Or.inr h0) (by rfl) (by rfl) (by rfl) (by rfl) ?_ ?_
        · intro x; rfl
        · intro x
          simp [World.weakRefs, List.countP_append, List.countP_cons]

theorem step_wFromShared {w : World} (hInv : Inv w) (i : Nat)
    (hl : (Op.wFromShared i).legal w = true) (hwp : w.wp.length + 1 < SIZE_MOD) :
    StepOK w (.wFromShared i) := by
  cases hs : w.shared i with
  | none => exact StepOK.skip hInv (by simp [step, hs, pure, Except.pure])
  | some s =>
    obtain ⟨cb, p⟩ := s
    cases cb with
    | none => simp [Op.legal, hs, sharedNonEmpty] at hl
    | some a =>
      obtain ⟨b, hb, hsc, hwc, hcalls, h0, -, hle⟩ := hInv.shared_block hs rfl
      have hf : Call.deallocate ∉ b.calls := by simp [hcalls]
      refine ⟨⟨w.heap.set a { b with weak_count := b.weak_count + 1 }, w.sp,
                w.wp ++ [some ⟨some a⟩]⟩, ?_, ?_, by simp, by simp, by simp⟩
      · simp [step, hs, WeakPtr.from_shared, pure, Except.pure, bind, Except.bind,
          WeakPtr.weak_increment_count_block_eq hb hf (by omega)]
      · refine hInv.acquire_weak hb (Or.inl h0) (by rfl) (by rfl) (by rfl) (by rfl) ?_ ?_
        · intro x; rfl
        · intro x
          simp [World.weakRefs, List.countP_append, List.countP_cons]

theorem step_wMove {w : World} (hInv : Inv w) (j : Nat) : StepOK w (.wMove j) := by
  cases hk : w.weak j with
  | none => exact StepOK.skip hInv (by simp [step, hk, pure, Except.pure])
  | some k =>
    obtain ⟨cb⟩ := k
    have hj := weak_eq_some.1 hk
    refine ⟨⟨w.heap, w.sp, w.wp.set j (some ⟨none⟩) ++ [some ⟨cb⟩]⟩, ?_, ?_, by simp, by simp, by simp⟩
    · simp [step, hk, WeakPtr.move_ctor, pure, Except.pure]
    · refine hInv.of_counts_eq (by rfl) ?_ ?_
      · intro x; rfl
      · intro x
        have := countP_set_add (weakOn x) (some ⟨none⟩) hj
        simp only [weakOn_empty, Bool.false_eq_true, if_false] at this
        simp only [World.weakRefs, List.countP_append, List.countP_cons, List.countP_nil]
        omega

theorem step_wDtor {w : World} (hInv : Inv w) (j : Nat) (hwp : w.wp.length + 1 < SIZE_MOD) :
    StepOK w (.wDtor j) := by
  cases hk : w.weak j with
  | none => exact StepOK.skip hInv (by simp [step, hk, pure, Except.pure])
  | some k =>
    obtain ⟨h1, hd, hI, hlen⟩ := wrelease_at hInv hk (by omega) none (fun _ => rfl)
    refine ⟨_, ?_, hI, by simp, by simp, by simp [hlen]⟩
    simp [step, hk, hd, pure, Except.pure, bind, Except.bind]

theorem step_wAssign {w : World} (hInv : Inv w) (j k : Nat)
    (hl : (Op.wAssign j k).legal w = true) : StepOK w (.wAssign j k) := by
  cases hj : w.weak j with
  | none => exact StepOK.skip hInv (by simp [step, hj, pure, Except.pure])
  | some this =>
    cases hk : w.weak k with
    | none => exact StepOK.skip hInv (by simp [step, hj, hk, pure, Except.pure])
    | some other =>
      obtain ⟨cb⟩ := this
      obtain ⟨cb1⟩ := other
      simp only [Op.legal, hj, hk, beq_iff_eq] at hl
      subst hl
      have hj1 := weak_eq_some.1 hj
      refine ⟨⟨w.heap, w.sp, w.wp.set j (some ⟨cb⟩)⟩, ?_, ?_, by simp, by simp, by simp⟩
      · simp [step, hj, hk, WeakPtr.implicit_copy_assign, pure, Except.pure]
      · refine hInv.of_counts_eq (by rfl) ?_ ?_
        · intro x; rfl
        · intro x
          have := countP_set_add (weakOn x) (some ⟨cb⟩) hj1
          simp only [World.weakRefs]
          omega

theorem wassign_core {w : World} (hInv : Inv w) {j a : Nat} {k : WeakPtr}
    (hk : w.weak j = some k) (hwp : w.wp.length + 1 < SIZE_MOD)
    (hsrc : ∀ h1, Inv ⟨h1, w.sp, w.wp.set j (some ⟨none⟩)⟩ →
      ∃ b, h1[a]? = some b ∧ (b.shared_count ≠ 0 ∨ b.weak_count ≠ 0)) :
    ∃ h1 h2 b1, k.dtor w.heap = .ok h1 ∧ h1.access (some a) = .ok (a, b1) ∧
      h2 = h1.set a { b1 with weak_count := (b1.weak_count + 1) % SIZE_MOD } ∧
      WeakPtr.increment_count ⟨some a⟩ h1 = .ok h2 ∧
      Inv ⟨h2, w.sp, w.wp.set j (some ⟨some a⟩)⟩ ∧ h2.length = w.heap.length := by
  obtain ⟨h1, hd, hI, hlen⟩ := wrelease_at hInv hk (by omega) (some ⟨none⟩) (fun _ => rfl)
  have hj := weak_eq_some.1 hk
  have hj1 : (w.wp.set j (some (⟨none⟩ : WeakPtr)))[j]? = some (some ⟨none⟩) :=
    getElem?_set_of_some hj
  obtain ⟨b1, hb1, h01⟩ := hsrc h1 hI
  obtain ⟨h2, hinc, hI2, hlen2⟩ := wacquire_at hI hj1 (fun _ => rfl) hb1 h01 (by simp; omega)
  have hx := hI a
  simp only [] at hx hb1
  rw [hb1] at hx
  have hf : Call.deallocate ∉ b1.calls := not_freed_of_expected hx.2.2 h01
  have hacc := access_some hb1 hf
  refine ⟨h1, h2, b1, hd, hacc, ?_, hinc, ?_, by simpa [hlen] using hlen2⟩
  · simp only [WeakPtr.increment_count, hacc, bind, Except.bind, pure, Except.pure] at hinc
    exact (Except.ok.inj hinc).symm
  · simpa [List.set_set] using hI2

theorem step_wConvAssign {w : World} (hInv : Inv w) (j k : Nat)
    (hl : (Op.wConvAssign j k).legal w = true) (hwp : w.wp.length + 1 < SIZE_MOD) :
    StepOK w (.wConvAssign j k) := by
  cases hj : w.weak j with
  | none => exact StepOK.skip hInv (by simp [step, hj, pure, Except.pure])
  | some this =>
    cases hk : w.weak k with
    | none => exact StepOK.skip hInv (by simp [step, hj, hk, pure, Except.pure])
    | some other =>
      obtain ⟨cb1⟩ := other
      simp only [Op.legal, hk, weakNonEmpty, Bool.and_eq_true, bne_iff_ne, ne_eq] at hl
      obtain ⟨hne, hsome⟩ := hl
      cases cb1 with
      | none => simp at hsome
      | some a =>
        have hsrc : ∀ h1, Inv ⟨h1, w.sp, w.wp.set j (some ⟨none⟩)⟩ →
            ∃ b, h1[a]? = some b ∧ (b.shared_count ≠ 0 ∨ b.weak_count ≠ 0) := by
          intro h1 hI
          have hk1 : World.weak ⟨h1, w.sp, w.wp.set j (some ⟨none⟩)⟩ k = some ⟨some a⟩ := by
            rw [weak_eq_some]
            simp only []
            rw [List.getElem?_set_ne hne]
            exact weak_eq_some.1 hk
          obtain ⟨b, hb, -, -, -, -, h0, -, -⟩ := hI.weak_block hk1 rfl
          exact ⟨b, hb, Or.inr h0⟩
        obtain ⟨h1, h2, b1, hd, hacc, he, hinc, hI, hlen⟩ := wassign_core hInv hj hwp hsrc
        refine ⟨_, ?_, hI, by simp, by simp, by simp [hlen]⟩
        simp [step, hj, hk, WeakPtr.conv_assign, hd, hacc, he, pure, Except.pure, bind,
          Except.bind]

theorem step_wAssignShared {w : World} (hInv : Inv w) (j i : Nat)
    (hl : (Op.wAssignShared j i).legal w = true) (hwp : w.wp.length + 1 < SIZE_MOD) :
    StepOK w (.wAssignShared j i) := by
  cases hj : w.weak j with
  | none => exact StepOK.skip hInv (by simp [step, hj, pure, Except.pure])
  | some this =>
    cases hs : w.shared i with
    | none => exact StepOK.skip hInv (by simp [step, hj, hs, pure, Except.pure])
    | some other =>
      obtain ⟨cb1, p⟩ := other
      cases cb1 with
      | none => simp [Op.legal, hs, sharedNonEmpty] at hl
      | some a =>
        have hsrc : ∀ h1, Inv ⟨h1, w.sp, w.wp.set j (some ⟨none⟩)⟩ →
            ∃ b, h1[a]? = some b ∧ (b.shared_count ≠ 0 ∨ b.weak_count ≠ 0) := by
          intro h1 hI
          have hs1 : World.shared ⟨h1, w.sp, w.wp.set j (some ⟨none⟩)⟩ i = some ⟨some a, p⟩ := hs
          obtain ⟨b, hb, -, -, -, h0, -, -⟩ := hI.shared_block hs1 rfl
          exact ⟨b, hb, Or.inl h0⟩
        obtain ⟨h1, h2, b1, hd, hacc, he, hinc, hI, hlen⟩ := wassign_core hInv hj hwp hsrc
        refine ⟨_, ?_, hI, by simp, by simp, by simp [hlen]⟩
        simp [step, hj, hs, WeakPtr.assign_shared, hd, hinc, pure, Except.pure, bind,
          Except.bind]

/-- Every legal statement executes without a fault and keeps the counting
invariant. -/
theorem step_inv {w : World} (hInv : Inv w) (op : Op) (hl : op.legal w = true)
    (hsp : w.sp.length + 1 < SIZE_MOD) (hwp : w.wp.length + 1 < SIZE_MOD) : StepOK w op := by
  cases op with
  | sDefault => exact step_sDefault hInv
  | sRaw p => exact step_sRaw hInv p
  | sMake obj => exact step_sMake hInv obj
  | sCopy i => exact step_sCopy hInv i hsp
  | sConvCopy i off => exact step_sConvCopy hInv i off hl hsp
  | sMove i => exact step_sMove hInv i
  | sConvMove i off => exact step_sConvMove hInv i off
  | sLock j => exact step_sLock hInv j hsp
  | sDtor i => exact step_sDtor hInv i hsp
  | sReset i => exact step_sReset hInv i (by omega)
  | sResetPtr i p => exact step_sResetPtr hInv i p hsp
  | sSwap i j => exact step_sSwap hInv i j
  | sAssign i j => exact step_sAssign hInv i j hl hsp
  | sConvAssign i j off => exact step_sConvAssign hInv i j off hl hsp
  | sMoveAssign i j => exact step_sMoveAssign hInv i j hsp
  | sConvMoveAssign i j off => exact step_sConvMoveAssign hInv i j off hsp
  | wDefault => exact step_wDefault hInv
  | wCopy j => exact step_wCopy hInv j hl hwp
  | wMove j => exact step_wMove hInv j
  | wFromShared i => exact step_wFromShared hInv i hl hwp
  | wDtor j => exact step_wDtor hInv j hwp
  | wAssign j k => exact step_wAssign hInv j k hl
  | wConvAssign j k => exact step_wConvAssign hInv j k hl hwp
  | wAssignShared j i => exact step_wAssignShared hInv j i hl hwp

theorem inv_empty : Inv World.empty := by
  intro a
  simp [World.empty, BlockOK, World.sharedRefs, World.weakRefs]

/-- A legal program executes without a fault and ends in a state that satisfies
the counting invariant. -/
theorem run_inv (ops : List Op) : ∀ {w : World}, Inv w → legalRun w ops = true →
    w.sp.length + ops.length < SIZE_MOD → w.wp.length + ops.length < SIZE_MOD →
    ∃ w1, run w ops = .ok w1 ∧ Inv w1 ∧ w1.sp.length ≤ w.sp.length + ops.length ∧
      w1.wp.length ≤ w.wp.length + ops.length ∧ w.heap.length ≤ w1.heap.length := by
  induction ops with
  | nil =>
    intro w hInv _ _ _
    exact ⟨w, rfl, hInv, by simp, by simp, Nat.le_refl _⟩
  | cons op ops ih =>
    intro w hInv hl hsp hwp
    simp only [legalRun, Bool.and_eq_true] at hl
    simp only [List.length_cons] at hsp hwp
    obtain ⟨w1, hstep, hI1, hs1, hw1, hh1⟩ := step_inv hInv op hl.1 (by omega) (by omega)
    have hl2 := hl.2
    rw [hstep] at hl2
    obtain ⟨w2, hrun, hI2, hs2, hw2, hh2⟩ := ih hI1 hl2 (by omega) (by omega)
    refine ⟨w2, ?_, hI2, ?_, ?_, by omega⟩
    · simp [run, hstep, hrun, bind, Except.bind]
    · simp only [List.length_cons]; omega
    · simp only [List.length_cons]; omega

/-- C7 (shared-handle destructor protocol).  Destroying an empty shared handle
leaves the heap as it is.  Destroying a handle on a block that is still
allocated and has `shared_count = n` with `1 ≤ n` changes this block only:
`shared_count` becomes `n - 1`, `weak_count` is unchanged, and the calls made
are `destroy()` followed by `deallocate()` when `n - 1 = 0` and `weak_count = 0`,
`destroy()` alone when `n - 1 = 0` and `weak_count ≠ 0`, and none when
`n - 1 > 0`. -/
theorem shared_dtor_protocol (h : Heap) (p : Option Nat) (a : Nat) (b : BaseControlBlock)
    (hb : h[a]? = some b) (hlive : Call.deallocate ∉ b.calls)
    (hn : 1 ≤ b.shared_count) (hrange : b.shared_count < SIZE_MOD) :
    SharedPtr.dtor ⟨none, p⟩ h = .ok h ∧
    ∃ b1, SharedPtr.dtor ⟨some a, p⟩ h = .ok (h.set a b1) ∧
      b1.shared_count = b.shared_count - 1 ∧
      b1.weak_count = b.weak_count ∧
      b1.calls = b.calls ++
        (if b.shared_count - 1 = 0 then
          (if b.weak_count = 0 then [Call.destroy, Call.deallocate] else [Call.destroy])
         else []) := by
  refine ⟨SharedPtr.dtor_empty_eq p h, releaseShared b,
    SharedPtr.dtor_block_eq p hb hlive (by omega) hrange, ?_, ?_, ?_⟩
  all_goals
    unfold releaseShared BaseControlBlock.deallocate BaseControlBlock.destroy
    by_cases h1 : b.shared_count - 1 = 0 <;> by_cases h2 : b.weak_count = 0 <;>
      cases hi : b.inlineObject <;> simp [h1, h2, hi]

theorem shared_dtor_protocol_witness :
    SharedPtr.dtor ⟨none, some 7⟩ [soleOwnerBlock] = .ok [soleOwnerBlock] ∧
    ∃ b1, SharedPtr.dtor ⟨some 0, some 7⟩ [soleOwnerBlock] = .ok [b1] ∧
      b1.shared_count = 0 ∧ b1.weak_count = 0 ∧
      b1.calls = [Call.destroy, Call.deallocate] :=
  shared_dtor_protocol [soleOwnerBlock] (some 7) 0 soleOwnerBlock rfl (by decide) (by decide)
    (by decide)

/-- C8 (weak-handle destructor protocol).  Destroying an empty weak handle
leaves the heap as it is.  Destroying a weak handle on a block that is still
allocated and has `weak_count = m` with `1 ≤ m` changes this block only:
`weak_count` becomes `m - 1`, `shared_count` is unchanged, `destroy()` is not
called, and `deallocate()` is called exactly when `shared_count = 0` and
`m - 1 = 0`. -/
theorem weak_dtor_protocol (h : Heap) (a : Nat) (b : BaseControlBlock)
    (hb : h[a]? = some b) (hlive : Call.deallocate ∉ b.calls)
    (hm : 1 ≤ b.weak_count) (hrange : b.weak_count < SIZE_MOD) :
    WeakPtr.dtor ⟨none⟩ h = .ok h ∧
    ∃ b1, WeakPtr.dtor ⟨some a⟩ h = .ok (h.set a b1) ∧
      b1.weak_count = b.weak_count - 1 ∧
      b1.shared_count = b.shared_count ∧
      b1.calls = b.calls ++
        (if b.shared_count = 0 ∧ b.weak_count - 1 = 0 then [Call.deallocate] else []) := by
  refine ⟨WeakPtr.weak_dtor_empty_eq h, releaseWeak b,
    WeakPtr.weak_dtor_block_eq hb hlive (by omega) hrange, ?_, ?_, ?_⟩
  all_goals
    unfold releaseWeak BaseControlBlock.deallocate
    by_cases h1 : b.shared_count = 0 <;> by_cases h2 : b.weak_count - 1 = 0 <;>
      simp [h1, h2]

theorem weak_dtor_protocol_witness :
    WeakPtr.dtor ⟨none⟩ [expiredBlock] = .ok [expiredBlock] ∧
    ∃ b1, WeakPtr.dtor ⟨some 0⟩ [expiredBlock] = .ok [b1] ∧
      b1.weak_count = 0 ∧ b1.shared_count = 0 ∧
      b1.calls = [Call.destroy, Call.deallocate] :=
  weak_dtor_protocol [expiredBlock] 0 expiredBlock rfl (by decide) (by decide) (by decide)

/-- An initial part of a legal program is a legal program. -/
theorem legalRun_initial (pre suf : List Op) :
    ∀ (w : World), legalRun w (pre ++ suf) = true → legalRun w pre = true := by
  induction pre with
  | nil => intro w _; rfl
  | cons op pre ih =>
    intro w h
    simp only [List.cons_append, legalRun, Bool.and_eq_true] at h ⊢
    refine ⟨h.1, ?_⟩
    cases hstep : step w op with
    | error e => rfl
    | ok w1 =>
      have h2 := h.2
      rw [hstep] at h2
      exact ih w1 h2

/-- C4 (evaluation at the failing input).  After
`SharedPtr<T> a(p); WeakPtr<T> w0(a); WeakPtr<T> w1; w1 = w0;` two live weak
handles reference the block, which is still allocated, and its `weak_count`
is 1.  When the three handles are then destroyed, the destructor of the last
weak handle reads the block after it has been deallocated. -/
theorem weak_copy_assign_not_counted :
    (run World.empty weakAssignProgram).map
        (fun w => (w.weakRefs 0, w.heap.map (fun b => (b.weak_count, b.calls)))) =
      .ok (2, [(1, [])]) ∧
    run World.empty (weakAssignProgram ++ [.sDtor 0, .wDtor 0]) =
      .ok ⟨[{ ControlBlockRegular none with
                calls := [Call.destroy, Call.deallocate], deleted := [some 7] }],
           [none], [none, some ⟨some 0⟩]⟩ ∧
    run World.empty (weakAssignProgram ++ [.sDtor 0, .wDtor 0, .wDtor 1]) =
      .error Fault.useAfterFree := by
  decide

/-- C5 (evaluation at the failing input).  `SharedPtr<T> a(p); a = a;` with `a`
the sole owner: the destructor call at the head of the assignment operator
takes `shared_count` to 0 and calls `destroy()` and `deallocate()`, and the
increment that follows writes to the block that has just been deallocated.
With a weak observer on the block the assignment returns, `use_count()` is 1
again, and `destroy()` has been called on the object that `a` still refers
to. -/
theorem self_assign_sole_owner_tears_down :
    SharedPtr.dtor ⟨some 0, some 7⟩ [soleOwnerBlock] =
      .ok [{ ControlBlockRegular none with
               calls := [Call.destroy, Call.deallocate], deleted := [some 7] }] ∧
    SharedPtr.copy_assign ⟨some 0, some 7⟩ ⟨some 0, some 7⟩ [soleOwnerBlock] =
      .error Fault.useAfterFree ∧
    SharedPtr.copy_assign ⟨some 0, some 7⟩ ⟨some 0, some 7⟩ [observedBlock] =
      .ok ([{ ControlBlockRegular none with
                shared_count := 1, weak_count := 1,
                calls := [Call.destroy], deleted := [some 7] }], ⟨some 0, some 7⟩) := by
  decide

/-- C6 (counterexample).  `allocateShared` on the empty heap with a constructor
that throws: the exception leaves the function, and the block allocated for
the call is still held, so the number of outstanding allocations has gone from
0 to 1. -/
theorem allocateShared_throw_leaks :
    allocateShared false 7 [] = .ok ([ControlBlockMakeShared 7], Completion.thrown) ∧
    Heap.outstanding [] = 0 ∧ Heap.outstanding [ControlBlockMakeShared 7] = 1 := by
  decide

/-- C6 (amended).  When the constructor of the managed object throws inside
`allocateShared` (or `makeShared`), the exception leaves the function and no
handle is returned; the blocks that existed before are unchanged; the block
allocated for the call has not been deallocated, so exactly one outstanding
allocation attributable to the call remains. -/
theorem allocateShared_throw_keeps_block (obj : Nat) (h : Heap) :
    allocateShared false obj h = .ok (h ++ [ControlBlockMakeShared obj], Completion.thrown) ∧
    makeShared false obj h = .ok (h ++ [ControlBlockMakeShared obj], Completion.thrown) ∧
    Call.deallocate ∉ (ControlBlockMakeShared obj).calls ∧
    Heap.outstanding (h ++ [ControlBlockMakeShared obj]) = Heap.outstanding h + 1 := by
  refine ⟨?_, ?_, ?_, ?_⟩
  · simp [allocateShared, pure, Except.pure]
  · simp [makeShared, allocateShared, pure, Except.pure]
  · simp [ControlBlockMakeShared]
  · simp [Heap.outstanding, List.countP_append, List.countP_cons, ControlBlockMakeShared]

theorem legal_of_sharedBasic {op : Op} (h : op.sharedBasic = true) (w : World) :
    op.legal w = true := by
  cases op <;> simp [Op.sharedBasic] at h <;> rfl

theorem legalRun_of_sharedBasic (ops : List Op) :
    ∀ (w : World), (∀ op ∈ ops, op.sharedBasic = true) → legalRun w ops = true := by
  induction ops with
  | nil => intro w _; rfl
  | cons op ops ih =>
    intro w h
    simp only [legalRun, Bool.and_eq_true]
    refine ⟨legal_of_sharedBasic (h op (List.mem_cons_self _ _)) w, ?_⟩
    cases hstep : step w op with
    | error e => rfl
    | ok w1 => exact ih w1 (fun o ho => h o (List.mem_cons_of_mem _ ho))

theorem step_creates {init : Op} (hinit : init.creates = true) :
    ∃ w0 p, step World.empty init = .ok w0 ∧ Inv w0 ∧ w0.heap.length = 1 ∧
      w0.sp = [some ⟨some 0, p⟩] ∧ w0.wp = [] := by
  have hb : (1 : Nat) < SIZE_MOD := by decide
  obtain ⟨w1, hstep, hI, -, -, -⟩ :=
    step_inv inv_empty init (by cases init <;> simp [Op.creates] at hinit <;> rfl)
      (by simpa [World.empty] using hb) (by simpa [World.empty] using hb)
  cases init <;> simp [Op.creates] at hinit
  · rename_i p
    have : step World.empty (.sRaw p) = .ok ⟨[{ ControlBlockRegular p with shared_count := 1 }],
        [some ⟨some 0, p⟩], []⟩ := rfl
    rw [this] at hstep
    cases hstep
    exact ⟨_, p, this, hI, rfl, rfl, rfl⟩
  · rename_i obj
    have : step World.empty (.sMake obj) =
        .ok ⟨[{ ControlBlockMakeShared obj with shared_count := 1 }],
          [some ⟨some 0, some obj⟩], []⟩ := rfl
    rw [this] at hstep
    cases hstep
    exact ⟨_, some obj, this, hI, rfl, rfl, rfl⟩

/-- C1.  Take a block created by the raw-pointer constructor or by the factory
and any sequence, shorter than `2 ^ 64`, of copy constructions, move
constructions, `reset()` calls and destructions of shared handles.  The
sequence runs without a fault, and in
the state it reaches (and so, every prefix being such a sequence, after each
of its statements) `shared_count` is the number of live shared handles on the
block and the number of `destroy()` calls on the block is 0 while a live
shared handle references it and 1 once none does.  So `destroy()` is called in
the statement that releases the last handle, not before and not again. -/
theorem destroy_once_at_last_release (init : Op) (ops : List Op)
    (hinit : init.creates = true) (hops : ∀ op ∈ ops, op.sharedBasic = true)
    (hlen : ops.length + 1 < SIZE_MOD) :
    ∃ w b, run World.empty (init :: ops) = .ok w ∧ w.heap[0]? = some b ∧
      b.shared_count = w.sharedRefs 0 ∧
      b.calls.count Call.destroy = (if w.sharedRefs 0 = 0 then 1 else 0) := by
  obtain ⟨w0, p, hstep, hI0, hh0, hsp0, hwp0⟩ := step_creates hinit
  obtain ⟨w, hrun, hInv, -, -, hheap⟩ := run_inv ops hI0 (legalRun_of_sharedBasic ops w0 hops)
    (by rw [hsp0]; simp; omega) (by rw [hwp0]; simp; omega)
  have hlt : 0 < w.heap.length := by omega
  refine ⟨w, w.heap[0], ?_, List.getElem?_eq_getElem hlt, ?_⟩
  · simp [run, hstep, hrun, bind, Except.bind]
  · have hx := hInv 0
    rw [List.getElem?_eq_getElem hlt] at hx
    simp only [BlockOK] at hx
    refine ⟨hx.1, ?_⟩
    rw [hx.2.2, ← hx.1]
    unfold expectedCalls
    by_cases h1 : w.heap[0].shared_count = 0 <;> by_cases h2 : w.heap[0].weak_count = 0 <;>
      simp [h1, h2]

theorem destroy_once_at_last_release_witness :
    ∃ w b, run World.empty [.sRaw (some 7), .sCopy 0, .sMove 1, .sDtor 0, .sReset 2, .sDtor 1,
        .sDtor 2] = .ok w ∧ w.heap[0]? = some b ∧
      b.shared_count = w.sharedRefs 0 ∧
      b.calls.count Call.destroy = (if w.sharedRefs 0 = 0 then 1 else 0) :=
  destroy_once_at_last_release (.sRaw (some 7))
    [.sCopy 0, .sMove 1, .sDtor 0, .sReset 2, .sDtor 1, .sDtor 2] rfl (by decide) (by decide)

theorem SharedPtr.copy_ctor_snd {s s1 : SharedPtr} {h h1 : Heap}
    (hc : s.copy_ctor h = .ok (h1, s1)) : s1 = s := by
  obtain ⟨cb, p⟩ := s
  simp only [SharedPtr.copy_ctor, bind, Except.bind, pure, Except.pure] at hc
  split at hc
  · cases hinc : SharedPtr.increment_count ⟨cb, p⟩ h with
    | error e => simp [hinc] at hc
    | ok h2 =>
      simp only [hinc] at hc
      cases hc
      rfl
  · cases hc
    rfl

theorem step_sCopy_sp {w w1 : World} {i : Nat} {s : SharedPtr}
    (hs : w.shared i = some s) (h : step w (.sCopy i) = .ok w1) :
    w1.sp = w.sp ++ [some s] ∧ w1.wp = w.wp := by
  cases hc : s.copy_ctor w.heap with
  | error e => simp [step, hs, hc, bind, Except.bind] at h
  | ok r =>
    obtain ⟨h1, s1⟩ := r
    have := SharedPtr.copy_ctor_snd hc
    subst this
    simp only [step, hs, hc, bind, Except.bind, pure, Except.pure] at h
    cases h
    exact ⟨rfl, rfl⟩

theorem step_sReset_sp {w w1 : World} {i : Nat} {s : SharedPtr}
    (hs : w.shared i = some s) (h : step w (.sReset i) = .ok w1) :
    w1.sp = w.sp.set i (some ⟨none, none⟩) ∧ w1.wp = w.wp := by
  cases hd : s.dtor w.heap with
  | error e =>
    simp [step, hs, SharedPtr.reset, SharedPtr.move_assign, hd, bind, Except.bind] at h
  | ok h1 =>
    simp only [step, hs, SharedPtr.reset_eq hd, bind, Except.bind, pure, Except.pure] at h
    cases h
    exact ⟨rfl, rfl⟩

theorem countP_le_one_of_unique {α : Type} (p : α → Bool) :
    ∀ (l : List α) (k : Nat), (∀ i x, l[i]? = some x → p x = true → i = k) →
      l.countP p ≤ 1 := by
  intro l
  induction l with
  | nil => intro k _; simp
  | cons y t ih =>
    intro k h
    rw [List.countP_cons]
    cases k with
    | zero =>
      have ht : t.countP p = 0 := by
        rw [List.countP_eq_zero]
        intro a ha hpa
        obtain ⟨n, hn⟩ := List.getElem?_of_mem ha
        have := h (n + 1) a (by simpa using hn) hpa
        omega
      rw [ht]
      split <;> omega
    | succ k =>
      have hy : ¬ (p y = true) := by
        intro hpy
        have := h 0 y (by simp) hpy
        omega
      have := ih k (fun i x hi hx => by
        have := h (i + 1) x (by simpa using hi) hx
        omega)
      have hy1 : p y = false := by simpa using hy
      rw [hy1]
      simp only [Bool.false_eq_true, if_false]
      omega

theorem copies_phase (srcs : List Nat) : ∀ (w : World), Inv w → AllOnFirst w →
    (∀ k (hk : k < srcs.length), srcs[k] < w.sp.length + k) →
    w.sp.length + srcs.length < SIZE_MOD → w.wp.length + 1 < SIZE_MOD →
    ∃ w1, run w (srcs.map Op.sCopy) = .ok w1 ∧ Inv w1 ∧ AllOnFirst w1 ∧
      w1.sp.length = w.sp.length + srcs.length ∧ w.heap.length ≤ w1.heap.length ∧
      w1.wp = w.wp := by
  induction srcs with
  | nil =>
    intro w hInv hall _ _ _
    exact ⟨w, rfl, hInv, hall, by simp, Nat.le_refl _, rfl⟩
  | cons i rest ih =>
    intro w hInv hall hsrc hsp hwp
    simp only [List.length_cons] at hsp
    have hi : i < w.sp.length := by simpa using hsrc 0 (by simp)
    obtain ⟨p, hp⟩ := hall w.sp[i] (List.getElem_mem hi)
    have hs : w.shared i = some ⟨some 0, p⟩ := by
      rw [shared_eq_some, List.getElem?_eq_getElem hi, hp]
    obtain ⟨w1, hstep, hI1, -, -, hh1⟩ :=
      step_inv hInv (.sCopy i) rfl (by omega) hwp
    obtain ⟨hsp1, hwp1⟩ := step_sCopy_sp hs hstep
    have hall1 : AllOnFirst w1 := by
      intro x hx
      rw [hsp1, List.mem_append] at hx
      rcases hx with hx | hx
      · exact hall x hx
      · exact ⟨p, by simpa using hx⟩
    have hlen1 : w1.sp.length = w.sp.length + 1 := by rw [hsp1]; simp
    obtain ⟨w2, hrun, hI2, hall2, hlen2, hh2, hwp2⟩ := ih w1 hI1 hall1
      (by
        intro k hk
        have := hsrc (k + 1) (by simpa using hk)
        simp only [List.getElem_cons_succ] at this
        omega)
      (by omega) (by rw [hwp1]; exact hwp)
    refine ⟨w2, ?_, hI2, hall2, ?_, by omega, by rw [hwp2, hwp1]⟩
    · simp [run, hstep, hrun, bind, Except.bind]
    · simp only [List.length_cons]; omega

theorem resets_phase (keep : Nat) (rs : List Nat) : ∀ (w : World), Inv w → AllAlive w →
    keep ∉ rs → w.sp.length < SIZE_MOD →
    ∃ w2, run w (rs.map Op.sReset) = .ok w2 ∧ Inv w2 ∧ AllAlive w2 ∧
      w2.sp.length = w.sp.length ∧ w.heap.length ≤ w2.heap.length ∧
      w2.sp[keep]? = w.sp[keep]? ∧
      (∀ i ∈ rs, i < w.sp.length → w2.sp[i]? = some (some (⟨none, none⟩ : SharedPtr))) ∧
      (∀ (i : Nat), w.sp[i]? = some (some (⟨none, none⟩ : SharedPtr)) →
        w2.sp[i]? = some (some (⟨none, none⟩ : SharedPtr))) := by
  induction rs with
  | nil =>
    intro w hInv halive _ _
    exact ⟨w, rfl, hInv, halive, rfl, Nat.le_refl _, rfl, by simp, fun _ h => h⟩
  | cons r rest ih =>
    intro w hInv halive hkeep hsp
    have hkr : keep ≠ r := fun e => hkeep (by simp [e])
    have hkrest : keep ∉ rest := fun e => hkeep (List.mem_cons_of_mem _ e)
    obtain ⟨w1, hstep, hI1, -, -, hh1⟩ := step_sReset hInv r hsp
    by_cases hr : r < w.sp.length
    · obtain ⟨s, hs0⟩ := halive r hr
      have hs := shared_eq_some.2 hs0
      obtain ⟨hsp1, hwp1⟩ := step_sReset_sp hs hstep
      have hlen1 : w1.sp.length = w.sp.length := by rw [hsp1]; simp
      have halive1 : AllAlive w1 := by
        intro i hi
        rw [hsp1, List.getElem?_set]
        by_cases hri : r = i
        · simp [hri, ← hlen1, hi]
        · simp only [hri, if_false]
          exact halive i (by omega)
      obtain ⟨w2, hrun, hI2, halive2, hlen2, hh2, hk2, hin2, hemp2⟩ :=
        ih w1 hI1 halive1 hkrest (by omega)
      have hr1 : w1.sp[r]? = some (some ⟨none, none⟩) := by
        rw [hsp1]; exact getElem?_set_of_some hs0
      refine ⟨w2, ?_, hI2, halive2, by omega, by omega, ?_, ?_, ?_⟩
      · simp [run, hstep, hrun, bind, Except.bind]
      · rw [hk2, hsp1, List.getElem?_set_ne (Ne.symm hkr)]
      · intro i hi hilt
        rcases List.mem_cons.1 hi with e | e
        · subst e; exact hemp2 _ hr1
        · exact hin2 i e (by omega)
      · intro i hi
        apply hemp2
        rw [hsp1, List.getElem?_set]
        by_cases hri : r = i
        · simp [hri, hri ▸ hr]
        · simpa [hri] using hi
    · have hs : w.shared r = none := by
        simp [World.shared, List.getElem?_eq_none (Nat.le_of_not_lt hr)]
      have hw1 : w1 = w := by
        simp only [step, hs, pure, Except.pure] at hstep
        cases hstep
        rfl
      subst hw1
      obtain ⟨w2, hrun, hI2, halive2, hlen2, hh2, hk2, hin2, hemp2⟩ :=
        ih w1 hInv halive hkrest hsp
      refine ⟨w2, ?_, hI2, halive2, hlen2, hh2, hk2, ?_, hemp2⟩
      · simp [run, hstep, hrun, bind, Except.bind]
      · intro i hi hilt
        rcases List.mem_cons.1 hi with e | e
        · subst e; exact absurd hilt hr
        · exact hin2 i e hilt

theorem SharedPtr.use_count_some {h : Heap} {a : Nat} {b : BaseControlBlock} (p : Option Nat)
    (hb : h[a]? = some b) (hf : Call.deallocate ∉ b.calls) :
    SharedPtr.use_count ⟨some a, p⟩ h = .ok b.shared_count := by
  simp [SharedPtr.use_count, access_some hb hf, bind, Except.bind, pure, Except.pure]

/-- C9.  Let `N = srcs.length + 1`.  A fresh shared handle is created by the
raw-pointer constructor or by the factory, and `N - 1` further handles are
copy-constructed, the `k`-th of them from any of the handles that exist at
that moment.  Then `use_count()` returns `N` on each of the `N` handles.  When
`reset()` is then called, in any order, on every handle but the one with index
`keep`, `use_count()` on that handle returns 1 and neither `destroy()` nor
`deallocate()` has been called on the block.  Both runs complete without a
fault. -/
theorem use_count_counts_copies (init : Op) (srcs : List Nat) (keep : Nat) (rs : List Nat)
    (hinit : init.creates = true)
    (hsrc : ∀ k (hk : k < srcs.length), srcs[k] ≤ k)
    (hN : srcs.length + 1 < SIZE_MOD)
    (hkeep : keep ≤ srcs.length) (hrs : keep ∉ rs)
    (hall : ∀ i, i ≤ srcs.length → i ≠ keep → i ∈ rs) :
    ∃ w1 w2 b, run World.empty (init :: srcs.map Op.sCopy) = .ok w1 ∧
      (∀ i, i ≤ srcs.length →
        ∃ s, w1.shared i = some s ∧ s.use_count w1.heap = .ok (srcs.length + 1)) ∧
      run w1 (rs.map Op.sReset) = .ok w2 ∧
      (∃ s, w2.shared keep = some s ∧ s.use_count w2.heap = .ok 1) ∧
      w2.heap[0]? = some b ∧ b.calls = [] := by
  have hone : (1 : Nat) < SIZE_MOD := by decide
  obtain ⟨w0, p, hstep, hI0, hh0, hsp0, hwp0⟩ := step_creates hinit
  have hall0 : AllOnFirst w0 := by
    intro x hx
    rw [hsp0] at hx
    exact ⟨p, by simpa using hx⟩
  obtain ⟨w1, hrun1, hI1, hall1, hlen1, hh1, hwp1⟩ := copies_phase srcs w0 hI0 hall0
    (by intro k hk; have := hsrc k hk; rw [hsp0]; simp; omega)
    (by rw [hsp0]; simp; omega) (by rw [hwp0]; simpa using hone)
  have hlen1' : w1.sp.length = srcs.length + 1 := by rw [hlen1, hsp0]; simp; omega
  have hentry : ∀ i, i ≤ srcs.length → ∃ q, w1.sp[i]? = some (some ⟨some 0, q⟩) := by
    intro i hi
    have hlt : i < w1.sp.length := by omega
    obtain ⟨q, hq⟩ := hall1 w1.sp[i] (List.getElem_mem hlt)
    exact ⟨q, by rw [List.getElem?_eq_getElem hlt, hq]⟩
  have hrefs1 : w1.sharedRefs 0 = srcs.length + 1 := by
    rw [← hlen1']
    unfold World.sharedRefs
    rw [List.countP_eq_length]
    intro x hx
    obtain ⟨q, hq⟩ := hall1 x hx
    simp [hq]
  obtain ⟨b1, hb1, hsc1, -, hcalls1⟩ := hI1.block_of_sharedRefs (a := 0) (by omega)
  have halive1 : AllAlive w1 := by
    intro i hi
    obtain ⟨q, hq⟩ := hentry i (by omega)
    exact ⟨_, hq⟩
  obtain ⟨w2, hrun2, hI2, -, hlen2, hh2, hk2, hin2, -⟩ :=
    resets_phase keep rs w1 hI1 halive1 hrs (by omega)
  obtain ⟨q, hq⟩ := hentry keep hkeep
  have hkeep2 : w2.sp[keep]? = some (some ⟨some 0, q⟩) := by rw [hk2, hq]
  have hrefs2 : w2.sharedRefs 0 = 1 := by
    have hpos := sharedRefs_pos (w := w2) hkeep2 rfl
    have hle : w2.sharedRefs 0 ≤ 1 := by
      unfold World.sharedRefs
      apply countP_le_one_of_unique _ _ keep
      intro i x hi hx
      by_contra hne
      have hlt : i < w2.sp.length := lt_length_of_getElem? hi
      have hmem := hall i (by omega) hne
      rw [hin2 i hmem (by omega)] at hi
      cases hi
      simp at hx
    omega
  obtain ⟨b2, hb2, hsc2, -, hcalls2⟩ := hI2.block_of_sharedRefs (a := 0) (by omega)
  refine ⟨w1, w2, b2, ?_, ?_, hrun2, ?_, hb2, hcalls2⟩
  · simp [run, hstep, hrun1, bind, Except.bind]
  · intro i hi
    obtain ⟨q1, hq1⟩ := hentry i hi
    refine ⟨_, shared_eq_some.2 hq1, ?_⟩
    rw [SharedPtr.use_count_some q1 hb1 (by simp [hcalls1]), hsc1, hrefs1]
  · refine ⟨_, shared_eq_some.2 hkeep2, ?_⟩
    rw [SharedPtr.use_count_some q hb2 (by simp [hcalls2]), hsc2, hrefs2]

theorem use_count_counts_copies_witness :
    ∃ w1 w2 b, run World.empty (Op.sMake 7 :: [0, 0, 2].map Op.sCopy) = .ok w1 ∧
      (∀ i, i ≤ [0, 0, 2].length →
        ∃ s, w1.shared i = some s ∧ s.use_count w1.heap = .ok ([0, 0, 2].length + 1)) ∧
      run w1 ([3, 0, 2].map Op.sReset) = .ok w2 ∧
      (∃ s, w2.shared 1 = some s ∧ s.use_count w2.heap = .ok 1) ∧
      w2.heap[0]? = some b ∧ b.calls = [] :=
  use_count_counts_copies (.sMake 7) [0, 0, 2] 1 [3, 0, 2] rfl (by decide) (by decide)
    (by decide) (by decide) (by decide)

theorem BlockSafe.block_mono {n m : Nat} {b : BaseControlBlock} (hb : BlockSafe n b) (hnm : n ≤ m) :
    BlockSafe m b :=
  ⟨by have := hb.1; omega, by have := hb.2.1; omega, hb.2.2⟩

theorem HeapSafe.heap_mono {n m : Nat} {h : Heap} (hs : HeapSafe n h) (hnm : n ≤ m) :
    HeapSafe m h := fun b hb => (hs b hb).block_mono hnm

theorem HeapSafe.set {n : Nat} {h : Heap} (hs : HeapSafe n h) (a : Nat)
    {b1 : BaseControlBlock} (hb1 : BlockSafe n b1) : HeapSafe n (h.set a b1) := by
  intro b hb
  rcases List.mem_or_eq_of_mem_set hb with hmem | heq
  · exact hs b hmem
  · rw [heq]; exact hb1

theorem HeapSafe.append {n : Nat} {h : Heap} (hs : HeapSafe n h)
    {b1 : BaseControlBlock} (hb1 : BlockSafe n b1) : HeapSafe n (h ++ [b1]) := by
  intro b hb
  rcases List.mem_append.1 hb with hmem | hmem
  · exact hs b hmem
  · rw [List.mem_singleton.1 hmem]; exact hb1

theorem access_ok_inv {h : Heap} {cb : Option Nat} {a : Nat} {b : BaseControlBlock}
    (hacc : h.access cb = .ok (a, b)) :
    cb = some a ∧ h[a]? = some b ∧ Call.deallocate ∉ b.calls := by
  unfold Heap.access at hacc
  cases cb with
  | none => simp at hacc
  | some a1 =>
    simp only [] at hacc
    cases hb : h[a1]? with
    | none => simp [hb] at hacc
    | some b1 =>
      simp only [hb] at hacc
      split at hacc
      · simp at hacc
      · rename_i hf
        simp only [Except.ok.injEq, Prod.mk.injEq] at hacc
        obtain ⟨rfl, rfl⟩ := hacc
        exact ⟨rfl, hb, hf⟩

theorem except_bind_ok {ε α β : Type} {x : Except ε α} {f : α → Except ε β} {b : β}
    (h : (x >>= f) = .ok b) : ∃ a, x = .ok a ∧ f a = .ok b := by
  cases x with
  | error e => simp [bind, Except.bind] at h
  | ok a => exact ⟨a, rfl, by simpa [bind, Except.bind] using h⟩

theorem BlockSafe.inc_shared {n : Nat} {b : BaseControlBlock} (hb : BlockSafe n b)
    (hf : Call.deallocate ∉ b.calls) (hn : n + 1 < SIZE_MOD) :
    BlockSafe (n + 1) { b with shared_count := (b.shared_count + 1) % SIZE_MOD } := by
  obtain ⟨h1, h2, h3, h4, h5, h6⟩ := hb
  have e : (b.shared_count + 1) % SIZE_MOD = b.shared_count + 1 :=
    Nat.mod_eq_of_lt (by omega)
  unfold BlockSafe
  dsimp only
  rw [e]
  refine ⟨by omega, by omega, ?_, ?_, h5, ?_⟩
  · simp [hf]
  · intro h; omega
  · intro h; exact absurd h hf

theorem BlockSafe.inc_weak {n : Nat} {b : BaseControlBlock} (hb : BlockSafe n b)
    (hf : Call.deallocate ∉ b.calls) (hn : n + 1 < SIZE_MOD) :
    BlockSafe (n + 1) { b with weak_count := (b.weak_count + 1) % SIZE_MOD } := by
  obtain ⟨h1, h2, h3, h4, h5, h6⟩ := hb
  have e : (b.weak_count + 1) % SIZE_MOD = b.weak_count + 1 :=
    Nat.mod_eq_of_lt (by omega)
  unfold BlockSafe
  dsimp only
  rw [e]
  refine ⟨by omega, by omega, ?_, h4, h5, ?_⟩
  · simp [hf]
  · intro h; exact absurd h hf

theorem BlockSafe.safe_release_shared {n : Nat} {b : BaseControlBlock} (hb : BlockSafe n b)
    (hf : Call.deallocate ∉ b.calls) : BlockSafe n (releaseShared b) := by
  obtain ⟨h1, h2, h3, h4, h5, h6⟩ := hb
  have hc0 : b.calls.count Call.deallocate = 0 := List.count_eq_zero.2 hf
  unfold releaseShared
  by_cases e1 : b.shared_count - 1 = 0
  · by_cases e2 : b.weak_count = 0
    · simp only [e1, e2, if_true, BaseControlBlock.destroy, BaseControlBlock.deallocate]
      split
      all_goals
        refine ⟨by simp, by simp, by simp, by simp, ?_, ?_⟩
        · simp [List.count_append, hc0]
        · intro _
          exact ⟨b.calls ++ [Call.destroy], by simp, by simp⟩
    · simp only [e1, e2, if_true, if_false, BaseControlBlock.destroy]
      split
      all_goals
        refine ⟨by simp, by simpa using h2, by simp [hf, e2], by simp, ?_, ?_⟩
        · simp [List.count_append, hc0]
        · intro h
          simp [hf] at h
  · simp only [e1, if_false]
    refine ⟨by simp; omega, h2, by simp [hf, e1], by simp [e1], h5, ?_⟩
    intro h; exact absurd h hf

theorem BlockSafe.safe_release_weak {n : Nat} {b : BaseControlBlock} (hb : BlockSafe n b)
    (hf : Call.deallocate ∉ b.calls) : BlockSafe n (releaseWeak b) := by
  obtain ⟨h1, h2, h3, h4, h5, h6⟩ := hb
  have hc0 : b.calls.count Call.deallocate = 0 := List.count_eq_zero.2 hf
  unfold releaseWeak
  by_cases e1 : b.shared_count = 0
  · by_cases e2 : b.weak_count - 1 = 0
    · simp only [e1, e2, if_true, BaseControlBlock.deallocate]
      refine ⟨by simp, by simp, by simp [e1], fun _ => by simpa using h4 e1, ?_, ?_⟩
      · simp [List.count_append, hc0]
      · intro _
        exact ⟨b.calls, rfl, h4 e1⟩
    · simp only [e1, e2, if_true, if_false]
      refine ⟨by simp, by simp; omega, by simp [hf, e2], fun _ => h4 e1, h5, ?_⟩
      intro h; exact absurd h hf
  · simp only [e1, if_false]
    refine ⟨h1, by simp; omega, by simp [hf, e1], h4, h5, ?_⟩
    intro h; exact absurd h hf

theorem HeapSafe.block {n : Nat} {h : Heap} (hs : HeapSafe n h) {a : Nat}
    {b : BaseControlBlock} (hb : h[a]? = some b) : BlockSafe n b :=
  hs b (List.getElem?_mem hb)

theorem SharedPtr.increment_count_safe {n : Nat} {h h1 : Heap} {this : SharedPtr}
    (hs : HeapSafe n h) (hn : n + 1 < SIZE_MOD) (hm : this.increment_count h = .ok h1) :
    HeapSafe (n + 1) h1 := by
  obtain ⟨⟨a, b⟩, hacc, hres⟩ := except_bind_ok hm
  obtain ⟨-, hb, hf⟩ := access_ok_inv hacc
  simp only [pure, Except.pure, Except.ok.injEq] at hres
  rw [← hres]
  exact (hs.heap_mono (Nat.le_succ n)).set a ((hs.block hb).inc_shared hf hn)

theorem WeakPtr.weak_increment_count_safe {n : Nat} {h h1 : Heap} {this : WeakPtr}
    (hs : HeapSafe n h) (hn : n + 1 < SIZE_MOD) (hm : this.increment_count h = .ok h1) :
    HeapSafe (n + 1) h1 := by
  obtain ⟨⟨a, b⟩, hacc, hres⟩ := except_bind_ok hm
  obtain ⟨-, hb, hf⟩ := access_ok_inv hacc
  simp only [pure, Except.pure, Except.ok.injEq] at hres
  rw [← hres]
  exact (hs.heap_mono (Nat.le_succ n)).set a ((hs.block hb).inc_weak hf hn)

theorem SharedPtr.dtor_safe {n : Nat} {h h1 : Heap} {this : SharedPtr}
    (hs : HeapSafe n h) (hn : n < SIZE_MOD) (hm : this.dtor h = .ok h1) : HeapSafe n h1 := by
  obtain ⟨cb, p⟩ := this
  cases cb with
  | none =>
    rw [SharedPtr.dtor_empty_eq] at hm
    cases hm
    exact hs
  | some a =>
    cases hacc : h.access (some a) with
    | error e => simp [SharedPtr.dtor, hacc, bind, Except.bind] at hm
    | ok r =>
      obtain ⟨a1, b⟩ := r
      obtain ⟨ha, hb, hf⟩ := access_ok_inv hacc
      cases ha
      have hsafe := hs.block hb
      by_cases h0 : b.shared_count = 0
      · simp [SharedPtr.dtor, hacc, bind, Except.bind, h0, pure, Except.pure] at hm
        rw [← hm]
        exact hs
      · rw [SharedPtr.dtor_block_eq p hb hf h0 (by have := hsafe.1; omega)] at hm
        cases hm
        exact hs.set a (hsafe.safe_release_shared hf)

theorem WeakPtr.weak_dtor_safe {n : Nat} {h h1 : Heap} {this : WeakPtr}
    (hs : HeapSafe n h) (hn : n < SIZE_MOD) (hm : this.dtor h = .ok h1) : HeapSafe n h1 := by
  obtain ⟨cb⟩ := this
  cases cb with
  | none =>
    rw [WeakPtr.weak_dtor_empty_eq] at hm
    cases hm
    exact hs
  | some a =>
    cases hacc : h.access (some a) with
    | error e => simp [WeakPtr.dtor, hacc, bind, Except.bind] at hm
    | ok r =>
      obtain ⟨a1, b⟩ := r
      obtain ⟨ha, hb, hf⟩ := access_ok_inv hacc
      cases ha
      have hsafe := hs.block hb
      by_cases h0 : b.weak_count = 0
      · have hsc : b.shared_count ≠ 0 := by
          intro e
          exact hf (hsafe.2.2.1.2 ⟨e, h0⟩)
        simp [WeakPtr.dtor, hacc, bind, Except.bind, h0, hsc, pure, Except.pure] at hm
        rw [← hm]
        exact hs
      · rw [WeakPtr.weak_dtor_block_eq hb hf h0 (by have := hsafe.2.1; omega)] at hm
        cases hm
        exact hs.set a (hsafe.safe_release_weak hf)

theorem BlockSafe.fresh (n : Nat) (b : BaseControlBlock) (hsc : b.shared_count = 1)
    (hwc : b.weak_count = 0) (hcalls : b.calls = []) : BlockSafe (n + 1) b := by
  unfold BlockSafe
  rw [hsc, hwc, hcalls]
  simp

theorem SharedPtr.copy_ctor_safe {n : Nat} {h h1 : Heap} {other s : SharedPtr}
    (hs : HeapSafe n h) (hn : n + 1 < SIZE_MOD) (hm : other.copy_ctor h = .ok (h1, s)) :
    HeapSafe (n + 1) h1 := by
  unfold SharedPtr.copy_ctor at hm
  dsimp only at hm
  split at hm
  · obtain ⟨h2, hinc, hres⟩ := except_bind_ok hm
    simp only [pure, Except.pure, Except.ok.injEq, Prod.mk.injEq] at hres
    rw [← hres.1]
    exact SharedPtr.increment_count_safe hs hn hinc
  · simp only [pure, Except.pure, Except.ok.injEq, Prod.mk.injEq] at hm
    rw [← hm.1]
    exact hs.heap_mono (Nat.le_succ n)

theorem SharedPtr.conv_copy_ctor_safe {n : Nat} {h h1 : Heap} {other s : SharedPtr} {off : Nat}
    (hs : HeapSafe n h) (hn : n + 1 < SIZE_MOD)
    (hm : other.conv_copy_ctor off h = .ok (h1, s)) : HeapSafe (n + 1) h1 := by
  obtain ⟨h2, hinc, hres⟩ := except_bind_ok hm
  simp only [pure, Except.pure, Except.ok.injEq, Prod.mk.injEq] at hres
  rw [← hres.1]
  exact SharedPtr.increment_count_safe hs hn hinc

theorem SharedPtr.block_ctor_safe {n : Nat} {h h1 : Heap} {cb : Option Nat} {s : SharedPtr}
    (hs : HeapSafe n h) (hn : n + 1 < SIZE_MOD)
    (hm : SharedPtr.block_ctor cb h = .ok (h1, s)) : HeapSafe (n + 1) h1 := by
  obtain ⟨⟨a, b⟩, -, hm1⟩ := except_bind_ok hm
  obtain ⟨h2, hinc, hres⟩ := except_bind_ok hm1
  simp only [pure, Except.pure, Except.ok.injEq, Prod.mk.injEq] at hres
  rw [← hres.1]
  exact SharedPtr.increment_count_safe hs hn hinc

theorem SharedPtr.copy_assign_safe {n : Nat} {h h1 : Heap} {this other s : SharedPtr}
    (hs : HeapSafe n h) (hn : n + 1 < SIZE_MOD)
    (hm : this.copy_assign other h = .ok (h1, s)) : HeapSafe (n + 1) h1 := by
  obtain ⟨h2, hd, hm1⟩ := except_bind_ok hm
  obtain ⟨h3, hinc, hres⟩ := except_bind_ok hm1
  simp only [pure, Except.pure, Except.ok.injEq, Prod.mk.injEq] at hres
  rw [← hres.1]
  exact SharedPtr.increment_count_safe (SharedPtr.dtor_safe hs (by omega) hd) hn hinc

theorem SharedPtr.conv_copy_assign_safe {n : Nat} {h h1 : Heap} {this other s : SharedPtr}
    {off : Nat} (hs : HeapSafe n h) (hn : n + 1 < SIZE_MOD)
    (hm : this.conv_copy_assign other off h = .ok (h1, s)) : HeapSafe (n + 1) h1 := by
  obtain ⟨h2, hd, hm1⟩ := except_bind_ok hm
  obtain ⟨h3, hinc, hres⟩ := except_bind_ok hm1
  simp only [pure, Except.pure, Except.ok.injEq, Prod.mk.injEq] at hres
  rw [← hres.1]
  exact SharedPtr.increment_count_safe (SharedPtr.dtor_safe hs (by omega) hd) hn hinc

theorem SharedPtr.move_assign_safe {n : Nat} {h h1 : Heap} {this other s t : SharedPtr}
    (hs : HeapSafe n h) (hn : n < SIZE_MOD)
    (hm : this.move_assign other h = .ok (h1, s, t)) :
    HeapSafe n h1 ∧ t.control_block_ = none := by
  obtain ⟨h2, hd, hres⟩ := except_bind_ok hm
  simp only [pure, Except.pure, Except.ok.injEq, Prod.mk.injEq] at hres
  rw [← hres.1, ← hres.2.2]
  exact ⟨SharedPtr.dtor_safe hs hn hd, rfl⟩

theorem SharedPtr.conv_move_assign_safe {n : Nat} {h h1 : Heap} {this other s t : SharedPtr}
    {off : Nat} (hs : HeapSafe n h) (hn : n < SIZE_MOD)
    (hm : this.conv_move_assign other off h = .ok (h1, s, t)) : HeapSafe n h1 := by
  obtain ⟨h2, hd, hres⟩ := except_bind_ok hm
  simp only [pure, Except.pure, Except.ok.injEq, Prod.mk.injEq] at hres
  rw [← hres.1]
  exact SharedPtr.dtor_safe hs hn hd

theorem SharedPtr.reset_safe {n : Nat} {h h1 : Heap} {this s : SharedPtr}
    (hs : HeapSafe n h) (hn : n < SIZE_MOD)
    (hm : this.reset h = .ok (h1, s)) : HeapSafe n h1 := by
  obtain ⟨⟨h2, s1, t⟩, hma, hm1⟩ := except_bind_ok hm
  obtain ⟨h3, hd, hres⟩ := except_bind_ok hm1
  simp only [pure, Except.pure, Except.ok.injEq, Prod.mk.injEq] at hres
  rw [← hres.1]
  exact SharedPtr.dtor_safe (SharedPtr.move_assign_safe hs hn hma).1 hn hd

theorem SharedPtr.reset_ptr_safe {n : Nat} {h h1 : Heap} {this s : SharedPtr} {p : Option Nat}
    (hs : HeapSafe n h) (hn : n + 1 < SIZE_MOD)
    (hm : this.reset_ptr p h = .ok (h1, s)) : HeapSafe (n + 1) h1 := by
  unfold SharedPtr.reset_ptr at hm
  rw [SharedPtr.raw_ctor_eq] at hm
  dsimp only at hm
  obtain ⟨⟨h2, s1, t⟩, hma, hm1⟩ := except_bind_ok hm
  obtain ⟨h3, hd, hres⟩ := except_bind_ok hm1
  simp only [pure, Except.pure, Except.ok.injEq, Prod.mk.injEq] at hres
  rw [← hres.1]
  have h0 : HeapSafe (n + 1) (h ++ [{ ControlBlockRegular p with shared_count := 1 }]) :=
    (hs.heap_mono (Nat.le_succ n)).append (BlockSafe.fresh n _ rfl rfl rfl)
  exact SharedPtr.dtor_safe (SharedPtr.move_assign_safe h0 hn hma).1 hn hd

theorem makeShared_safe {n : Nat} {h h1 : Heap} {obj : Nat} {c : Completion}
    (hs : HeapSafe n h) (hm : makeShared true obj h = .ok (h1, c)) : HeapSafe (n + 1) h1 := by
  unfold makeShared at hm
  rw [allocateShared_ok] at hm
  simp only [Except.ok.injEq, Prod.mk.injEq] at hm
  rw [← hm.1]
  exact (hs.heap_mono (Nat.le_succ n)).append (BlockSafe.fresh n _ rfl rfl rfl)

theorem WeakPtr.lock_safe {n : Nat} {h h1 : Heap} {this : WeakPtr} {s : SharedPtr}
    (hs : HeapSafe n h) (hn : n + 1 < SIZE_MOD)
    (hm : this.lock h = .ok (h1, s)) : HeapSafe (n + 1) h1 := by
  obtain ⟨e, -, hm1⟩ := except_bind_ok hm
  cases e with
  | true =>
    simp only [if_true, pure, Except.pure, Except.ok.injEq, Prod.mk.injEq] at hm1
    rw [← hm1.1]
    exact hs.heap_mono (Nat.le_succ n)
  | false =>
    simp only [Bool.false_eq_true, if_false] at hm1
    exact SharedPtr.block_ctor_safe hs hn hm1

theorem WeakPtr.weak_copy_ctor_safe {n : Nat} {h h1 : Heap} {other k : WeakPtr}
    (hs : HeapSafe n h) (hn : n + 1 < SIZE_MOD)
    (hm : other.copy_ctor h = .ok (h1, k)) : HeapSafe (n + 1) h1 := by
  obtain ⟨h2, hinc, hres⟩ := except_bind_ok hm
  simp only [pure, Except.pure, Except.ok.injEq, Prod.mk.injEq] at hres
  rw [← hres.1]
  exact WeakPtr.weak_increment_count_safe hs hn hinc

theorem WeakPtr.from_shared_safe {n : Nat} {h h1 : Heap} {other : SharedPtr} {k : WeakPtr}
    (hs : HeapSafe n h) (hn : n + 1 < SIZE_MOD)
    (hm : WeakPtr.from_shared other h = .ok (h1, k)) : HeapSafe (n + 1) h1 := by
  obtain ⟨h2, hinc, hres⟩ := except_bind_ok hm
  simp only [pure, Except.pure, Except.ok.injEq, Prod.mk.injEq] at hres
  rw [← hres.1]
  exact WeakPtr.weak_increment_count_safe hs hn hinc

theorem WeakPtr.conv_assign_safe {n : Nat} {h h1 : Heap} {this other k : WeakPtr}
    (hs : HeapSafe n h) (hn : n + 1 < SIZE_MOD)
    (hm : this.conv_assign other h = .ok (h1, k)) : HeapSafe (n + 1) h1 := by
  obtain ⟨h2, hd, hm1⟩ := except_bind_ok hm
  obtain ⟨⟨a, b⟩, hacc, hres⟩ := except_bind_ok hm1
  obtain ⟨-, hb, hf⟩ := access_ok_inv hacc
  simp only [pure, Except.pure, Except.ok.injEq, Prod.mk.injEq] at hres
  rw [← hres.1]
  have h2s := WeakPtr.weak_dtor_safe hs (by omega) hd
  exact (h2s.heap_mono (Nat.le_succ n)).set a ((h2s.block hb).inc_weak hf hn)

theorem WeakPtr.assign_shared_safe {n : Nat} {h h1 : Heap} {this k : WeakPtr}
    {other : SharedPtr} (hs : HeapSafe n h) (hn : n + 1 < SIZE_MOD)
    (hm : this.assign_shared other h = .ok (h1, k)) : HeapSafe (n + 1) h1 := by
  obtain ⟨h2, hd, hm1⟩ := except_bind_ok hm
  obtain ⟨h3, hinc, hres⟩ := except_bind_ok hm1
  simp only [pure, Except.pure, Except.ok.injEq, Prod.mk.injEq] at hres
  rw [← hres.1]
  exact WeakPtr.weak_increment_count_safe (WeakPtr.weak_dtor_safe hs (by omega) hd) hn hinc

/-- Whatever the statement, when it executes without a fault the heap keeps the
teardown discipline. -/
theorem step_safe {n : Nat} {w w1 : World} (op : Op) (hs : HeapSafe n w.heap)
    (hn : n + 1 < SIZE_MOD) (h : step w op = .ok w1) : HeapSafe (n + 1) w1.heap := by
  have hmono := hs.heap_mono (Nat.le_succ n)
  have hskip : ∀ {x : World}, (pure w : Except Fault World) = .ok x → HeapSafe (n + 1) x.heap := by
    intro x hx
    simp only [pure, Except.pure, Except.ok.injEq] at hx
    rw [← hx]; exact hmono
  cases op <;> simp only [step] at h
  case sDefault =>
    simp only [pure, Except.pure, Except.ok.injEq] at h
    rw [← h]; exact hmono
  case sRaw p =>
    rw [SharedPtr.raw_ctor_eq] at h
    simp only [pure, Except.pure, Except.ok.injEq] at h
    rw [← h]
    exact hmono.append (BlockSafe.fresh n _ rfl rfl rfl)
  case sMake obj =>
    obtain ⟨⟨h1, c⟩, hm, hres⟩ := except_bind_ok h
    have := makeShared_safe hs hm
    cases c <;> simp only [pure, Except.pure, Except.ok.injEq] at hres <;> rw [← hres] <;>
      exact this
  case sCopy i =>
    split at h
    · obtain ⟨⟨h1, s⟩, hm, hres⟩ := except_bind_ok h
      simp only [pure, Except.pure, Except.ok.injEq] at hres
      rw [← hres]
      exact SharedPtr.copy_ctor_safe hs hn hm
    · exact hskip h
  case sConvCopy i off =>
    split at h
    · obtain ⟨⟨h1, s⟩, hm, hres⟩ := except_bind_ok h
      simp only [pure, Except.pure, Except.ok.injEq] at hres
      rw [← hres]
      exact SharedPtr.conv_copy_ctor_safe hs hn hm
    · exact hskip h
  case sMove i =>
    split at h
    · simp only [SharedPtr.move_ctor, pure, Except.pure, Except.ok.injEq] at h
      rw [← h]; exact hmono
    · exact hskip h
  case sConvMove i off =>
    split at h
    · simp only [SharedPtr.conv_move_ctor, pure, Except.pure, Except.ok.injEq] at h
      rw [← h]; exact hmono
    · exact hskip h
  case sLock j =>
    split at h
    · obtain ⟨⟨h1, s⟩, hm, hres⟩ := except_bind_ok h
      simp only [pure, Except.pure, Except.ok.injEq] at hres
      rw [← hres]
      exact WeakPtr.lock_safe hs hn hm
    · exact hskip h
  case sDtor i =>
    split at h
    · obtain ⟨h1, hm, hres⟩ := except_bind_ok h
      simp only [pure, Except.pure, Except.ok.injEq] at hres
      rw [← hres]
      exact (SharedPtr.dtor_safe hs (by omega) hm).heap_mono (Nat.le_succ n)
    · exact hskip h
  case sReset i =>
    split at h
    · obtain ⟨⟨h1, s⟩, hm, hres⟩ := except_bind_ok h
      simp only [pure, Except.pure, Except.ok.injEq] at hres
      rw [← hres]
      exact (SharedPtr.reset_safe hs (by omega) hm).heap_mono (Nat.le_succ n)
    · exact hskip h
  case sResetPtr i p =>
    split at h
    · obtain ⟨⟨h1, s⟩, hm, hres⟩ := except_bind_ok h
      simp only [pure, Except.pure, Except.ok.injEq] at hres
      rw [← hres]
      exact SharedPtr.reset_ptr_safe hs hn hm
    · exact hskip h
  case sSwap i j =>
    split at h
    · simp only [SharedPtr.swap, pure, Except.pure, Except.ok.injEq] at h
      rw [← h]; exact hmono
    · exact hskip h
  case sAssign i j =>
    split at h
    · obtain ⟨⟨h1, s⟩, hm, hres⟩ := except_bind_ok h
      simp only [pure, Except.pure, Except.ok.injEq] at hres
      rw [← hres]
      exact SharedPtr.copy_assign_safe hs hn hm
    · exact hskip h
  case sConvAssign i j off =>
    split at h
    · obtain ⟨⟨h1, s⟩, hm, hres⟩ := except_bind_ok h
      simp only [pure, Except.pure, Except.ok.injEq] at hres
      rw [← hres]
      exact SharedPtr.conv_copy_assign_safe hs hn hm
    · exact hskip h
  case sMoveAssign i j =>
    split at h
    · obtain ⟨⟨h1, s, t⟩, hm, hres⟩ := except_bind_ok h
      simp only [pure, Except.pure, Except.ok.injEq] at hres
      rw [← hres]
      exact (SharedPtr.move_assign_safe hs (by omega) hm).1.heap_mono (Nat.le_succ n)
    · exact hskip h
  case sConvMoveAssign i j off =>
    split at h
    · obtain ⟨⟨h1, s, t⟩, hm, hres⟩ := except_bind_ok h
      simp only [pure, Except.pure, Except.ok.injEq] at hres
      rw [← hres]
      exact (SharedPtr.conv_move_assign_safe hs (by omega) hm).heap_mono (Nat.le_succ n)
    · exact hskip h
  case wDefault =>
    simp only [pure, Except.pure, Except.ok.injEq] at h
    rw [← h]; exact hmono
  case wCopy j =>
    split at h
    · obtain ⟨⟨h1, k⟩, hm, hres⟩ := except_bind_ok h
      simp only [pure, Except.pure, Except.ok.injEq] at hres
      rw [← hres]
      exact WeakPtr.weak_copy_ctor_safe hs hn hm
    · exact hskip h
  case wMove j =>
    split at h
    · simp only [WeakPtr.move_ctor, pure, Except.pure, Except.ok.injEq] at h
      rw [← h]; exact hmono
    · exact hskip h
  case wFromShared i =>
    split at h
    · obtain ⟨⟨h1, k⟩, hm, hres⟩ := except_bind_ok h
      simp only [pure, Except.pure, Except.ok.injEq] at hres
      rw [← hres]
      exact WeakPtr.from_shared_safe hs hn hm
    · exact hskip h
  case wDtor j =>
    split at h
    · obtain ⟨h1, hm, hres⟩ := except_bind_ok h
      simp only [pure, Except.pure, Except.ok.injEq] at hres
      rw [← hres]
      exact (WeakPtr.weak_dtor_safe hs (by omega) hm).heap_mono (Nat.le_succ n)
    · exact hskip h
  case wAssign j k =>
    split at h
    · simp only [pure, Except.pure, Except.ok.injEq] at h
      rw [← h]; exact hmono
    · exact hskip h
  case wConvAssign j k =>
    split at h
    · obtain ⟨⟨h1, k1⟩, hm, hres⟩ := except_bind_ok h
      simp only [pure, Except.pure, Except.ok.injEq] at hres
      rw [← hres]
      exact WeakPtr.conv_assign_safe hs hn hm
    · exact hskip h
  case wAssignShared j i =>
    split at h
    · obtain ⟨⟨h1, k1⟩, hm, hres⟩ := except_bind_ok h
      simp only [pure, Except.pure, Except.ok.injEq] at hres
      rw [← hres]
      exact WeakPtr.assign_shared_safe hs hn hm
    · exact hskip h

/-- Whatever the program, when it executes without a fault the heap keeps the
teardown discipline. -/
theorem run_safe (ops : List Op) : ∀ {n : Nat} {w w1 : World}, HeapSafe n w.heap →
    n + ops.length < SIZE_MOD → run w ops = .ok w1 → HeapSafe (n + ops.length) w1.heap := by
  induction ops with
  | nil =>
    intro n w w1 hs _ h
    simp only [run, pure, Except.pure, Except.ok.injEq] at h
    rw [← h]; exact hs
  | cons op ops ih =>
    intro n w w1 hs hn h
    simp only [List.length_cons] at hn ⊢
    unfold run at h
    obtain ⟨w2, hstep, hrun⟩ := except_bind_ok h
    have h2 := step_safe op hs (by omega) hstep
    have := ih h2 (by omega) hrun
    have e : n + (ops.length + 1) = n + 1 + ops.length := by omega
    rw [e]; exact this

/-- C2.  Take any program over shared and weak handles, whatever its
statements, started with nothing allocated and shorter than `2 ^ 64`
statements (no counter can wrap).  In every state it reaches without running
into undefined behaviour (and so, every initial part of a program being a
program, after each of its statements) every allocated block satisfies:
`deallocate()` has been called at most once; it has been called if and only if
`shared_count` and `weak_count` are both 0; and when it has been called it is
the last call on the block and a call of `destroy()` precedes it.  A legal
program, moreover, runs to its end without undefined behaviour, and the call
history of a deallocated block is then exactly `destroy()`, `deallocate()`. -/
theorem deallocate_once_after_destroy (ops : List Op) (hlen : ops.length < SIZE_MOD) :
    (∀ w, run World.empty ops = .ok w →
      ∀ (a : Nat) (b : BaseControlBlock), w.heap[a]? = some b →
        b.calls.count Call.deallocate ≤ 1 ∧
        (Call.deallocate ∈ b.calls ↔ b.shared_count = 0 ∧ b.weak_count = 0) ∧
        (Call.deallocate ∈ b.calls →
          ∃ pre, b.calls = pre ++ [Call.deallocate] ∧ Call.destroy ∈ pre)) ∧
    (legalRun World.empty ops = true →
      ∃ w, run World.empty ops = .ok w ∧
        ∀ (a : Nat) (b : BaseControlBlock), w.heap[a]? = some b →
          Call.deallocate ∈ b.calls → b.calls = [Call.destroy, Call.deallocate]) := by
  constructor
  · intro w hrun a b hb
    have h0 : HeapSafe 0 World.empty.heap := by
      intro x hx
      simp [World.empty] at hx
    have hs := run_safe ops h0 (by omega) hrun
    obtain ⟨-, -, h3, -, h5, h6⟩ := hs.block hb
    exact ⟨h5, h3, h6⟩
  · intro hl
    obtain ⟨w, hrun, hInv, -, -, -⟩ := run_inv ops inv_empty hl
      (by simpa [World.empty] using hlen) (by simpa [World.empty] using hlen)
    refine ⟨w, hrun, ?_⟩
    intro a b hb
    have hx := hInv a
    rw [hb] at hx
    simp only [BlockOK] at hx
    rw [hx.2.2]
    unfold expectedCalls
    by_cases h1 : b.shared_count = 0 <;> by_cases h2 : b.weak_count = 0 <;> simp [h1, h2]

theorem deallocate_once_after_destroy_witness :
    observerProgram.length < SIZE_MOD ∧ run World.empty observerProgram = .ok observerFinal ∧
    legalRun World.empty observerProgram = true ∧
    (∀ (a : Nat) (b : BaseControlBlock), observerFinal.heap[a]? = some b →
        b.calls.count Call.deallocate ≤ 1 ∧
        (Call.deallocate ∈ b.calls ↔ b.shared_count = 0 ∧ b.weak_count = 0) ∧
        (Call.deallocate ∈ b.calls →
          ∃ pre, b.calls = pre ++ [Call.deallocate] ∧ Call.destroy ∈ pre)) ∧
    ∃ w, run World.empty observerProgram = .ok w ∧
        ∀ (a : Nat) (b : BaseControlBlock), w.heap[a]? = some b →
          Call.deallocate ∈ b.calls → b.calls = [Call.destroy, Call.deallocate] :=
  ⟨by decide, by decide, by decide,
    (deallocate_once_after_destroy observerProgram (by decide)).1 observerFinal (by decide),
    (deallocate_once_after_destroy observerProgram (by decide)).2 (by decide)⟩

/-- A statement other than an assignment that executes without a fault is
legal: the only such statements that are not legal are the copies from an
empty source, and they dereference a null control block. -/
theorem legal_of_step_ok {w w1 : World} {op : Op} (hop : op.isAssignment = false)
    (h : step w op = .ok w1) : op.legal w = true := by
  cases op <;> simp only [Op.isAssignment, Bool.true_eq_false] at hop <;> try rfl
  case sConvCopy i off =>
    simp only [Op.legal]
    cases hs : w.shared i with
    | none => rfl
    | some s =>
      obtain ⟨cb, p⟩ := s
      cases cb with
      | none =>
        simp [step, hs, SharedPtr.conv_copy_ctor, SharedPtr.increment_count, Heap.access, bind,
          Except.bind] at h
      | some a => rfl
  case wCopy j =>
    simp only [Op.legal]
    cases hk : w.weak j with
    | none => rfl
    | some k =>
      obtain ⟨cb⟩ := k
      cases cb with
      | none =>
        simp [step, hk, WeakPtr.copy_ctor, WeakPtr.increment_count, Heap.access, bind,
          Except.bind] at h
      | some a => rfl
  case wFromShared i =>
    simp only [Op.legal]
    cases hs : w.shared i with
    | none => rfl
    | some s =>
      obtain ⟨cb, p⟩ := s
      cases cb with
      | none =>
        simp [step, hs, WeakPtr.from_shared, WeakPtr.increment_count, Heap.access, bind,
          Except.bind] at h
      | some a => rfl

theorem legalRun_of_run_ok (ops : List Op) : ∀ {w w1 : World},
    (∀ op ∈ ops, op.isAssignment = false) → run w ops = .ok w1 → legalRun w ops = true := by
  induction ops with
  | nil => intro w w1 _ _; rfl
  | cons op ops ih =>
    intro w w1 hops h
    unfold run at h
    obtain ⟨w2, hstep, hrun⟩ := except_bind_ok h
    simp only [legalRun, Bool.and_eq_true, hstep]
    exact ⟨legal_of_step_ok (hops op (List.mem_cons_self _ _)) hstep,
      ih (fun o ho => hops o (List.mem_cons_of_mem _ ho)) hrun⟩

/-- C3.  Take any program, started with nothing allocated and shorter than
`2 ^ 64` statements, that is legal, or that has no assignment statement (it is
made of constructions, copies, moves, conversions, `reset`, `swap`, `lock` and
destructions) and runs without undefined behaviour.  In the state it reaches,
every block it has allocated that no live handle references any more (each
shared and weak handle that referenced it has been destroyed, reset or moved
from, in whatever order) has the call history `destroy()`, `deallocate()`:
each was called exactly once.  A legal program never runs into undefined
behaviour; for the statements that are not assignments `Op.legal` asks only
that the source of a converting copy and of a weak-handle construction is not
empty, since these constructors dereference the control block of their source
without a null test. -/
theorem nothing_leaked (ops : List Op) (hlen : ops.length < SIZE_MOD) :
    (legalRun World.empty ops = true → ∃ w, run World.empty ops = .ok w) ∧
    ∀ w, run World.empty ops = .ok w →
      (legalRun World.empty ops = true ∨ ∀ op ∈ ops, op.isAssignment = false) →
      ∀ (a : Nat) (b : BaseControlBlock), w.heap[a]? = some b →
        w.sharedRefs a = 0 → w.weakRefs a = 0 →
        b.calls = [Call.destroy, Call.deallocate] ∧
        b.calls.count Call.destroy = 1 ∧ b.calls.count Call.deallocate = 1 := by
  have key : legalRun World.empty ops = true →
      ∃ w, run World.empty ops = .ok w ∧ Inv w := by
    intro hl
    obtain ⟨w, hrun, hInv, -, -, -⟩ := run_inv ops inv_empty hl
      (by simpa [World.empty] using hlen) (by simpa [World.empty] using hlen)
    exact ⟨w, hrun, hInv⟩
  constructor
  · intro hl
    obtain ⟨w, hrun, -⟩ := key hl
    exact ⟨w, hrun⟩
  · intro w hrun hcase a b hb hs hw
    have hl : legalRun World.empty ops = true := by
      rcases hcase with hl | hops
      · exact hl
      · exact legalRun_of_run_ok ops hops hrun
    obtain ⟨w1, hrun1, hInv⟩ := key hl
    rw [hrun] at hrun1
    cases hrun1
    have hx := hInv a
    rw [hb] at hx
    simp only [BlockOK] at hx
    have h1 : b.shared_count = 0 := by omega
    have h2 : b.weak_count = 0 := by omega
    rw [hx.2.2]
    simp [expectedCalls, h1, h2]

theorem nothing_leaked_witness :
    demoProgram.length < SIZE_MOD ∧ legalRun World.empty demoProgram = true ∧
    run World.empty demoProgram = .ok demoFinal ∧
    demoFinal.sharedRefs 1 = 0 ∧ demoFinal.weakRefs 1 = 0 ∧
    ∀ (b : BaseControlBlock), demoFinal.heap[1]? = some b →
      b.calls = [Call.destroy, Call.deallocate] ∧
      b.calls.count Call.destroy = 1 ∧ b.calls.count Call.deallocate = 1 :=
  ⟨by decide, by decide, by decide, by decide, by decide, fun b hb =>
    (nothing_leaked demoProgram (by decide)).2 demoFinal (by decide) (Or.inl (by decide)) 1 b hb
      (by decide) (by decide)⟩

/-- C10.  Take any program, started with nothing allocated and shorter than
`2 ^ 64` statements, that is legal, or that has no assignment statement and
runs without undefined behaviour, and take any live weak handle that
references a block in the state the program reaches.  While a live shared
handle references the block, `expired()` returns false.  Once no live shared
handle references it, `expired()` returns true and `lock()` returns an empty
shared handle (no control block, `get()` null) and leaves the heap, and so
`shared_count`, as it is.  A legal program never runs into undefined
behaviour. -/
theorem weak_expired_iff_no_owner (ops : List Op) (hlen : ops.length < SIZE_MOD) :
    (legalRun World.empty ops = true → ∃ w, run World.empty ops = .ok w) ∧
    ∀ w, run World.empty ops = .ok w →
      (legalRun World.empty ops = true ∨ ∀ op ∈ ops, op.isAssignment = false) →
      ∀ (j a : Nat) (k : WeakPtr), w.weak j = some k → k.control_block_ = some a →
        (0 < w.sharedRefs a → k.expired w.heap = .ok false) ∧
        (w.sharedRefs a = 0 →
          k.expired w.heap = .ok true ∧
          ∃ s, k.lock w.heap = .ok (w.heap, s) ∧ s.control_block_ = none ∧
            s.get w.heap = .ok none) := by
  have key : legalRun World.empty ops = true →
      ∃ w, run World.empty ops = .ok w ∧ Inv w := by
    intro hl
    obtain ⟨w, hrun, hInv, -, -, -⟩ := run_inv ops inv_empty hl
      (by simpa [World.empty] using hlen) (by simpa [World.empty] using hlen)
    exact ⟨w, hrun, hInv⟩
  constructor
  · intro hl
    obtain ⟨w, hrun, -⟩ := key hl
    exact ⟨w, hrun⟩
  · intro w hrun hcase j a k hk ha
    have hl : legalRun World.empty ops = true := by
      rcases hcase with hl | hops
      · exact hl
      · exact legalRun_of_run_ok ops hops hrun
    obtain ⟨w1, hrun1, hInv⟩ := key hl
    rw [hrun] at hrun1
    cases hrun1
    obtain ⟨b, hb, hsc, hwc, hcalls, hf, h0, -, -⟩ := hInv.weak_block hk ha
    obtain ⟨cb⟩ := k
    simp only [] at ha
    subst ha
    constructor
    · intro hpos
      have : b.shared_count ≠ 0 := by omega
      simp [WeakPtr.expired, access_some hb hf, this, bind, Except.bind, pure, Except.pure]
    · intro hz
      have : b.shared_count = 0 := by omega
      refine ⟨?_, SharedPtr.default_ctor, ?_, rfl, ?_⟩
      · simp [WeakPtr.expired, access_some hb hf, this, bind, Except.bind, pure, Except.pure]
      · simp [WeakPtr.lock, WeakPtr.expired, access_some hb hf, this, bind, Except.bind, pure,
          Except.pure]
      · simp [SharedPtr.get, SharedPtr.default_ctor, pure, Except.pure]

theorem weak_expired_iff_no_owner_witness :
    expiredProgram.length < SIZE_MOD ∧ legalRun World.empty expiredProgram = true ∧
    run World.empty expiredProgram = .ok expiredFinal ∧
    expiredFinal.weak 0 = some ⟨some 0⟩ ∧ expiredFinal.sharedRefs 0 = 0 ∧
    (0 < expiredFinal.sharedRefs 0 → WeakPtr.expired ⟨some 0⟩ expiredFinal.heap = .ok false) ∧
    (expiredFinal.sharedRefs 0 = 0 →
      WeakPtr.expired ⟨some 0⟩ expiredFinal.heap = .ok true ∧
      ∃ s, WeakPtr.lock ⟨some 0⟩ expiredFinal.heap = .ok (expiredFinal.heap, s) ∧
        s.control_block_ = none ∧ s.get expiredFinal.heap = .ok none) :=
  ⟨by decide, by decide, by decide, by decide, by decide,
    (weak_expired_iff_no_owner expiredProgram (by decide)).2 expiredFinal (by decide)
      (Or.inr (by decide)) 0 0 ⟨some 0⟩ (by decide) rfl⟩

/-- C11.  For every heap and every object slot: `makeShared` with a constructor
that completes allocates exactly one block (the heap grows by one entry, the
inline block that holds the object), and the destruction of the returned
handle right afterwards leaves every earlier block as it was and leaves the
new block with the call history `destroy()`, `deallocate()`: one `destroy()`
call, which hands the embedded object to the allocator's `destroy` once, and
one `deallocate()` call that pairs with the one allocation, so that the number
of outstanding allocations is what it was before. -/
theorem makeShared_then_destroy (obj : Nat) (h : Heap) :
    ∃ h1 s blk, makeShared true obj h = .ok (h1, Completion.returned s) ∧
      h1.length = h.length + 1 ∧
      s.dtor h1 = .ok (h ++ [blk]) ∧
      blk.inlineObject = true ∧
      blk.calls = [Call.destroy, Call.deallocate] ∧
      blk.calls.count Call.destroy = 1 ∧ blk.calls.count Call.deallocate = 1 ∧
      blk.deleted = [some obj] ∧
      Heap.outstanding (h ++ [blk]) = Heap.outstanding h := by
  have hb : (h ++ [{ ControlBlockMakeShared obj with shared_count := 1 }])[h.length]? =
      some { ControlBlockMakeShared obj with shared_count := 1 } := by simp
  refine ⟨_, _, releaseShared { ControlBlockMakeShared obj with shared_count := 1 },
    by rw [makeShared, allocateShared_ok], by simp, ?_, ?_, ?_, ?_, ?_, ?_, ?_⟩
  · rw [SharedPtr.dtor_block_eq (some obj) hb (by simp [ControlBlockMakeShared])
      (by simp) (by simp [SIZE_MOD])]
    simp [set_length_append]
  all_goals
    simp [releaseShared, ControlBlockMakeShared, BaseControlBlock.destroy,
      BaseControlBlock.deallocate, BaseControlBlock.get_ptr, Heap.outstanding,
      List.countP_append, List.countP_cons]

/-- C12.  `use_count()` reads `shared_count` through the control block without
a null test: for a default-constructed handle, as in
`SharedPtr<T> s; s.use_count();`, for a handle that has been moved from and
for a handle that has been reset it dereferences the null control block
instead of returning 0; on a non-empty handle it returns `shared_count`. -/
theorem use_count_empty_derefs_null :
    SharedPtr.use_count SharedPtr.default_ctor [] = .error Fault.nullDeref ∧
    (SharedPtr.move_ctor ⟨some 0, some 7⟩).2.use_count [observedBlock] =
      .error Fault.nullDeref ∧
    ((SharedPtr.reset ⟨some 0, some 7⟩ [observedBlock]).bind
      (fun r => r.2.use_count r.1)) = .error Fault.nullDeref ∧
    SharedPtr.use_count ⟨some 0, some 7⟩ [observedBlock] = .ok 1 := by
  decide

/-- C14.  For every heap and every non-null pointer `p`, the raw-pointer
constructor allocates exactly one block, a regular one, at the next free
address; the new block has `shared_count = 1`, `weak_count = 0`, stores `p`
and has no teardown call; the handle references it, `get()` returns `p` and
`use_count()` returns 1; every block that existed before is unchanged. -/
theorem raw_ctor_fresh_block (p : Nat) (h : Heap) :
    ∃ nb s, SharedPtr.raw_ctor (some p) h = (h ++ [nb], s) ∧
      nb.inlineObject = false ∧ nb.shared_count = 1 ∧ nb.weak_count = 0 ∧
      nb.ptr = some p ∧ nb.calls = [] ∧
      s.control_block_ = some h.length ∧ (h ++ [nb])[h.length]? = some nb ∧
      s.get (h ++ [nb]) = .ok (some p) ∧ s.use_count (h ++ [nb]) = .ok 1 ∧
      (h ++ [nb]).length = h.length + 1 ∧
      ∀ (a : Nat) (b : BaseControlBlock), h[a]? = some b → (h ++ [nb])[a]? = some b := by
  have hb : (h ++ [{ ControlBlockRegular (some p) with shared_count := 1 }])[h.length]? =
      some { ControlBlockRegular (some p) with shared_count := 1 } := by simp
  refine ⟨_, _, SharedPtr.raw_ctor_eq (some p) h, rfl, rfl, rfl, rfl, rfl, rfl, hb, ?_, ?_,
    by simp, ?_⟩
  · simp [SharedPtr.get, pure, Except.pure]
  · rw [SharedPtr.use_count_some _ hb (by simp [ControlBlockRegular])]
  · intro a b hab
    rw [List.getElem?_append_left (lt_length_of_getElem? hab)]
    exact hab

/-- C15.  For every heap and every object slot, `allocateShared` with a
constructor that completes returns a non-empty handle; its block is newly
allocated at the next free address, is an inline block, has
`shared_count = 1`, `weak_count = 0` and no teardown call; `use_count()` is 1;
`get()` is the address of the embedded object, which is what the block's
`get_ptr()` returns; every block that existed before is unchanged. -/
theorem allocateShared_fresh_block (obj : Nat) (h : Heap) :
    ∃ nb s, allocateShared true obj h = .ok (h ++ [nb], Completion.returned s) ∧
      nb.inlineObject = true ∧ nb.shared_count = 1 ∧ nb.weak_count = 0 ∧ nb.calls = [] ∧
      s.control_block_ = some h.length ∧ (h ++ [nb])[h.length]? = some nb ∧
      s.use_count (h ++ [nb]) = .ok 1 ∧
      s.get (h ++ [nb]) = .ok (some obj) ∧ nb.get_ptr = some obj ∧
      ∀ (a : Nat) (b : BaseControlBlock), h[a]? = some b → (h ++ [nb])[a]? = some b := by
  have hb : (h ++ [{ ControlBlockMakeShared obj with shared_count := 1 }])[h.length]? =
      some { ControlBlockMakeShared obj with shared_count := 1 } := by simp
  refine ⟨_, _, allocateShared_ok obj h, rfl, rfl, rfl, rfl, rfl, hb, ?_, ?_, rfl, ?_⟩
  · rw [SharedPtr.use_count_some _ hb (by simp [ControlBlockMakeShared])]
  · simp [SharedPtr.get, pure, Except.pure]
  · intro a b hab
    rw [List.getElem?_append_left (lt_length_of_getElem? hab)]
    exact hab

/-- C13.  Converting copy from a non-empty handle `d = (a, q)` whose block is
allocated, for an address adjustment `off`: the new handle `b` references the
same control block, its cached pointer is the converted value of `q` (and the
conversion back gives `q`, which is what `d.get()` returns when `q` is not
null), the block has `shared_count` incremented by exactly one and nothing
else changed, and afterwards `b.use_count()` and `d.use_count()` are the same
number. -/
theorem conv_copy_shares_block (h : Heap) (a off : Nat) (q : Option Nat)
    (blk : BaseControlBlock) (hb : h[a]? = some blk) (hlive : Call.deallocate ∉ blk.calls)
    (hrange : blk.shared_count + 1 < SIZE_MOD) :
    ∃ h1 b, SharedPtr.conv_copy_ctor ⟨some a, q⟩ off h = .ok (h1, b) ∧
      h1 = h.set a { blk with shared_count := blk.shared_count + 1 } ∧
      b.control_block_ = some a ∧ b.ptr_ = convert off q ∧ unconvert off b.ptr_ = q ∧
      b.use_count h1 = .ok (blk.shared_count + 1) ∧
      SharedPtr.use_count ⟨some a, q⟩ h1 = .ok (blk.shared_count + 1) ∧
      ∀ p, q = some p →
        SharedPtr.get ⟨some a, q⟩ h1 = .ok (some p) ∧ b.get h1 = .ok (some (p + off)) ∧
        unconvert off (some (p + off)) = some p := by
  have hb1 : (h.set a { blk with shared_count := blk.shared_count + 1 })[a]? =
      some { blk with shared_count := blk.shared_count + 1 } := getElem?_set_of_some hb
  refine ⟨_, ⟨some a, convert off q⟩, ?_, rfl, rfl, rfl, ?_, ?_, ?_, ?_⟩
  · simp [SharedPtr.conv_copy_ctor, SharedPtr.increment_count_block_eq _ hb hlive hrange, bind,
      Except.bind, pure, Except.pure]
  · cases q <;> simp [unconvert, convert]
  · rw [SharedPtr.use_count_some _ hb1 (by simpa using hlive)]
  · rw [SharedPtr.use_count_some _ hb1 (by simpa using hlive)]
  · intro p hp
    subst hp
    simp [SharedPtr.get, convert, unconvert, pure, Except.pure]

theorem conv_copy_shares_block_witness :
    ∃ h1 b, SharedPtr.conv_copy_ctor ⟨some 0, some 7⟩ 4 [soleOwnerBlock] = .ok (h1, b) ∧
      h1 = [soleOwnerBlock].set 0 { soleOwnerBlock with shared_count := 1 + 1 } ∧
      b.control_block_ = some 0 ∧ b.ptr_ = convert 4 (some 7) ∧
      unconvert 4 b.ptr_ = some 7 ∧
      b.use_count h1 = .ok (1 + 1) ∧
      SharedPtr.use_count ⟨some 0, some 7⟩ h1 = .ok (1 + 1) ∧
      ∀ p, some 7 = some p →
        SharedPtr.get ⟨some 0, some 7⟩ h1 = .ok (some p) ∧ b.get h1 = .ok (some (p + 4)) ∧
        unconvert 4 (some (p + 4)) = some p :=
  conv_copy_shares_block [soleOwnerBlock] 0 4 (some 7) soleOwnerBlock rfl (by decide)
    (by decide)

/-- C16.  Copy construction from a non-empty source `(a, q)` whose block is
allocated: `shared_count` of that block goes up by exactly one and nothing
else in the heap changes (same `weak_count`, no teardown call, other blocks
untouched), and the new handle has the same control block and the same cached
pointer.  Copy construction from an empty source gives a handle without
control block and leaves the heap as it is.  As a statement of a program the
copy constructor appends the new variable and leaves every existing variable,
the source among them, as it was. -/
theorem copy_ctor_counts (h : Heap) (a : Nat) (q : Option Nat) (blk : BaseControlBlock)
    (hb : h[a]? = some blk) (hlive : Call.deallocate ∉ blk.calls)
    (hrange : blk.shared_count + 1 < SIZE_MOD) :
    SharedPtr.copy_ctor ⟨some a, q⟩ h =
      .ok (h.set a { blk with shared_count := blk.shared_count + 1 }, ⟨some a, q⟩) ∧
    SharedPtr.copy_ctor ⟨none, q⟩ h = .ok (h, ⟨none, q⟩) ∧
    ∀ (w w1 : World) (i : Nat) (s : SharedPtr), w.shared i = some s →
      step w (.sCopy i) = .ok w1 → w1.sp = w.sp ++ [some s] ∧ w1.wp = w.wp := by
  refine ⟨?_, ?_, fun w w1 i s hs hstep => step_sCopy_sp hs hstep⟩
  · simp [SharedPtr.copy_ctor, SharedPtr.increment_count_block_eq _ hb hlive hrange, bind,
      Except.bind, pure, Except.pure]
  · simp [SharedPtr.copy_ctor, pure, Except.pure]

theorem copy_ctor_counts_witness :
    SharedPtr.copy_ctor ⟨some 0, some 7⟩ [observedBlock] =
      .ok ([observedBlock].set 0 { observedBlock with shared_count := 1 + 1 },
        ⟨some 0, some 7⟩) ∧
    SharedPtr.copy_ctor ⟨none, some 7⟩ [observedBlock] = .ok ([observedBlock], ⟨none, some 7⟩) ∧
    ∀ (w w1 : World) (i : Nat) (s : SharedPtr), w.shared i = some s →
      step w (.sCopy i) = .ok w1 → w1.sp = w.sp ++ [some s] ∧ w1.wp = w.wp :=
  copy_ctor_counts [observedBlock] 0 (some 7) observedBlock rfl (by decide) (by decide)

/-- C17.  Move construction, same-type and converting, from a live variable
`a_i = s`: the new handle holds the control block of `s` and its cached
pointer (converted to the target type in the converting form), the source
variable is left without control block and with a null cached pointer, and the
heap is the same heap: no counter of any block changes and no `destroy()` or
`deallocate()` call is made.  No other variable changes. -/
theorem move_ctor_transfers (w : World) (i off : Nat) (s : SharedPtr)
    (hs : w.shared i = some s) :
    SharedPtr.move_ctor s = (⟨s.control_block_, s.ptr_⟩, ⟨none, none⟩) ∧
    SharedPtr.conv_move_ctor s off =
      (⟨s.control_block_, convert off s.ptr_⟩, ⟨none, none⟩) ∧
    step w (.sMove i) =
      .ok ⟨w.heap, w.sp.set i (some ⟨none, none⟩) ++ [some ⟨s.control_block_, s.ptr_⟩], w.wp⟩ ∧
    step w (.sConvMove i off) =
      .ok ⟨w.heap, w.sp.set i (some ⟨none, none⟩) ++
        [some ⟨s.control_block_, convert off s.ptr_⟩], w.wp⟩ := by
  refine ⟨rfl, rfl, ?_, ?_⟩
  · simp [step, hs, SharedPtr.move_ctor, pure, Except.pure]
  · simp [step, hs, SharedPtr.conv_move_ctor, pure, Except.pure]

theorem move_ctor_transfers_witness :
    observedWorld.shared 0 = some ⟨some 0, some 7⟩ ∧
    step observedWorld (.sMove 0) =
      .ok ⟨[observedBlock], [some ⟨none, none⟩, some ⟨some 0, some 7⟩], [some ⟨some 0⟩]⟩ ∧
    step observedWorld (.sConvMove 0 4) =
      .ok ⟨[observedBlock], [some ⟨none, none⟩, some ⟨some 0, some 11⟩], [some ⟨some 0⟩]⟩ :=
  ⟨rfl, (move_ctor_transfers observedWorld 0 4 ⟨some 0, some 7⟩ rfl).2.2.1,
    (move_ctor_transfers observedWorld 0 4 ⟨some 0, some 7⟩ rfl).2.2.2⟩

/-- C18.  `reset()` does to the heap exactly what the destructor of the handle
does, faults included, and leaves the handle empty, so that `get()` afterwards
returns null; on a handle without control block it changes nothing.  For a
handle on an allocated block with `shared_count = n`, `1 ≤ n`, the effect is
therefore: `shared_count` becomes `n - 1`, `weak_count` is kept, `destroy()` is
called when `n - 1 = 0`, followed by `deallocate()` when `weak_count` is then
also 0, and no other block changes. -/
theorem reset_is_dtor (h : Heap) (p : Option Nat) (a : Nat) (b : BaseControlBlock)
    (hb : h[a]? = some b) (hlive : Call.deallocate ∉ b.calls)
    (hn : 1 ≤ b.shared_count) (hrange : b.shared_count < SIZE_MOD) :
    (∀ (s : SharedPtr) (h0 : Heap),
      s.reset h0 = (s.dtor h0).map (fun h1 => (h1, (⟨none, none⟩ : SharedPtr)))) ∧
    SharedPtr.reset ⟨none, none⟩ h = .ok (h, ⟨none, none⟩) ∧
    SharedPtr.get ⟨none, none⟩ h = .ok none ∧
    ∃ b1, SharedPtr.reset ⟨some a, p⟩ h = .ok (h.set a b1, ⟨none, none⟩) ∧
      SharedPtr.dtor ⟨some a, p⟩ h = .ok (h.set a b1) ∧
      SharedPtr.get ⟨none, none⟩ (h.set a b1) = .ok none ∧
      b1.shared_count = b.shared_count - 1 ∧
      b1.weak_count = b.weak_count ∧
      b1.calls = b.calls ++
        (if b.shared_count - 1 = 0 then
          (if b.weak_count = 0 then [Call.destroy, Call.deallocate] else [Call.destroy])
         else []) := by
  have hd := SharedPtr.dtor_block_eq p hb hlive (by omega) hrange
  refine ⟨?_, ?_, ?_, releaseShared b, SharedPtr.reset_eq hd, hd, ?_, ?_, ?_, ?_⟩
  · intro s h0
    cases hd0 : s.dtor h0 with
    | error e =>
      simp [SharedPtr.reset, SharedPtr.move_assign, hd0, bind, Except.bind, Except.map]
    | ok h1 => simp [SharedPtr.reset_eq hd0, Except.map]
  · exact SharedPtr.reset_eq (SharedPtr.dtor_empty_eq none h)
  · simp [SharedPtr.get, pure, Except.pure]
  · simp [SharedPtr.get, pure, Except.pure]
  all_goals
    unfold releaseShared BaseControlBlock.deallocate BaseControlBlock.destroy
    by_cases h1 : b.shared_count - 1 = 0 <;> by_cases h2 : b.weak_count = 0 <;>
      cases hi : b.inlineObject <;> simp [h1, h2, hi]

theorem reset_is_dtor_witness :
    (∀ (s : SharedPtr) (h0 : Heap),
      s.reset h0 = (s.dtor h0).map (fun h1 => (h1, (⟨none, none⟩ : SharedPtr)))) ∧
    SharedPtr.reset ⟨none, none⟩ [observedBlock] = .ok ([observedBlock], ⟨none, none⟩) ∧
    SharedPtr.get ⟨none, none⟩ [observedBlock] = .ok none ∧
    ∃ b1, SharedPtr.reset ⟨some 0, some 7⟩ [observedBlock] = .ok ([b1], ⟨none, none⟩) ∧
      SharedPtr.dtor ⟨some 0, some 7⟩ [observedBlock] = .ok [b1] ∧
      SharedPtr.get ⟨none, none⟩ [b1] = .ok none ∧
      b1.shared_count = 0 ∧ b1.weak_count = 1 ∧ b1.calls = [Call.destroy] :=
  reset_is_dtor [observedBlock] (some 7) 0 observedBlock rfl (by decide) (by decide) (by decide)

theorem SharedPtr.reset_ptr_eq {s : SharedPtr} {h h1 : Heap} (p : Option Nat)
    (hd : s.dtor (h ++ [{ ControlBlockRegular p with shared_count := 1 }]) = .ok h1) :
    s.reset_ptr p h = .ok (h1, ⟨some h.length, p⟩) := by
  simp [SharedPtr.reset_ptr, SharedPtr.raw_ctor_eq, SharedPtr.move_assign, hd,
    SharedPtr.dtor_empty_eq, pure, Except.pure, bind, Except.bind]

theorem step_sResetPtr_sp {w w1 : World} {i : Nat} {s : SharedPtr} {p : Option Nat}
    (hs : w.shared i = some s) (h : step w (.sResetPtr i p) = .ok w1) :
    w1.sp = w.sp.set i (some ⟨some w.heap.length, p⟩) ∧ w1.wp = w.wp := by
  cases hd : s.dtor (w.heap ++ [{ ControlBlockRegular p with shared_count := 1 }]) with
  | error e =>
    simp [step, hs, SharedPtr.reset_ptr, SharedPtr.raw_ctor_eq, SharedPtr.move_assign, hd, bind,
      Except.bind] at h
  | ok h1 =>
    simp only [step, hs, SharedPtr.reset_ptr_eq p hd, bind, Except.bind, pure, Except.pure] at h
    cases h
    exact ⟨rfl, rfl⟩

/-- C19.  `reset(newPtr)` with a non-null pointer `p`, on a handle `(a, q)`
whose block is allocated and has `shared_count = n`, `1 ≤ n`: the old block is
left exactly as the destructor of the handle leaves it (`shared_count` is
`n - 1`, `weak_count` is kept, `destroy()` is called when `n - 1 = 0`, followed
by `deallocate()` when `weak_count` is then also 0); one regular block is
allocated at the next free address, with `shared_count = 1`, `weak_count = 0`,
the pointer `p` and no teardown call; no other block changes; the handle
references the new block, `get()` returns `p` and `use_count()` returns 1.  On
a handle without control block only the allocation happens.  As a statement of
a program `reset(newPtr)` writes to the variable it is called on and to no
other variable, so the other handles on the old block see the decrement and
nothing else. -/
theorem reset_ptr_rebinds (h : Heap) (q : Option Nat) (p a : Nat) (b : BaseControlBlock)
    (hb : h[a]? = some b) (hlive : Call.deallocate ∉ b.calls)
    (hn : 1 ≤ b.shared_count) (hrange : b.shared_count < SIZE_MOD) :
    (∃ b1 nb, SharedPtr.reset_ptr ⟨some a, q⟩ (some p) h =
        .ok (h.set a b1 ++ [nb], ⟨some h.length, some p⟩) ∧
      SharedPtr.dtor ⟨some a, q⟩ h = .ok (h.set a b1) ∧
      b1.shared_count = b.shared_count - 1 ∧
      b1.weak_count = b.weak_count ∧
      b1.calls = b.calls ++
        (if b.shared_count - 1 = 0 then
          (if b.weak_count = 0 then [Call.destroy, Call.deallocate] else [Call.destroy])
         else []) ∧
      nb.inlineObject = false ∧ nb.shared_count = 1 ∧ nb.weak_count = 0 ∧
      nb.ptr = some p ∧ nb.calls = [] ∧
      (h.set a b1 ++ [nb])[h.length]? = some nb ∧
      SharedPtr.get ⟨some h.length, some p⟩ (h.set a b1 ++ [nb]) = .ok (some p) ∧
      SharedPtr.use_count ⟨some h.length, some p⟩ (h.set a b1 ++ [nb]) = .ok 1) ∧
    (∃ nb, SharedPtr.reset_ptr ⟨none, none⟩ (some p) h =
        .ok (h ++ [nb], ⟨some h.length, some p⟩) ∧
      nb.inlineObject = false ∧ nb.shared_count = 1 ∧ nb.weak_count = 0 ∧
      nb.ptr = some p ∧ nb.calls = []) ∧
    ∀ (w w1 : World) (i : Nat) (s : SharedPtr), w.shared i = some s →
      step w (.sResetPtr i (some p)) = .ok w1 →
      w1.sp = w.sp.set i (some ⟨some w.heap.length, some p⟩) ∧ w1.wp = w.wp := by
  have hlt := lt_length_of_getElem? hb
  have hb0 : (h ++ [{ ControlBlockRegular (some p) with shared_count := 1 }])[a]? = some b := by
    rw [List.getElem?_append_left hlt]; exact hb
  have hd0 := SharedPtr.dtor_block_eq q hb0 hlive (by omega) hrange
  rw [List.set_append_left _ _ hlt] at hd0
  have hnew : (h.set a (releaseShared b) ++
      [{ ControlBlockRegular (some p) with shared_count := 1 }])[h.length]? =
      some { ControlBlockRegular (some p) with shared_count := 1 } := by
    rw [List.getElem?_append_right (by simp)]
    simp
  refine ⟨⟨releaseShared b, { ControlBlockRegular (some p) with shared_count := 1 },
    SharedPtr.reset_ptr_eq (some p) hd0, SharedPtr.dtor_block_eq q hb hlive (by omega) hrange,
    ?_, ?_, ?_, rfl, rfl, rfl, rfl, rfl, hnew, ?_, ?_⟩, ?_, ?_⟩
  · unfold releaseShared BaseControlBlock.deallocate BaseControlBlock.destroy
    by_cases h1 : b.shared_count - 1 = 0 <;> by_cases h2 : b.weak_count = 0 <;>
      cases hi : b.inlineObject <;> simp [h1, h2, hi]
  · unfold releaseShared BaseControlBlock.deallocate BaseControlBlock.destroy
    by_cases h1 : b.shared_count - 1 = 0 <;> by_cases h2 : b.weak_count = 0 <;>
      cases hi : b.inlineObject <;> simp [h1, h2, hi]
  · unfold releaseShared BaseControlBlock.deallocate BaseControlBlock.destroy
    by_cases h1 : b.shared_count - 1 = 0 <;> by_cases h2 : b.weak_count = 0 <;>
      cases hi : b.inlineObject <;> simp [h1, h2, hi]
  · simp [SharedPtr.get, pure, Except.pure]
  · rw [SharedPtr.use_count_some _ hnew (by simp [ControlBlockRegular])]
  · exact ⟨_, SharedPtr.reset_ptr_eq (some p) (SharedPtr.dtor_empty_eq none _), rfl, rfl, rfl,
      rfl, rfl⟩
  · intro w w1 i s hs hstep
    exact step_sResetPtr_sp hs hstep

theorem reset_ptr_rebinds_witness :
    ∃ b1 nb, SharedPtr.reset_ptr ⟨some 0, some 7⟩ (some 9) [observedBlock] =
        .ok ([b1, nb], ⟨some 1, some 9⟩) ∧
      SharedPtr.dtor ⟨some 0, some 7⟩ [observedBlock] = .ok [b1] ∧
      b1.shared_count = 0 ∧ b1.weak_count = 1 ∧ b1.calls = [Call.destroy] ∧
      nb.inlineObject = false ∧ nb.shared_count = 1 ∧ nb.weak_count = 0 ∧
      nb.ptr = some 9 ∧ nb.calls = [] ∧
      [b1, nb][1]? = some nb ∧
      SharedPtr.get ⟨some 1, some 9⟩ [b1, nb] = .ok (some 9) ∧
      SharedPtr.use_count ⟨some 1, some 9⟩ [b1, nb] = .ok 1 :=
  (reset_ptr_rebinds [observedBlock] (some 7) 9 0 observedBlock rfl (by decide) (by decide)
    (by decide)).1

theorem HeapGrows.grows_refl (h : Heap) : HeapGrows h h := fun _ b hb => ⟨b, hb, id⟩

theorem HeapGrows.grows_trans {h h1 h2 : Heap} (h01 : HeapGrows h h1) (h12 : HeapGrows h1 h2) :
    HeapGrows h h2 := by
  intro a b hb
  obtain ⟨b1, hb1, hp1⟩ := h01 a b hb
  obtain ⟨b2, hb2, hp2⟩ := h12 a b1 hb1
  exact ⟨b2, hb2, fun e => hp2 (hp1 e)⟩

theorem HeapGrows.set_block {h : Heap} {a : Nat} {b b1 : BaseControlBlock} (hb : h[a]? = some b)
    (hp : b.ptr = none → b1.ptr = none) : HeapGrows h (h.set a b1) := by
  intro x c hc
  by_cases hx : a = x
  · subst hx
    rw [hb] at hc
    cases hc
    exact ⟨b1, getElem?_set_of_some hb, hp⟩
  · exact ⟨c, by rw [List.getElem?_set_ne hx]; exact hc, id⟩

theorem HeapGrows.append_blocks (h l : Heap) : HeapGrows h (h ++ l) := by
  intro a b hb
  exact ⟨b, by rw [List.getElem?_append_left (lt_length_of_getElem? hb)]; exact hb, id⟩

theorem SharedPtr.coherent.heap_grows {s : SharedPtr} {h h1 : Heap} (hs : s.coherent h)
    (hg : HeapGrows h h1) : s.coherent h1 := by
  obtain ⟨cb, p⟩ := s
  cases cb with
  | none => exact hs
  | some a =>
    obtain ⟨b, hb, hp⟩ := hs
    obtain ⟨b1, hb1, hp1⟩ := hg a b hb
    exact ⟨b1, hb1, fun e => hp1 (hp e)⟩

theorem SharedPtr.increment_count_grows {h h1 : Heap} {this : SharedPtr}
    (hm : this.increment_count h = .ok h1) : HeapGrows h h1 := by
  obtain ⟨⟨a, b⟩, hacc, hres⟩ := except_bind_ok hm
  obtain ⟨-, hb, -⟩ := access_ok_inv hacc
  simp only [pure, Except.pure, Except.ok.injEq] at hres
  rw [← hres]
  exact HeapGrows.set_block hb id

theorem SharedPtr.decrement_count_grows {h h1 : Heap} {this : SharedPtr}
    (hm : this.decrement_count h = .ok h1) : HeapGrows h h1 := by
  obtain ⟨⟨a, b⟩, hacc, hres⟩ := except_bind_ok hm
  obtain ⟨-, hb, -⟩ := access_ok_inv hacc
  simp only [pure, Except.pure, Except.ok.injEq] at hres
  rw [← hres]
  exact HeapGrows.set_block hb id

theorem WeakPtr.weak_increment_count_grows {h h1 : Heap} {this : WeakPtr}
    (hm : this.increment_count h = .ok h1) : HeapGrows h h1 := by
  obtain ⟨⟨a, b⟩, hacc, hres⟩ := except_bind_ok hm
  obtain ⟨-, hb, -⟩ := access_ok_inv hacc
  simp only [pure, Except.pure, Except.ok.injEq] at hres
  rw [← hres]
  exact HeapGrows.set_block hb id

theorem WeakPtr.weak_decrement_count_grows {h h1 : Heap} {this : WeakPtr}
    (hm : this.decrement_count h = .ok h1) : HeapGrows h h1 := by
  obtain ⟨⟨a, b⟩, hacc, hres⟩ := except_bind_ok hm
  obtain ⟨-, hb, -⟩ := access_ok_inv hacc
  simp only [pure, Except.pure, Except.ok.injEq] at hres
  rw [← hres]
  exact HeapGrows.set_block hb id

theorem Heap.call_destroy_grows {h h1 : Heap} {cb : Option Nat}
    (hm : h.call_destroy cb = .ok h1) : HeapGrows h h1 := by
  obtain ⟨⟨a, b⟩, hacc, hres⟩ := except_bind_ok hm
  obtain ⟨-, hb, -⟩ := access_ok_inv hacc
  simp only [pure, Except.pure, Except.ok.injEq] at hres
  rw [← hres]
  refine HeapGrows.set_block hb ?_
  intro e
  unfold BaseControlBlock.destroy
  split
  · exact e
  · rfl

theorem Heap.call_deallocate_grows {h h1 : Heap} {cb : Option Nat}
    (hm : h.call_deallocate cb = .ok h1) : HeapGrows h h1 := by
  obtain ⟨⟨a, b⟩, hacc, hres⟩ := except_bind_ok hm
  obtain ⟨-, hb, -⟩ := access_ok_inv hacc
  simp only [pure, Except.pure, Except.ok.injEq] at hres
  rw [← hres]
  exact HeapGrows.set_block hb id

theorem SharedPtr.dtor_grows {h h1 : Heap} {this : SharedPtr}
    (hm : this.dtor h = .ok h1) : HeapGrows h h1 := by
  unfold SharedPtr.dtor at hm
  split at hm
  · simp only [pure, Except.pure, Except.ok.injEq] at hm
    rw [← hm]; exact HeapGrows.grows_refl h
  · obtain ⟨⟨a, b⟩, -, hm1⟩ := except_bind_ok hm
    dsimp only at hm1
    split at hm1
    · simp only [pure, Except.pure, Except.ok.injEq] at hm1
      rw [← hm1]; exact HeapGrows.grows_refl h
    · obtain ⟨h2, hdec, hm2⟩ := except_bind_ok hm1
      have g1 := SharedPtr.decrement_count_grows hdec
      obtain ⟨⟨a1, b1⟩, -, hm3⟩ := except_bind_ok hm2
      dsimp only at hm3
      split at hm3
      · obtain ⟨h3, hdes, hdea⟩ := except_bind_ok hm3
        exact g1.grows_trans ((Heap.call_destroy_grows hdes).grows_trans (Heap.call_deallocate_grows hdea))
      · split at hm3
        · exact g1.grows_trans (Heap.call_destroy_grows hm3)
        · simp only [pure, Except.pure, Except.ok.injEq] at hm3
          rw [← hm3]; exact g1

theorem WeakPtr.weak_dtor_grows {h h1 : Heap} {this : WeakPtr}
    (hm : this.dtor h = .ok h1) : HeapGrows h h1 := by
  unfold WeakPtr.dtor at hm
  split at hm
  · simp only [pure, Except.pure, Except.ok.injEq] at hm
    rw [← hm]; exact HeapGrows.grows_refl h
  · obtain ⟨⟨a, b⟩, -, hm1⟩ := except_bind_ok hm
    dsimp only at hm1
    have tail : ∀ h2 : Heap, HeapGrows h h2 →
        (do
          let r ← h2.access this.control_block_
          if r.2.shared_count = 0 then
            if r.2.weak_count = 0 then h2.call_deallocate this.control_block_ else pure h2
          else pure h2) = Except.ok h1 → HeapGrows h h1 := by
      intro h2 g1 hm2
      obtain ⟨⟨a1, b1⟩, -, hm3⟩ := except_bind_ok hm2
      dsimp only at hm3
      split at hm3
      · split at hm3
        · exact g1.grows_trans (Heap.call_deallocate_grows hm3)
        · simp only [pure, Except.pure, Except.ok.injEq] at hm3
          rw [← hm3]; exact g1
      · simp only [pure, Except.pure, Except.ok.injEq] at hm3
        rw [← hm3]; exact g1
    split at hm1
    · obtain ⟨h2, hdec, hm2⟩ := except_bind_ok hm1
      exact tail h2 (WeakPtr.weak_decrement_count_grows hdec) hm2
    · obtain ⟨h2, hdec, hm2⟩ := except_bind_ok hm1
      simp only [pure, Except.pure, Except.ok.injEq] at hdec
      rw [← hdec] at hm2
      exact tail h (HeapGrows.grows_refl h) hm2

theorem SharedPtr.coherent.converted {s : SharedPtr} {h : Heap} (off : Nat) (hs : s.coherent h) :
    SharedPtr.coherent ⟨s.control_block_, convert off s.ptr_⟩ h := by
  obtain ⟨cb, p⟩ := s
  have hp : convert off p = none → p = none := by
    cases p <;> simp [convert]
  cases cb with
  | none =>
    have e : p = none := hs
    rw [e]; rfl
  | some a =>
    obtain ⟨b, hb, hn⟩ := hs
    exact ⟨b, hb, fun e => hn (hp e)⟩

theorem shared_mem {w : World} {i : Nat} {s : SharedPtr} (hs : w.shared i = some s) :
    some s ∈ w.sp :=
  List.getElem?_mem (shared_eq_some.1 hs)

theorem Coherent.of_step {w w1 : World} (hc : Coherent w) (hg : HeapGrows w.heap w1.heap)
    (hnew : ∀ s, some s ∈ w1.sp → some s ∈ w.sp ∨ s.coherent w1.heap) : Coherent w1 := by
  intro s hs
  rcases hnew s hs with h | h
  · exact (hc s h).heap_grows hg
  · exact h

theorem SharedPtr.copy_ctor_coherent {h h1 : Heap} {other s : SharedPtr}
    (ho : other.coherent h) (hm : other.copy_ctor h = .ok (h1, s)) :
    HeapGrows h h1 ∧ s.coherent h1 := by
  unfold SharedPtr.copy_ctor at hm
  dsimp only at hm
  split at hm
  · obtain ⟨h2, hinc, hres⟩ := except_bind_ok hm
    simp only [pure, Except.pure, Except.ok.injEq, Prod.mk.injEq] at hres
    rw [← hres.1, ← hres.2]
    have g := SharedPtr.increment_count_grows hinc
    exact ⟨g, ho.heap_grows g⟩
  · simp only [pure, Except.pure, Except.ok.injEq, Prod.mk.injEq] at hm
    rw [← hm.1, ← hm.2]
    exact ⟨HeapGrows.grows_refl h, ho⟩

theorem SharedPtr.conv_copy_ctor_coherent {h h1 : Heap} {other s : SharedPtr} {off : Nat}
    (ho : other.coherent h) (hm : other.conv_copy_ctor off h = .ok (h1, s)) :
    HeapGrows h h1 ∧ s.coherent h1 := by
  obtain ⟨h2, hinc, hres⟩ := except_bind_ok hm
  simp only [pure, Except.pure, Except.ok.injEq, Prod.mk.injEq] at hres
  rw [← hres.1, ← hres.2]
  have g := SharedPtr.increment_count_grows hinc
  exact ⟨g, (ho.converted off).heap_grows g⟩

theorem SharedPtr.block_ctor_coherent {h h1 : Heap} {cb : Option Nat} {s : SharedPtr}
    (hm : SharedPtr.block_ctor cb h = .ok (h1, s)) : HeapGrows h h1 ∧ s.coherent h1 := by
  obtain ⟨⟨a, b⟩, hacc, hm1⟩ := except_bind_ok hm
  obtain ⟨hcb, hb, -⟩ := access_ok_inv hacc
  obtain ⟨h2, hinc, hres⟩ := except_bind_ok hm1
  simp only [pure, Except.pure, Except.ok.injEq, Prod.mk.injEq] at hres
  rw [← hres.1, ← hres.2]
  have g := SharedPtr.increment_count_grows hinc
  refine ⟨g, SharedPtr.coherent.heap_grows ?_ g⟩
  subst hcb
  exact ⟨b, hb, id⟩

theorem WeakPtr.lock_coherent {h h1 : Heap} {this : WeakPtr} {s : SharedPtr}
    (hm : this.lock h = .ok (h1, s)) : HeapGrows h h1 ∧ s.coherent h1 := by
  obtain ⟨e, -, hm1⟩ := except_bind_ok hm
  cases e with
  | true =>
    simp only [if_true, pure, Except.pure, Except.ok.injEq, Prod.mk.injEq] at hm1
    rw [← hm1.1, ← hm1.2]
    exact ⟨HeapGrows.grows_refl h, rfl⟩
  | false =>
    simp only [Bool.false_eq_true, if_false] at hm1
    exact SharedPtr.block_ctor_coherent hm1

theorem SharedPtr.copy_assign_coherent {h h1 : Heap} {this other s : SharedPtr}
    (ho : other.coherent h) (hm : this.copy_assign other h = .ok (h1, s)) :
    HeapGrows h h1 ∧ s.coherent h1 := by
  obtain ⟨h2, hd, hm1⟩ := except_bind_ok hm
  obtain ⟨h3, hinc, hres⟩ := except_bind_ok hm1
  simp only [pure, Except.pure, Except.ok.injEq, Prod.mk.injEq] at hres
  rw [← hres.1, ← hres.2]
  have g := (SharedPtr.dtor_grows hd).grows_trans (SharedPtr.increment_count_grows hinc)
  exact ⟨g, ho.heap_grows g⟩

theorem SharedPtr.conv_copy_assign_coherent {h h1 : Heap} {this other s : SharedPtr}
    {off : Nat} (ho : other.coherent h) (hm : this.conv_copy_assign other off h = .ok (h1, s)) :
    HeapGrows h h1 ∧ s.coherent h1 := by
  obtain ⟨h2, hd, hm1⟩ := except_bind_ok hm
  obtain ⟨h3, hinc, hres⟩ := except_bind_ok hm1
  simp only [pure, Except.pure, Except.ok.injEq, Prod.mk.injEq] at hres
  rw [← hres.1, ← hres.2]
  have g := (SharedPtr.dtor_grows hd).grows_trans (SharedPtr.increment_count_grows hinc)
  exact ⟨g, (ho.converted off).heap_grows g⟩

theorem SharedPtr.move_assign_coherent {h h1 : Heap} {this other s t : SharedPtr}
    (ho : other.coherent h) (hm : this.move_assign other h = .ok (h1, s, t)) :
    HeapGrows h h1 ∧ s.coherent h1 ∧ t = ⟨none, none⟩ := by
  obtain ⟨h2, hd, hres⟩ := except_bind_ok hm
  simp only [pure, Except.pure, Except.ok.injEq, Prod.mk.injEq] at hres
  rw [← hres.1, ← hres.2.1, ← hres.2.2]
  have g := SharedPtr.dtor_grows hd
  exact ⟨g, ho.heap_grows g, rfl⟩

theorem SharedPtr.conv_move_assign_coherent {h h1 : Heap} {this other s t : SharedPtr}
    {off : Nat} (ho : other.coherent h) (hm : this.conv_move_assign other off h = .ok (h1, s, t)) :
    HeapGrows h h1 ∧ s.coherent h1 ∧ t = ⟨none, none⟩ := by
  obtain ⟨h2, hd, hres⟩ := except_bind_ok hm
  simp only [pure, Except.pure, Except.ok.injEq, Prod.mk.injEq] at hres
  rw [← hres.1, ← hres.2.1, ← hres.2.2]
  have g := SharedPtr.dtor_grows hd
  exact ⟨g, (ho.converted off).heap_grows g, rfl⟩

theorem SharedPtr.reset_coherent {h h1 : Heap} {this s : SharedPtr}
    (hm : this.reset h = .ok (h1, s)) : HeapGrows h h1 ∧ s.coherent h1 := by
  obtain ⟨⟨h2, s1, t⟩, hma, hm1⟩ := except_bind_ok hm
  obtain ⟨h3, hd, hres⟩ := except_bind_ok hm1
  simp only [pure, Except.pure, Except.ok.injEq, Prod.mk.injEq] at hres
  rw [← hres.1, ← hres.2]
  have hdef : SharedPtr.coherent SharedPtr.default_ctor h := rfl
  obtain ⟨g, hs1, -⟩ := SharedPtr.move_assign_coherent hdef hma
  have g2 := SharedPtr.dtor_grows hd
  exact ⟨g.grows_trans g2, hs1.heap_grows g2⟩

theorem SharedPtr.reset_ptr_coherent {h h1 : Heap} {this s : SharedPtr} {p : Option Nat}
    (hm : this.reset_ptr p h = .ok (h1, s)) : HeapGrows h h1 ∧ s.coherent h1 := by
  unfold SharedPtr.reset_ptr at hm
  rw [SharedPtr.raw_ctor_eq] at hm
  dsimp only at hm
  obtain ⟨⟨h2, s1, t⟩, hma, hm1⟩ := except_bind_ok hm
  obtain ⟨h3, hd, hres⟩ := except_bind_ok hm1
  simp only [pure, Except.pure, Except.ok.injEq, Prod.mk.injEq] at hres
  rw [← hres.1, ← hres.2]
  have hnew : SharedPtr.coherent ⟨some h.length, p⟩
      (h ++ [{ ControlBlockRegular p with shared_count := 1 }]) :=
    ⟨{ ControlBlockRegular p with shared_count := 1 }, by simp, id⟩
  obtain ⟨g, hs1, -⟩ := SharedPtr.move_assign_coherent hnew hma
  have g2 := SharedPtr.dtor_grows hd
  exact ⟨(HeapGrows.append_blocks h _).grows_trans (g.grows_trans g2), hs1.heap_grows g2⟩

theorem WeakPtr.conv_assign_grows {h h1 : Heap} {this other k : WeakPtr}
    (hm : this.conv_assign other h = .ok (h1, k)) : HeapGrows h h1 := by
  obtain ⟨h2, hd, hm1⟩ := except_bind_ok hm
  obtain ⟨⟨a, b⟩, hacc, hres⟩ := except_bind_ok hm1
  obtain ⟨-, hb, -⟩ := access_ok_inv hacc
  simp only [pure, Except.pure, Except.ok.injEq, Prod.mk.injEq] at hres
  rw [← hres.1]
  exact (WeakPtr.weak_dtor_grows hd).grows_trans (HeapGrows.set_block hb id)

theorem WeakPtr.assign_shared_grows {h h1 : Heap} {this k : WeakPtr} {other : SharedPtr}
    (hm : this.assign_shared other h = .ok (h1, k)) : HeapGrows h h1 := by
  obtain ⟨h2, hd, hm1⟩ := except_bind_ok hm
  obtain ⟨h3, hinc, hres⟩ := except_bind_ok hm1
  simp only [pure, Except.pure, Except.ok.injEq, Prod.mk.injEq] at hres
  rw [← hres.1]
  exact (WeakPtr.weak_dtor_grows hd).grows_trans (WeakPtr.weak_increment_count_grows hinc)

theorem WeakPtr.weak_copy_ctor_grows {h h1 : Heap} {other k : WeakPtr}
    (hm : other.copy_ctor h = .ok (h1, k)) : HeapGrows h h1 := by
  obtain ⟨h2, hinc, hres⟩ := except_bind_ok hm
  simp only [pure, Except.pure, Except.ok.injEq, Prod.mk.injEq] at hres
  rw [← hres.1]
  exact WeakPtr.weak_increment_count_grows hinc

theorem WeakPtr.from_shared_grows {h h1 : Heap} {other : SharedPtr} {k : WeakPtr}
    (hm : WeakPtr.from_shared other h = .ok (h1, k)) : HeapGrows h h1 := by
  obtain ⟨h2, hinc, hres⟩ := except_bind_ok hm
  simp only [pure, Except.pure, Except.ok.injEq, Prod.mk.injEq] at hres
  rw [← hres.1]
  exact WeakPtr.weak_increment_count_grows hinc

theorem mem_append_some {l : List (Option SharedPtr)} {s t : SharedPtr}
    (h : some s ∈ l ++ [some t]) : some s ∈ l ∨ s = t := by
  rcases List.mem_append.1 h with h1 | h1
  · exact Or.inl h1
  · exact Or.inr (Option.some.inj (List.mem_singleton.1 h1))

theorem mem_set_some {l : List (Option SharedPtr)} {i : Nat} {s t : SharedPtr}
    (h : some s ∈ l.set i (some t)) : some s ∈ l ∨ s = t := by
  rcases List.mem_or_eq_of_mem_set h with h1 | h1
  · exact Or.inl h1
  · exact Or.inr (Option.some.inj h1)

theorem mem_set_dead {l : List (Option SharedPtr)} {i : Nat} {s : SharedPtr}
    (h : some s ∈ l.set i none) : some s ∈ l := by
  rcases List.mem_or_eq_of_mem_set h with h1 | h1
  · exact h1
  · cases h1

/-- Whatever the statement, when it executes without a fault every live shared
handle stays coherent. -/
theorem step_coherent {w w1 : World} (op : Op) (hc : Coherent w) (h : step w op = .ok w1) :
    Coherent w1 := by
  have hskip : ∀ {x : World}, (pure w : Except Fault World) = .ok x → Coherent x := by
    intro x hx
    simp only [pure, Except.pure, Except.ok.injEq] at hx
    rw [← hx]; exact hc
  have hempty : ∀ h0 : Heap, SharedPtr.coherent ⟨none, none⟩ h0 := fun _ => rfl
  have hweak : ∀ {h1 : Heap} {wp1 : List (Option WeakPtr)}, HeapGrows w.heap h1 →
      Coherent ⟨h1, w.sp, wp1⟩ := by
    intro h1 wp1 g
    exact hc.of_step g (fun s hs => Or.inl hs)
  cases op <;> simp only [step] at h
  case sDefault =>
    simp only [pure, Except.pure, Except.ok.injEq] at h
    rw [← h]
    refine hc.of_step (HeapGrows.grows_refl _) ?_
    intro s hs
    rcases mem_append_some hs with h1 | h1
    · exact Or.inl h1
    · right; rw [h1]; exact hempty _
  case sRaw p =>
    rw [SharedPtr.raw_ctor_eq] at h
    simp only [pure, Except.pure, Except.ok.injEq] at h
    rw [← h]
    refine hc.of_step (HeapGrows.append_blocks _ _) ?_
    intro s hs
    rcases mem_append_some hs with h1 | h1
    · exact Or.inl h1
    · right; rw [h1]
      exact ⟨{ ControlBlockRegular p with shared_count := 1 }, by simp, id⟩
  case sMake obj =>
    unfold makeShared at h
    rw [allocateShared_ok] at h
    simp only [pure, Except.pure, bind, Except.bind, Except.ok.injEq] at h
    rw [← h]
    refine hc.of_step (HeapGrows.append_blocks _ _) ?_
    intro s hs
    rcases mem_append_some hs with h1 | h1
    · exact Or.inl h1
    · right; rw [h1]
      exact ⟨{ ControlBlockMakeShared obj with shared_count := 1 }, by simp, id⟩
  case sCopy i =>
    cases hso : w.shared i with
    | none => rw [hso] at h; exact hskip h
    | some other =>
      rw [hso] at h
      obtain ⟨⟨h1, t⟩, hm, hres⟩ := except_bind_ok h
      simp only [pure, Except.pure, Except.ok.injEq] at hres
      rw [← hres]
      obtain ⟨g, ht⟩ := SharedPtr.copy_ctor_coherent (hc _ (shared_mem hso)) hm
      refine hc.of_step g ?_
      intro s hs
      rcases mem_append_some hs with h1 | h1
      · exact Or.inl h1
      · right; rw [h1]; exact ht
  case sConvCopy i off =>
    cases hso : w.shared i with
    | none => rw [hso] at h; exact hskip h
    | some other =>
      rw [hso] at h
      obtain ⟨⟨h1, t⟩, hm, hres⟩ := except_bind_ok h
      simp only [pure, Except.pure, Except.ok.injEq] at hres
      rw [← hres]
      obtain ⟨g, ht⟩ := SharedPtr.conv_copy_ctor_coherent (hc _ (shared_mem hso)) hm
      refine hc.of_step g ?_
      intro s hs
      rcases mem_append_some hs with h1 | h1
      · exact Or.inl h1
      · right; rw [h1]; exact ht
  case sMove i =>
    cases hso : w.shared i with
    | none => rw [hso] at h; exact hskip h
    | some other =>
      rw [hso] at h
      simp only [SharedPtr.move_ctor, pure, Except.pure, Except.ok.injEq] at h
      rw [← h]
      refine hc.of_step (HeapGrows.grows_refl _) ?_
      intro s hs
      rcases mem_append_some hs with h1 | h1
      · rcases mem_set_some h1 with h2 | h2
        · exact Or.inl h2
        · right; rw [h2]; exact hempty _
      · right; rw [h1]; exact hc _ (shared_mem hso)
  case sConvMove i off =>
    cases hso : w.shared i with
    | none => rw [hso] at h; exact hskip h
    | some other =>
      rw [hso] at h
      simp only [SharedPtr.conv_move_ctor, pure, Except.pure, Except.ok.injEq] at h
      rw [← h]
      refine hc.of_step (HeapGrows.grows_refl _) ?_
      intro s hs
      rcases mem_append_some hs with h1 | h1
      · rcases mem_set_some h1 with h2 | h2
        · exact Or.inl h2
        · right; rw [h2]; exact hempty _
      · right; rw [h1]; exact (hc _ (shared_mem hso)).converted off
  case sLock j =>
    cases hwo : w.weak j with
    | none => rw [hwo] at h; exact hskip h
    | some wk =>
      rw [hwo] at h
      obtain ⟨⟨h1, t⟩, hm, hres⟩ := except_bind_ok h
      simp only [pure, Except.pure, Except.ok.injEq] at hres
      rw [← hres]
      obtain ⟨g, ht⟩ := WeakPtr.lock_coherent hm
      refine hc.of_step g ?_
      intro s hs
      rcases mem_append_some hs with h1 | h1
      · exact Or.inl h1
      · right; rw [h1]; exact ht
  case sDtor i =>
    cases hso : w.shared i with
    | none => rw [hso] at h; exact hskip h
    | some this =>
      rw [hso] at h
      obtain ⟨h1, hm, hres⟩ := except_bind_ok h
      simp only [pure, Except.pure, Except.ok.injEq] at hres
      rw [← hres]
      exact hc.of_step (SharedPtr.dtor_grows hm) (fun s hs => Or.inl (mem_set_dead hs))
  case sReset i =>
    cases hso : w.shared i with
    | none => rw [hso] at h; exact hskip h
    | some this =>
      rw [hso] at h
      obtain ⟨⟨h1, t⟩, hm, hres⟩ := except_bind_ok h
      simp only [pure, Except.pure, Except.ok.injEq] at hres
      rw [← hres]
      obtain ⟨g, ht⟩ := SharedPtr.reset_coherent hm
      refine hc.of_step g ?_
      intro s hs
      rcases mem_set_some hs with h1 | h1
      · exact Or.inl h1
      · right; rw [h1]; exact ht
  case sResetPtr i p =>
    cases hso : w.shared i with
    | none => rw [hso] at h; exact hskip h
    | some this =>
      rw [hso] at h
      obtain ⟨⟨h1, t⟩, hm, hres⟩ := except_bind_ok h
      simp only [pure, Except.pure, Except.ok.injEq] at hres
      rw [← hres]
      obtain ⟨g, ht⟩ := SharedPtr.reset_ptr_coherent hm
      refine hc.of_step g ?_
      intro s hs
      rcases mem_set_some hs with h1 | h1
      · exact Or.inl h1
      · right; rw [h1]; exact ht
  case sSwap i j =>
    cases hsi : w.shared i with
    | none => rw [hsi] at h; exact hskip h
    | some this =>
      cases hsj : w.shared j with
      | none => rw [hsi, hsj] at h; exact hskip h
      | some other =>
        rw [hsi, hsj] at h
        simp only [SharedPtr.swap, pure, Except.pure, Except.ok.injEq] at h
        rw [← h]
        refine hc.of_step (HeapGrows.grows_refl _) ?_
        intro s hs
        rcases mem_set_some hs with h1 | h1
        · rcases mem_set_some h1 with h2 | h2
          · exact Or.inl h2
          · right; rw [h2]; exact hc _ (shared_mem hsj)
        · right; rw [h1]; exact hc _ (shared_mem hsi)
  case sAssign i j =>
    cases hsi : w.shared i with
    | none => rw [hsi] at h; exact hskip h
    | some this =>
      cases hsj : w.shared j with
      | none => rw [hsi, hsj] at h; exact hskip h
      | some other =>
        rw [hsi, hsj] at h
        obtain ⟨⟨h1, t⟩, hm, hres⟩ := except_bind_ok h
        simp only [pure, Except.pure, Except.ok.injEq] at hres
        rw [← hres]
        obtain ⟨g, ht⟩ := SharedPtr.copy_assign_coherent (hc _ (shared_mem hsj)) hm
        refine hc.of_step g ?_
        intro s hs
        rcases mem_set_some hs with h1 | h1
        · exact Or.inl h1
        · right; rw [h1]; exact ht
  case sConvAssign i j off =>
    cases hsi : w.shared i with
    | none => rw [hsi] at h; exact hskip h
    | some this =>
      cases hsj : w.shared j with
      | none => rw [hsi, hsj] at h; exact hskip h
      | some other =>
        rw [hsi, hsj] at h
        obtain ⟨⟨h1, t⟩, hm, hres⟩ := except_bind_ok h
        simp only [pure, Except.pure, Except.ok.injEq] at hres
        rw [← hres]
        obtain ⟨g, ht⟩ := SharedPtr.conv_copy_assign_coherent (hc _ (shared_mem hsj)) hm
        refine hc.of_step g ?_
        intro s hs
        rcases mem_set_some hs with h1 | h1
        · exact Or.inl h1
        · right; rw [h1]; exact ht
  case sMoveAssign i j =>
    cases hsi : w.shared i with
    | none => rw [hsi] at h; exact hskip h
    | some this =>
      cases hsj : w.shared j with
      | none => rw [hsi, hsj] at h; exact hskip h
      | some other =>
        rw [hsi, hsj] at h
        obtain ⟨⟨h1, t, u⟩, hm, hres⟩ := except_bind_ok h
        simp only [pure, Except.pure, Except.ok.injEq] at hres
        rw [← hres]
        obtain ⟨g, ht, hu⟩ := SharedPtr.move_assign_coherent (hc _ (shared_mem hsj)) hm
        refine hc.of_step g ?_
        intro s hs
        rcases mem_set_some hs with h1 | h1
        · rcases mem_set_some h1 with h2 | h2
          · exact Or.inl h2
          · right; rw [h2]; exact ht
        · right; rw [h1, hu]; exact hempty _
  case sConvMoveAssign i j off =>
    cases hsi : w.shared i with
    | none => rw [hsi] at h; exact hskip h
    | some this =>
      cases hsj : w.shared j with
      | none => rw [hsi, hsj] at h; exact hskip h
      | some other =>
        rw [hsi, hsj] at h
        obtain ⟨⟨h1, t, u⟩, hm, hres⟩ := except_bind_ok h
        simp only [pure, Except.pure, Except.ok.injEq] at hres
        rw [← hres]
        obtain ⟨g, ht, hu⟩ := SharedPtr.conv_move_assign_coherent (hc _ (shared_mem hsj)) hm
        refine hc.of_step g ?_
        intro s hs
        rcases mem_set_some hs with h1 | h1
        · rcases mem_set_some h1 with h2 | h2
          · exact Or.inl h2
          · right; rw [h2]; exact ht
        · right; rw [h1, hu]; exact hempty _
  case wDefault =>
    simp only [pure, Except.pure, Except.ok.injEq] at h
    rw [← h]; exact hweak (HeapGrows.grows_refl _)
  case wCopy j =>
    cases hwo : w.weak j with
    | none => rw [hwo] at h; exact hskip h
    | some other =>
      rw [hwo] at h
      obtain ⟨⟨h1, k⟩, hm, hres⟩ := except_bind_ok h
      simp only [pure, Except.pure, Except.ok.injEq] at hres
      rw [← hres]
      exact hweak (WeakPtr.weak_copy_ctor_grows hm)
  case wMove j =>
    cases hwo : w.weak j with
    | none => rw [hwo] at h; exact hskip h
    | some other =>
      rw [hwo] at h
      simp only [WeakPtr.move_ctor, pure, Except.pure, Except.ok.injEq] at h
      rw [← h]; exact hweak (HeapGrows.grows_refl _)
  case wFromShared i =>
    cases hso : w.shared i with
    | none => rw [hso] at h; exact hskip h
    | some other =>
      rw [hso] at h
      obtain ⟨⟨h1, k⟩, hm, hres⟩ := except_bind_ok h
      simp only [pure, Except.pure, Except.ok.injEq] at hres
      rw [← hres]
      exact hweak (WeakPtr.from_shared_grows hm)
  case wDtor j =>
    cases hwo : w.weak j with
    | none => rw [hwo] at h; exact hskip h
    | some this =>
      rw [hwo] at h
      obtain ⟨h1, hm, hres⟩ := except_bind_ok h
      simp only [pure, Except.pure, Except.ok.injEq] at hres
      rw [← hres]
      exact hweak (WeakPtr.weak_dtor_grows hm)
  case wAssign j k =>
    cases hwj : w.weak j with
    | none => rw [hwj] at h; exact hskip h
    | some this =>
      cases hwk : w.weak k with
      | none => rw [hwj, hwk] at h; exact hskip h
      | some other =>
        rw [hwj, hwk] at h
        simp only [pure, Except.pure, Except.ok.injEq] at h
        rw [← h]; exact hweak (HeapGrows.grows_refl _)
  case wConvAssign j k =>
    cases hwj : w.weak j with
    | none => rw [hwj] at h; exact hskip h
    | some this =>
      cases hwk : w.weak k with
      | none => rw [hwj, hwk] at h; exact hskip h
      | some other =>
        rw [hwj, hwk] at h
        obtain ⟨⟨h1, k1⟩, hm, hres⟩ := except_bind_ok h
        simp only [pure, Except.pure, Except.ok.injEq] at hres
        rw [← hres]
        exact hweak (WeakPtr.conv_assign_grows hm)
  case wAssignShared j i =>
    cases hwj : w.weak j with
    | none => rw [hwj] at h; exact hskip h
    | some this =>
      cases hsi : w.shared i with
      | none => rw [hwj, hsi] at h; exact hskip h
      | some other =>
        rw [hwj, hsi] at h
        obtain ⟨⟨h1, k1⟩, hm, hres⟩ := except_bind_ok h
        simp only [pure, Except.pure, Except.ok.injEq] at hres
        rw [← hres]
        exact hweak (WeakPtr.assign_shared_grows hm)

theorem run_coherent (ops : List Op) : ∀ {w w1 : World}, Coherent w →
    run w ops = .ok w1 → Coherent w1 := by
  induction ops with
  | nil =>
    intro w w1 hc h
    simp only [run, pure, Except.pure, Except.ok.injEq] at h
    rw [← h]; exact hc
  | cons op ops ih =>
    intro w w1 hc h
    unfold run at h
    obtain ⟨w2, hstep, hrun⟩ := except_bind_ok h
    exact ih (step_coherent op hc hstep) hrun

theorem coherent_empty : Coherent World.empty := by
  intro s hs
  simp [World.empty] at hs

/-- C20.  `get()` returns the cached address `ptr_` whenever it is not null, on
any heap and without touching the control block, and returns null for the
handle with neither block nor address; the default constructor builds exactly
that handle (no control block, `get()` null), as a statement `SharedPtr<T> s;`
it declares one such variable and changes nothing else.  In every state a
program reaches without undefined behaviour, started with nothing allocated,
every live handle without control block has a null cached address, so `get()`
returns null for it.  When the program is moreover legal, or has no assignment
statement, and is shorter than `2 ^ 64` statements, `get()` returns the cached
address of every live handle, also of one built from a null raw pointer, where
it reads the null address from the block.  A legal program never runs into
undefined behaviour. -/
theorem get_returns_cached (ops : List Op) (hlen : ops.length < SIZE_MOD) :
    (∀ (s : SharedPtr) (h : Heap), s.ptr_ ≠ none → s.get h = .ok s.ptr_) ∧
    (∀ h : Heap, SharedPtr.get ⟨none, none⟩ h = .ok none) ∧
    (SharedPtr.default_ctor.control_block_ = none ∧ SharedPtr.default_ctor.ptr_ = none ∧
      ∀ h : Heap, SharedPtr.default_ctor.get h = .ok none) ∧
    (∀ w : World, step w .sDefault = .ok ⟨w.heap, w.sp ++ [some ⟨none, none⟩], w.wp⟩) ∧
    (∀ w, run World.empty ops = .ok w →
      ∀ (i : Nat) (s : SharedPtr), w.shared i = some s → s.control_block_ = none →
        s.ptr_ = none ∧ s.get w.heap = .ok none) ∧
    (legalRun World.empty ops = true → ∃ w, run World.empty ops = .ok w) ∧
    ∀ w, run World.empty ops = .ok w →
      (legalRun World.empty ops = true ∨ ∀ op ∈ ops, op.isAssignment = false) →
      ∀ (i : Nat) (s : SharedPtr), w.shared i = some s → s.get w.heap = .ok s.ptr_ := by
  have key : legalRun World.empty ops = true →
      ∃ w, run World.empty ops = .ok w ∧ Inv w := by
    intro hl
    obtain ⟨w, hrun, hInv, -, -, -⟩ := run_inv ops inv_empty hl
      (by simpa [World.empty] using hlen) (by simpa [World.empty] using hlen)
    exact ⟨w, hrun, hInv⟩
  have hsome : ∀ (s : SharedPtr) (h : Heap), s.ptr_ ≠ none → s.get h = .ok s.ptr_ := by
    intro s h hp
    simp [SharedPtr.get, hp, pure, Except.pure]
  have hnone : ∀ h : Heap, SharedPtr.get ⟨none, none⟩ h = .ok none := by
    intro h
    simp [SharedPtr.get, pure, Except.pure]
  refine ⟨hsome, hnone, ⟨rfl, rfl, hnone⟩, fun w => rfl, ?_, ?_, ?_⟩
  · intro w hrun i s hs hcb
    have hc := run_coherent ops coherent_empty hrun s (shared_mem hs)
    obtain ⟨cb, p⟩ := s
    simp only [] at hcb
    subst hcb
    have hp : p = none := hc
    subst hp
    exact ⟨rfl, hnone _⟩
  · intro hl
    obtain ⟨w, hrun, -⟩ := key hl
    exact ⟨w, hrun⟩
  · intro w hrun hcase i s hs
    have hl : legalRun World.empty ops = true := by
      rcases hcase with hl | hops
      · exact hl
      · exact legalRun_of_run_ok ops hops hrun
    obtain ⟨w1, hrun1, hInv⟩ := key hl
    rw [hrun] at hrun1
    cases hrun1
    have hc := run_coherent ops coherent_empty hrun s (shared_mem hs)
    by_cases hp : s.ptr_ = none
    · cases hcb : s.control_block_ with
      | none =>
        obtain ⟨cb, p⟩ := s
        simp only [] at hcb hp
        subst hcb
        subst hp
        exact hnone _
      | some a =>
        obtain ⟨b, hb, -, -, hcalls, -⟩ := hInv.shared_block hs hcb
        have hf : Call.deallocate ∉ b.calls := by simp [hcalls]
        obtain ⟨cb, p⟩ := s
        simp only [] at hcb hp
        subst hcb
        subst hp
        obtain ⟨b1, hb1, hn⟩ := hc
        rw [hb] at hb1
        cases hb1
        simp [SharedPtr.get, access_some hb hf, bind, Except.bind, pure, Except.pure,
          BaseControlBlock.get_ptr, hn rfl]
    · exact hsome s _ hp

theorem get_returns_cached_witness :
    cachedProgram.length < SIZE_MOD ∧ legalRun World.empty cachedProgram = true ∧
    run World.empty cachedProgram = .ok cachedFinal ∧
    cachedFinal.shared 0 = some ⟨some 0, none⟩ ∧
    cachedFinal.shared 1 = some ⟨none, none⟩ ∧
    cachedFinal.shared 2 = some ⟨some 1, some 11⟩ ∧
    SharedPtr.get ⟨some 0, none⟩ cachedFinal.heap = .ok none ∧
    SharedPtr.get ⟨none, none⟩ cachedFinal.heap = .ok none ∧
    SharedPtr.get ⟨some 1, some 11⟩ cachedFinal.heap = .ok (some 11) :=
  ⟨by decide, by decide, by decide, by decide, by decide, by decide,
    (get_returns_cached cachedProgram (by decide)).2.2.2.2.2.2 cachedFinal (by decide)
      (Or.inl (by decide)) 0 ⟨some 0, none⟩ (by decide),
    ((get_returns_cached cachedProgram (by decide)).2.2.2.2.1 cachedFinal (by decide)
      1 ⟨none, none⟩ (by decide) rfl).2,
    (get_returns_cached cachedProgram (by decide)).2.2.2.2.2.2 cachedFinal (by decide)
      (Or.inr (by decide)) 2 ⟨some 1, some 11⟩ (by decide)⟩

theorem set_same {α : Type} {l : List α} {a : Nat} {b : α} (hb : l[a]? = some b) :
    l.set a b = l := by
  apply List.ext_getElem?
  intro n
  by_cases hn : a = n
  · subst hn
    rw [getElem?_set_of_some hb, hb]
  · rw [List.getElem?_set_ne hn]

theorem shared_set_same {h : Heap} {sp : List (Option SharedPtr)} {wp : List (Option WeakPtr)}
    {i : Nat} {x : Option SharedPtr} (s : SharedPtr) (hi : sp[i]? = some x) :
    World.shared ⟨h, sp.set i (some s), wp⟩ i = some s := by
  rw [shared_eq_some]
  exact getElem?_set_of_some hi

/-- C21.  `swap` exchanges the two handles: each of the two variables ends
with exactly the control block and the cached pointer the other had, whatever
the two handles are (empty ones included, and also for `a.swap(a)`); the heap
is the same heap, so no counter of any block changes and no `destroy()` or
`deallocate()` call is made; no other variable changes. -/
theorem swap_exchanges (w : World) (i j : Nat) (this other : SharedPtr)
    (hi : w.shared i = some this) (hj : w.shared j = some other) :
    SharedPtr.swap this other = (other, this) ∧
    ∃ w1, step w (.sSwap i j) = .ok w1 ∧
      w1.heap = w.heap ∧ w1.wp = w.wp ∧
      w1.shared i = some other ∧ w1.shared j = some this ∧
      w1.sp.length = w.sp.length ∧
      ∀ k, k ≠ i → k ≠ j → w1.sp[k]? = w.sp[k]? := by
  have hi1 := shared_eq_some.1 hi
  have hj1 := shared_eq_some.1 hj
  have hlt := lt_length_of_getElem? hi1
  refine ⟨rfl, ⟨w.heap, (w.sp.set i (some other)).set j (some this), w.wp⟩, ?_, rfl, rfl, ?_, ?_,
    by simp, ?_⟩
  · simp [step, hi, hj, SharedPtr.swap, pure, Except.pure]
  · by_cases hij : i = j
    · subst hij
      rw [hi] at hj
      cases hj
      exact shared_set_same _ (getElem?_set_of_some hi1)
    · rw [shared_eq_some, List.getElem?_set_ne (Ne.symm hij)]
      exact getElem?_set_of_some hi1
  · by_cases hij : i = j
    · subst hij
      exact shared_set_same _ (getElem?_set_of_some hi1)
    · refine shared_set_same _ (x := some other) ?_
      rw [List.getElem?_set_ne hij]
      exact hj1
  · intro k hki hkj
    show ((w.sp.set i (some other)).set j (some this))[k]? = w.sp[k]?
    rw [List.getElem?_set_ne (Ne.symm hkj), List.getElem?_set_ne (Ne.symm hki)]

theorem swap_exchanges_witness :
    SharedPtr.swap ⟨some 0, some 7⟩ ⟨none, none⟩ = (⟨none, none⟩, ⟨some 0, some 7⟩) ∧
    ∃ w1, step pairWorld (.sSwap 0 2) = .ok w1 ∧
      w1.heap = pairWorld.heap ∧ w1.wp = pairWorld.wp ∧
      w1.shared 0 = some ⟨none, none⟩ ∧ w1.shared 2 = some ⟨some 0, some 7⟩ ∧
      w1.sp.length = pairWorld.sp.length ∧
      ∀ k, k ≠ 0 → k ≠ 2 → w1.sp[k]? = pairWorld.sp[k]? :=
  swap_exchanges pairWorld 0 2 ⟨some 0, some 7⟩ ⟨none, none⟩ (by decide) (by decide)

theorem SharedPtr.copy_assign_alias {h : Heap} {x : Nat} {b : BaseControlBlock}
    (p q : Option Nat) (hb : h[x]? = some b) (hlive : Call.deallocate ∉ b.calls)
    (h2 : 2 ≤ b.shared_count) (hrange : b.shared_count < SIZE_MOD) :
    SharedPtr.dtor ⟨some x, p⟩ h = .ok (h.set x { b with shared_count := b.shared_count - 1 }) ∧
    SharedPtr.increment_count ⟨some x, q⟩
      (h.set x { b with shared_count := b.shared_count - 1 }) = .ok h := by
  have hb1 : (h.set x { b with shared_count := b.shared_count - 1 })[x]? =
      some { b with shared_count := b.shared_count - 1 } := getElem?_set_of_some hb
  constructor
  · rw [SharedPtr.dtor_block_eq p hb hlive (by omega) hrange]
    have : b.shared_count - 1 ≠ 0 := by omega
    simp [releaseShared, this]
  · rw [SharedPtr.increment_count_block_eq q hb1 (by simpa using hlive) (by simp; omega)]
    have e : b.shared_count - 1 + 1 = b.shared_count := by omega
    simp only [List.set_set, e]
    rw [set_same hb]

/-- C29.  Copy assignment `a = b` between two handles `a = (x, p)` and
`b = (x, q)` on one allocated block with `shared_count ≥ 2`, in the same-type
and in the converting form: the heap afterwards is the heap before, so
`shared_count` and `weak_count` are unchanged and neither `destroy()` nor
`deallocate()` is called; `a` ends with the block and the cached pointer of
`b` (converted, in the converting form), and as a statement of a program the
assignment writes to `a` only, so both variables reference the block `x` with
the same cached pointer. -/
theorem alias_assign_keeps_count (h : Heap) (x off : Nat) (p q : Option Nat)
    (b : BaseControlBlock) (hb : h[x]? = some b) (hlive : Call.deallocate ∉ b.calls)
    (h2 : 2 ≤ b.shared_count) (hrange : b.shared_count < SIZE_MOD) :
    SharedPtr.copy_assign ⟨some x, p⟩ ⟨some x, q⟩ h = .ok (h, ⟨some x, q⟩) ∧
    SharedPtr.conv_copy_assign ⟨some x, p⟩ ⟨some x, q⟩ off h =
      .ok (h, ⟨some x, convert off q⟩) ∧
    ∀ (w : World) (i j : Nat), w.heap = h → i ≠ j →
      w.shared i = some ⟨some x, p⟩ → w.shared j = some ⟨some x, q⟩ →
      ∃ w1, step w (.sAssign i j) = .ok w1 ∧ w1.heap = w.heap ∧ w1.wp = w.wp ∧
        w1.shared i = some ⟨some x, q⟩ ∧ w1.shared j = some ⟨some x, q⟩ ∧
        ∀ k, k ≠ i → w1.sp[k]? = w.sp[k]? := by
  obtain ⟨hd, hinc⟩ := SharedPtr.copy_assign_alias p q hb hlive h2 hrange
  obtain ⟨-, hinc1⟩ := SharedPtr.copy_assign_alias p (convert off q) hb hlive h2 hrange
  have hca : SharedPtr.copy_assign ⟨some x, p⟩ ⟨some x, q⟩ h = .ok (h, ⟨some x, q⟩) := by
    simp [SharedPtr.copy_assign, hd, hinc, bind, Except.bind, pure, Except.pure]
  refine ⟨hca, ?_, ?_⟩
  · simp [SharedPtr.conv_copy_assign, hd, hinc1, bind, Except.bind, pure, Except.pure]
  · intro w i j hw hij hi hj
    subst hw
    have hi1 := shared_eq_some.1 hi
    refine ⟨⟨w.heap, w.sp.set i (some ⟨some x, q⟩), w.wp⟩, ?_, rfl, rfl,
      shared_set_same _ hi1, ?_, ?_⟩
    · simp [step, hi, hj, hca, bind, Except.bind, pure, Except.pure]
    · rw [shared_eq_some]
      show (w.sp.set i (some ⟨some x, q⟩))[j]? = _
      rw [List.getElem?_set_ne hij]
      exact shared_eq_some.1 hj
    · intro k hk
      show (w.sp.set i (some ⟨some x, q⟩))[k]? = _
      rw [List.getElem?_set_ne (Ne.symm hk)]

theorem alias_assign_keeps_count_witness :
    SharedPtr.copy_assign ⟨some 0, some 7⟩ ⟨some 0, some 11⟩ pairWorld.heap =
      .ok (pairWorld.heap, ⟨some 0, some 11⟩) ∧
    SharedPtr.conv_copy_assign ⟨some 0, some 7⟩ ⟨some 0, some 11⟩ 4 pairWorld.heap =
      .ok (pairWorld.heap, ⟨some 0, some 15⟩) ∧
    ∃ w1, step pairWorld (.sAssign 0 1) = .ok w1 ∧ w1.heap = pairWorld.heap ∧
      w1.wp = pairWorld.wp ∧
      w1.shared 0 = some ⟨some 0, some 11⟩ ∧ w1.shared 1 = some ⟨some 0, some 11⟩ ∧
      ∀ k, k ≠ 0 → w1.sp[k]? = pairWorld.sp[k]? :=
  ⟨(alias_assign_keeps_count pairWorld.heap 0 4 (some 7) (some 11) sharedTwiceBlock rfl
      (by decide) (by decide) (by decide)).1,
    (alias_assign_keeps_count pairWorld.heap 0 4 (some 7) (some 11) sharedTwiceBlock rfl
      (by decide) (by decide) (by decide)).2.1,
    (alias_assign_keeps_count pairWorld.heap 0 4 (some 7) (some 11) sharedTwiceBlock rfl
      (by decide) (by decide) (by decide)).2.2 pairWorld 0 1 rfl (by decide) (by decide)
      (by decide)⟩

/-- C30.  `destroy()` of a regular block: the deleter is invoked once more
than before, with the pointer the block stored; the stored pointer is null
afterwards, so `get_ptr()` returns null; `shared_count` and `weak_count` are
unchanged; the call recorded is `destroy()` and no `deallocate()` call is
added.  As a virtual call through a pointer to an allocated block it changes
this block only and the number of allocated blocks stays the same. -/
theorem regular_destroy_effect (b : BaseControlBlock) (hreg : b.inlineObject = false) :
    b.destroy.deleted = b.deleted ++ [b.ptr] ∧
    b.destroy.deleted.length = b.deleted.length + 1 ∧
    b.destroy.ptr = none ∧ b.destroy.get_ptr = none ∧
    b.destroy.shared_count = b.shared_count ∧ b.destroy.weak_count = b.weak_count ∧
    b.destroy.inlineObject = false ∧
    b.destroy.calls = b.calls ++ [Call.destroy] ∧
    b.destroy.calls.count Call.deallocate = b.calls.count Call.deallocate ∧
    ∀ (h : Heap) (a : Nat), h[a]? = some b → Call.deallocate ∉ b.calls →
      Heap.call_destroy h (some a) = .ok (h.set a b.destroy) ∧
      (h.set a b.destroy).length = h.length ∧
      Heap.outstanding (h.set a b.destroy) = Heap.outstanding h ∧
      ∀ c, c ≠ a → (h.set a b.destroy)[c]? = h[c]? := by
  have hc : b.destroy.calls = b.calls ++ [Call.destroy] := by
    simp [BaseControlBlock.destroy, hreg]
  have hf1 : Call.deallocate ∉ b.calls → Call.deallocate ∉ b.destroy.calls := by
    intro hf
    simp [hc, hf]
  refine ⟨by simp [BaseControlBlock.destroy, hreg], by simp [BaseControlBlock.destroy, hreg],
    by simp [BaseControlBlock.destroy, hreg],
    by simp [BaseControlBlock.destroy, BaseControlBlock.get_ptr, hreg],
    by simp [BaseControlBlock.destroy, hreg], by simp [BaseControlBlock.destroy, hreg],
    by simp [BaseControlBlock.destroy, hreg], hc, by simp [hc, List.count_append], ?_⟩
  intro h a hb hf
  refine ⟨?_, by simp, ?_, ?_⟩
  · simp [Heap.call_destroy, access_some hb hf, bind, Except.bind, pure, Except.pure]
  · have := countP_set_add (fun b => decide (Call.deallocate ∉ b.calls)) b.destroy hb
    simp only [Heap.outstanding]
    simp only [hf, hf1 hf, not_false_eq_true, decide_True, if_true] at this
    omega
  · intro c hc
    rw [List.getElem?_set_ne (Ne.symm hc)]

theorem regular_destroy_effect_witness :
    soleOwnerBlock.destroy.deleted = [some 7] ∧
    soleOwnerBlock.destroy.ptr = none ∧ soleOwnerBlock.destroy.get_ptr = none ∧
    soleOwnerBlock.destroy.shared_count = 1 ∧ soleOwnerBlock.destroy.weak_count = 0 ∧
    soleOwnerBlock.destroy.calls = [Call.destroy] ∧
    Heap.call_destroy [soleOwnerBlock] (some 0) = .ok [soleOwnerBlock.destroy] :=
  ⟨(regular_destroy_effect soleOwnerBlock rfl).1,
    (regular_destroy_effect soleOwnerBlock rfl).2.2.1,
    (regular_destroy_effect soleOwnerBlock rfl).2.2.2.1,
    (regular_destroy_effect soleOwnerBlock rfl).2.2.2.2.1,
    (regular_destroy_effect soleOwnerBlock rfl).2.2.2.2.2.1,
    (regular_destroy_effect soleOwnerBlock rfl).2.2.2.2.2.2.2.1,
    ((regular_destroy_effect soleOwnerBlock rfl).2.2.2.2.2.2.2.2.2 [soleOwnerBlock] 0 rfl
      (by decide)).1⟩

theorem WeakPtr.expired_block_eq {h : Heap} {a : Nat} {b : BaseControlBlock}
    (hb : h[a]? = some b) (hf : Call.deallocate ∉ b.calls) :
    WeakPtr.expired ⟨some a⟩ h = .ok (decide (b.shared_count = 0)) := by
  simp [WeakPtr.expired, access_some hb hf, bind, Except.bind, pure, Except.pure]

theorem WeakPtr.expired_empty_eq (h : Heap) : WeakPtr.expired ⟨none⟩ h = .ok true := by
  simp [WeakPtr.expired, pure, Except.pure]

/-- C22.  `lock()` on a weak handle without control block returns an empty
shared handle and leaves the heap as it is.  On a weak handle whose block `a`
is allocated: when `shared_count = 0` it returns an empty shared handle and
leaves the heap as it is; when `shared_count ≠ 0` it returns a shared handle
on the block `a` whose cached pointer is the block's `get_ptr()`, so that
`get()` returns the managed-object pointer, and the only change in the heap is
`shared_count` of `a` going up by exactly one (`weak_count`, the call history
and every other block are untouched). -/
theorem lock_protocol (h : Heap) (a : Nat) (b : BaseControlBlock)
    (hb : h[a]? = some b) (hlive : Call.deallocate ∉ b.calls)
    (hrange : b.shared_count + 1 < SIZE_MOD) :
    WeakPtr.lock ⟨none⟩ h = .ok (h, ⟨none, none⟩) ∧
    (b.shared_count = 0 →
      WeakPtr.expired ⟨some a⟩ h = .ok true ∧
      WeakPtr.lock ⟨some a⟩ h = .ok (h, ⟨none, none⟩)) ∧
    (b.shared_count ≠ 0 →
      WeakPtr.expired ⟨some a⟩ h = .ok false ∧
      WeakPtr.lock ⟨some a⟩ h =
        .ok (h.set a { b with shared_count := b.shared_count + 1 }, ⟨some a, b.get_ptr⟩) ∧
      SharedPtr.get ⟨some a, b.get_ptr⟩
        (h.set a { b with shared_count := b.shared_count + 1 }) = .ok b.get_ptr ∧
      SharedPtr.use_count ⟨some a, b.get_ptr⟩
        (h.set a { b with shared_count := b.shared_count + 1 }) = .ok (b.shared_count + 1)) := by
  have hb1 : (h.set a { b with shared_count := b.shared_count + 1 })[a]? =
      some { b with shared_count := b.shared_count + 1 } := getElem?_set_of_some hb
  refine ⟨?_, ?_, ?_⟩
  · simp [WeakPtr.lock, WeakPtr.expired, SharedPtr.default_ctor, bind, Except.bind, pure,
      Except.pure]
  · intro h0
    constructor
    · simp [WeakPtr.expired_block_eq hb hlive, h0]
    · simp [WeakPtr.lock, WeakPtr.expired_block_eq hb hlive, h0, SharedPtr.default_ctor, bind,
        Except.bind, pure, Except.pure]
  · intro h0
    refine ⟨?_, ?_, ?_, ?_⟩
    · simp [WeakPtr.expired_block_eq hb hlive, h0]
    · simp [WeakPtr.lock, WeakPtr.expired_block_eq hb hlive, h0, SharedPtr.block_ctor,
        access_some hb hlive, SharedPtr.increment_count_block_eq _ hb hlive hrange, bind,
        Except.bind, pure, Except.pure]
    · cases hp : b.get_ptr with
      | some p => simp [SharedPtr.get, pure, Except.pure]
      | none =>
        have hf1 : Call.deallocate ∉
            ({ b with shared_count := b.shared_count + 1 } : BaseControlBlock).calls := hlive
        simp only [SharedPtr.get, ne_eq, not_true_eq_false, if_false, reduceCtorEq, and_false,
          access_some hb1 hf1, bind, Except.bind, pure, Except.pure]
        exact congrArg Except.ok hp
    · rw [SharedPtr.use_count_some _ hb1 (by simpa using hlive)]

theorem lock_protocol_witness :
    WeakPtr.lock ⟨none⟩ [observedBlock] = .ok ([observedBlock], ⟨none, none⟩) ∧
    WeakPtr.lock ⟨some 0⟩ [observedBlock] =
      .ok ([observedBlock].set 0 { observedBlock with shared_count := 1 + 1 },
        ⟨some 0, some 7⟩) ∧
    WeakPtr.lock ⟨some 0⟩ [expiredBlock] = .ok ([expiredBlock], ⟨none, none⟩) :=
  ⟨(lock_protocol [observedBlock] 0 observedBlock rfl (by decide) (by decide)).1,
    ((lock_protocol [observedBlock] 0 observedBlock rfl (by decide) (by decide)).2.2
      (by decide)).2.1,
    ((lock_protocol [expiredBlock] 0 expiredBlock rfl (by decide) (by decide)).2.1 rfl).2⟩

/-- C23.  For a weak handle that has no control block or whose control block
is allocated, `expired()` returns, and it returns true if and only if the
handle has no control block or `shared_count` of its block is 0.  The function
reads the heap and returns a truth value only: it has no heap to give back. -/
theorem expired_iff (h : Heap) (k : WeakPtr)
    (hk : ∀ a, k.control_block_ = some a → ∃ b, h[a]? = some b ∧ Call.deallocate ∉ b.calls) :
    ∃ r, k.expired h = .ok r ∧
      (r = true ↔
        (k.control_block_ = none ∨
          ∃ a b, k.control_block_ = some a ∧ h[a]? = some b ∧ b.shared_count = 0)) := by
  obtain ⟨cb⟩ := k
  cases cb with
  | none => exact ⟨true, WeakPtr.expired_empty_eq h, by simp⟩
  | some a =>
    obtain ⟨b, hb, hf⟩ := hk a rfl
    refine ⟨decide (b.shared_count = 0), WeakPtr.expired_block_eq hb hf, ?_⟩
    constructor
    · intro hr
      exact Or.inr ⟨a, b, rfl, hb, by simpa using hr⟩
    · rintro (hn | ⟨a1, b1, ha1, hb1, h0⟩)
      · cases hn
      · simp only [Option.some.injEq] at ha1
        subst ha1
        rw [hb] at hb1
        cases hb1
        simpa using h0

theorem expired_iff_witness :
    ∃ r, WeakPtr.expired ⟨some 0⟩ [expiredBlock] = .ok r ∧
      (r = true ↔
        ((⟨some 0⟩ : WeakPtr).control_block_ = none ∨
          ∃ a b, (⟨some 0⟩ : WeakPtr).control_block_ = some a ∧ [expiredBlock][a]? = some b ∧
            b.shared_count = 0)) :=
  expired_iff [expiredBlock] ⟨some 0⟩ (fun a ha =>
    ⟨expiredBlock, by cases ha; rfl, by decide⟩)

/-- C24.  For a weak handle that has no control block or whose control block
is allocated, `use_count()` returns: 0 when `expired()` is true, in particular
when there is no control block, and `shared_count` of the block when
`expired()` is false.  In both cases the number returned for a handle on a
block is the block's `shared_count`, which is what `use_count()` of a shared
handle on the same block returns. -/
theorem weak_use_count_mirrors (h : Heap) (k : WeakPtr)
    (hk : ∀ a, k.control_block_ = some a → ∃ b, h[a]? = some b ∧ Call.deallocate ∉ b.calls) :
    ∃ n, k.use_count h = .ok n ∧
      (k.control_block_ = none → n = 0) ∧
      (k.expired h = .ok true → n = 0) ∧
      ∀ a b, k.control_block_ = some a → h[a]? = some b →
        (k.expired h = .ok false → n = b.shared_count) ∧
        n = b.shared_count ∧
        ∀ p, SharedPtr.use_count ⟨some a, p⟩ h = .ok n := by
  obtain ⟨cb⟩ := k
  cases cb with
  | none =>
    refine ⟨0, ?_, fun _ => rfl, fun _ => rfl, ?_⟩
    · simp [WeakPtr.use_count, WeakPtr.expired_empty_eq, bind, Except.bind, pure, Except.pure]
    · intro a b ha
      cases ha
  | some a =>
    obtain ⟨b, hb, hf⟩ := hk a rfl
    have huc : WeakPtr.use_count ⟨some a⟩ h = .ok b.shared_count := by
      by_cases h0 : b.shared_count = 0
      · simp [WeakPtr.use_count, WeakPtr.expired_block_eq hb hf, h0, bind, Except.bind, pure,
          Except.pure]
      · simp [WeakPtr.use_count, WeakPtr.expired_block_eq hb hf, h0, access_some hb hf, bind,
          Except.bind, pure, Except.pure]
    refine ⟨b.shared_count, huc, ?_, ?_, ?_⟩
    · intro hn
      cases hn
    · intro he
      rw [WeakPtr.expired_block_eq hb hf] at he
      simpa using he
    · intro a1 b1 ha1 hb1
      simp only [Option.some.injEq] at ha1
      subst ha1
      rw [hb] at hb1
      cases hb1
      exact ⟨fun _ => rfl, rfl, fun p => SharedPtr.use_count_some p hb hf⟩

theorem weak_use_count_mirrors_witness :
    ∃ n, WeakPtr.use_count ⟨some 0⟩ [observedBlock] = .ok n ∧
      ((⟨some 0⟩ : WeakPtr).control_block_ = none → n = 0) ∧
      (WeakPtr.expired ⟨some 0⟩ [observedBlock] = .ok true → n = 0) ∧
      ∀ a b, (⟨some 0⟩ : WeakPtr).control_block_ = some a → [observedBlock][a]? = some b →
        (WeakPtr.expired ⟨some 0⟩ [observedBlock] = .ok false → n = b.shared_count) ∧
        n = b.shared_count ∧
        ∀ p, SharedPtr.use_count ⟨some a, p⟩ [observedBlock] = .ok n :=
  weak_use_count_mirrors [observedBlock] ⟨some 0⟩ (fun a ha =>
    ⟨observedBlock, by cases ha; rfl, by decide⟩)

theorem step_wCopy_frame {w w1 : World} {j : Nat} {k : WeakPtr}
    (hk : w.weak j = some k) (h : step w (.wCopy j) = .ok w1) :
    w1.wp = w.wp ++ [some k] ∧ w1.sp = w.sp := by
  simp only [step, hk] at h
  obtain ⟨⟨h1, k1⟩, hm, hres⟩ := except_bind_ok h
  obtain ⟨h2, -, hk1⟩ := except_bind_ok hm
  simp only [pure, Except.pure, Except.ok.injEq, Prod.mk.injEq] at hk1 hres
  rw [← hres, ← hk1.2]
  exact ⟨rfl, rfl⟩

theorem step_wFromShared_frame {w w1 : World} {i : Nat} {s : SharedPtr}
    (hs : w.shared i = some s) (h : step w (.wFromShared i) = .ok w1) :
    w1.wp = w.wp ++ [some ⟨s.control_block_⟩] ∧ w1.sp = w.sp := by
  simp only [step, hs] at h
  obtain ⟨⟨h1, k1⟩, hm, hres⟩ := except_bind_ok h
  obtain ⟨h2, -, hk1⟩ := except_bind_ok hm
  simp only [pure, Except.pure, Except.ok.injEq, Prod.mk.injEq] at hk1 hres
  rw [← hres, ← hk1.2]
  exact ⟨rfl, rfl⟩

/-- C25.  Construction of a weak handle from a weak handle on the allocated
block `a` (the same-type and the converting copy constructor have one body)
and from a shared handle `(a, p)` on it: `weak_count` of the block goes up by
exactly one and nothing else in the heap changes, and the new weak handle
references the block `a`.  As a statement of a program the construction
appends the new weak variable and leaves every existing variable, the source
among them, as it was. -/
theorem weak_ctor_counts (h : Heap) (a : Nat) (p : Option Nat) (b : BaseControlBlock)
    (hb : h[a]? = some b) (hlive : Call.deallocate ∉ b.calls)
    (hrange : b.weak_count + 1 < SIZE_MOD) :
    WeakPtr.copy_ctor ⟨some a⟩ h =
      .ok (h.set a { b with weak_count := b.weak_count + 1 }, ⟨some a⟩) ∧
    WeakPtr.from_shared ⟨some a, p⟩ h =
      .ok (h.set a { b with weak_count := b.weak_count + 1 }, ⟨some a⟩) ∧
    (∀ (w w1 : World) (j : Nat) (k : WeakPtr), w.weak j = some k →
      step w (.wCopy j) = .ok w1 → w1.wp = w.wp ++ [some k] ∧ w1.sp = w.sp) ∧
    (∀ (w w1 : World) (i : Nat) (s : SharedPtr), w.shared i = some s →
      step w (.wFromShared i) = .ok w1 →
      w1.wp = w.wp ++ [some ⟨s.control_block_⟩] ∧ w1.sp = w.sp) := by
  refine ⟨?_, ?_, fun w w1 j k hk hstep => step_wCopy_frame hk hstep,
    fun w w1 i s hs hstep => step_wFromShared_frame hs hstep⟩
  · simp [WeakPtr.copy_ctor, WeakPtr.weak_increment_count_block_eq hb hlive hrange, bind,
      Except.bind, pure, Except.pure]
  · simp [WeakPtr.from_shared, WeakPtr.weak_increment_count_block_eq hb hlive hrange, bind,
      Except.bind, pure, Except.pure]

theorem weak_ctor_counts_witness :
    WeakPtr.copy_ctor ⟨some 0⟩ [observedBlock] =
      .ok ([observedBlock].set 0 { observedBlock with weak_count := 1 + 1 }, ⟨some 0⟩) ∧
    WeakPtr.from_shared ⟨some 0, some 7⟩ [observedBlock] =
      .ok ([observedBlock].set 0 { observedBlock with weak_count := 1 + 1 }, ⟨some 0⟩) :=
  ⟨(weak_ctor_counts [observedBlock] 0 (some 7) observedBlock rfl (by decide) (by decide)).1,
    (weak_ctor_counts [observedBlock] 0 (some 7) observedBlock rfl (by decide) (by decide)).2.1⟩

theorem OwnershipKept.kept_refl (h : Heap) : OwnershipKept h h :=
  ⟨rfl, fun _ b hb => ⟨b, hb, rfl, rfl, rfl, rfl⟩⟩

theorem OwnershipKept.kept_trans {h h1 h2 : Heap} (h01 : OwnershipKept h h1)
    (h12 : OwnershipKept h1 h2) : OwnershipKept h h2 := by
  refine ⟨h12.1.trans h01.1, ?_⟩
  intro a b hb
  obtain ⟨b1, hb1, e1, e2, e3, e4⟩ := h01.2 a b hb
  obtain ⟨b2, hb2, f1, f2, f3, f4⟩ := h12.2 a b1 hb1
  exact ⟨b2, hb2, f1.trans e1, f2.trans e2, f3.trans e3, f4.trans e4⟩

theorem OwnershipKept.kept_set {h : Heap} {a : Nat} {b b1 : BaseControlBlock}
    (hb : h[a]? = some b) (hs : b.sameOwnership b1) : OwnershipKept h (h.set a b1) := by
  refine ⟨by simp, ?_⟩
  intro x c hc
  by_cases hx : a = x
  · subst hx
    rw [hb] at hc
    cases hc
    exact ⟨b1, getElem?_set_of_some hb, hs⟩
  · exact ⟨c, by rw [List.getElem?_set_ne hx]; exact hc, rfl, rfl, rfl, rfl⟩

theorem WeakPtr.weak_increment_count_kept {h h1 : Heap} {this : WeakPtr}
    (hm : this.increment_count h = .ok h1) : OwnershipKept h h1 := by
  obtain ⟨⟨a, b⟩, hacc, hres⟩ := except_bind_ok hm
  obtain ⟨-, hb, -⟩ := access_ok_inv hacc
  simp only [pure, Except.pure, Except.ok.injEq] at hres
  rw [← hres]
  exact OwnershipKept.kept_set hb ⟨rfl, rfl, rfl, rfl⟩

theorem WeakPtr.weak_decrement_count_kept {h h1 : Heap} {this : WeakPtr}
    (hm : this.decrement_count h = .ok h1) : OwnershipKept h h1 := by
  obtain ⟨⟨a, b⟩, hacc, hres⟩ := except_bind_ok hm
  obtain ⟨-, hb, -⟩ := access_ok_inv hacc
  simp only [pure, Except.pure, Except.ok.injEq] at hres
  rw [← hres]
  exact OwnershipKept.kept_set hb ⟨rfl, rfl, rfl, rfl⟩

theorem Heap.call_deallocate_kept {h h1 : Heap} {cb : Option Nat}
    (hm : h.call_deallocate cb = .ok h1) : OwnershipKept h h1 := by
  obtain ⟨⟨a, b⟩, hacc, hres⟩ := except_bind_ok hm
  obtain ⟨-, hb, -⟩ := access_ok_inv hacc
  simp only [pure, Except.pure, Except.ok.injEq] at hres
  rw [← hres]
  refine OwnershipKept.kept_set hb ⟨rfl, rfl, rfl, ?_⟩
  simp [BaseControlBlock.deallocate, List.count_append]

theorem WeakPtr.weak_dtor_kept {h h1 : Heap} {this : WeakPtr}
    (hm : this.dtor h = .ok h1) : OwnershipKept h h1 := by
  unfold WeakPtr.dtor at hm
  split at hm
  · simp only [pure, Except.pure, Except.ok.injEq] at hm
    rw [← hm]; exact OwnershipKept.kept_refl h
  · obtain ⟨⟨a, b⟩, -, hm1⟩ := except_bind_ok hm
    dsimp only at hm1
    have tail : ∀ h2 : Heap, OwnershipKept h h2 →
        (do
          let r ← h2.access this.control_block_
          if r.2.shared_count = 0 then
            if r.2.weak_count = 0 then h2.call_deallocate this.control_block_ else pure h2
          else pure h2) = Except.ok h1 → OwnershipKept h h1 := by
      intro h2 g1 hm2
      obtain ⟨⟨a1, b1⟩, -, hm3⟩ := except_bind_ok hm2
      dsimp only at hm3
      split at hm3
      · split at hm3
        · exact g1.kept_trans (Heap.call_deallocate_kept hm3)
        · simp only [pure, Except.pure, Except.ok.injEq] at hm3
          rw [← hm3]; exact g1
      · simp only [pure, Except.pure, Except.ok.injEq] at hm3
        rw [← hm3]; exact g1
    split at hm1
    · obtain ⟨h2, hdec, hm2⟩ := except_bind_ok hm1
      exact tail h2 (WeakPtr.weak_decrement_count_kept hdec) hm2
    · obtain ⟨h2, hdec, hm2⟩ := except_bind_ok hm1
      simp only [pure, Except.pure, Except.ok.injEq] at hdec
      rw [← hdec] at hm2
      exact tail h (OwnershipKept.kept_refl h) hm2

theorem WeakPtr.weak_copy_ctor_kept {h h1 : Heap} {other k : WeakPtr}
    (hm : other.copy_ctor h = .ok (h1, k)) : OwnershipKept h h1 := by
  obtain ⟨h2, hinc, hres⟩ := except_bind_ok hm
  simp only [pure, Except.pure, Except.ok.injEq, Prod.mk.injEq] at hres
  rw [← hres.1]
  exact WeakPtr.weak_increment_count_kept hinc

theorem WeakPtr.from_shared_kept {h h1 : Heap} {other : SharedPtr} {k : WeakPtr}
    (hm : WeakPtr.from_shared other h = .ok (h1, k)) : OwnershipKept h h1 := by
  obtain ⟨h2, hinc, hres⟩ := except_bind_ok hm
  simp only [pure, Except.pure, Except.ok.injEq, Prod.mk.injEq] at hres
  rw [← hres.1]
  exact WeakPtr.weak_increment_count_kept hinc

theorem WeakPtr.conv_assign_kept {h h1 : Heap} {this other k : WeakPtr}
    (hm : this.conv_assign other h = .ok (h1, k)) : OwnershipKept h h1 := by
  obtain ⟨h2, hd, hm1⟩ := except_bind_ok hm
  obtain ⟨⟨a, b⟩, hacc, hres⟩ := except_bind_ok hm1
  obtain ⟨-, hb, -⟩ := access_ok_inv hacc
  simp only [pure, Except.pure, Except.ok.injEq, Prod.mk.injEq] at hres
  rw [← hres.1]
  exact (WeakPtr.weak_dtor_kept hd).kept_trans (OwnershipKept.kept_set hb ⟨rfl, rfl, rfl, rfl⟩)

theorem WeakPtr.assign_shared_kept {h h1 : Heap} {this k : WeakPtr} {other : SharedPtr}
    (hm : this.assign_shared other h = .ok (h1, k)) : OwnershipKept h h1 := by
  obtain ⟨h2, hd, hm1⟩ := except_bind_ok hm
  obtain ⟨h3, hinc, hres⟩ := except_bind_ok hm1
  simp only [pure, Except.pure, Except.ok.injEq, Prod.mk.injEq] at hres
  rw [← hres.1]
  exact (WeakPtr.weak_dtor_kept hd).kept_trans (WeakPtr.weak_increment_count_kept hinc)

theorem step_weak_kept {w w1 : World} {op : Op} (hop : op.isWeakOp = true)
    (h : step w op = .ok w1) : w1.sp = w.sp ∧ OwnershipKept w.heap w1.heap := by
  have hskip : ∀ {x : World}, (pure w : Except Fault World) = .ok x →
      x.sp = w.sp ∧ OwnershipKept w.heap x.heap := by
    intro x hx
    simp only [pure, Except.pure, Except.ok.injEq] at hx
    rw [← hx]; exact ⟨rfl, OwnershipKept.kept_refl _⟩
  cases op <;> simp only [Op.isWeakOp, Bool.false_eq_true] at hop <;> simp only [step] at h
  case wDefault =>
    simp only [pure, Except.pure, Except.ok.injEq] at h
    rw [← h]; exact ⟨rfl, OwnershipKept.kept_refl _⟩
  case wCopy j =>
    cases hwo : w.weak j with
    | none => rw [hwo] at h; exact hskip h
    | some other =>
      rw [hwo] at h
      obtain ⟨⟨h1, k⟩, hm, hres⟩ := except_bind_ok h
      simp only [pure, Except.pure, Except.ok.injEq] at hres
      rw [← hres]
      exact ⟨rfl, WeakPtr.weak_copy_ctor_kept hm⟩
  case wMove j =>
    cases hwo : w.weak j with
    | none => rw [hwo] at h; exact hskip h
    | some other =>
      rw [hwo] at h
      simp only [WeakPtr.move_ctor, pure, Except.pure, Except.ok.injEq] at h
      rw [← h]; exact ⟨rfl, OwnershipKept.kept_refl _⟩
  case wFromShared i =>
    cases hso : w.shared i with
    | none => rw [hso] at h; exact hskip h
    | some other =>
      rw [hso] at h
      obtain ⟨⟨h1, k⟩, hm, hres⟩ := except_bind_ok h
      simp only [pure, Except.pure, Except.ok.injEq] at hres
      rw [← hres]
      exact ⟨rfl, WeakPtr.from_shared_kept hm⟩
  case wDtor j =>
    cases hwo : w.weak j with
    | none => rw [hwo] at h; exact hskip h
    | some this =>
      rw [hwo] at h
      obtain ⟨h1, hm, hres⟩ := except_bind_ok h
      simp only [pure, Except.pure, Except.ok.injEq] at hres
      rw [← hres]
      exact ⟨rfl, WeakPtr.weak_dtor_kept hm⟩
  case wAssign j k =>
    cases hwj : w.weak j with
    | none => rw [hwj] at h; exact hskip h
    | some this =>
      cases hwk : w.weak k with
      | none => rw [hwj, hwk] at h; exact hskip h
      | some other =>
        rw [hwj, hwk] at h
        simp only [pure, Except.pure, Except.ok.injEq] at h
        rw [← h]; exact ⟨rfl, OwnershipKept.kept_refl _⟩
  case wConvAssign j k =>
    cases hwj : w.weak j with
    | none => rw [hwj] at h; exact hskip h
    | some this =>
      cases hwk : w.weak k with
      | none => rw [hwj, hwk] at h; exact hskip h
      | some other =>
        rw [hwj, hwk] at h
        obtain ⟨⟨h1, k1⟩, hm, hres⟩ := except_bind_ok h
        simp only [pure, Except.pure, Except.ok.injEq] at hres
        rw [← hres]
        exact ⟨rfl, WeakPtr.conv_assign_kept hm⟩
  case wAssignShared j i =>
    cases hwj : w.weak j with
    | none => rw [hwj] at h; exact hskip h
    | some this =>
      cases hsi : w.shared i with
      | none => rw [hwj, hsi] at h; exact hskip h
      | some other =>
        rw [hwj, hsi] at h
        obtain ⟨⟨h1, k1⟩, hm, hres⟩ := except_bind_ok h
        simp only [pure, Except.pure, Except.ok.injEq] at hres
        rw [← hres]
        exact ⟨rfl, WeakPtr.assign_shared_kept hm⟩

theorem run_weak_kept (ops : List Op) : ∀ {w w1 : World},
    (∀ op ∈ ops, op.isWeakOp = true) → run w ops = .ok w1 →
    w1.sp = w.sp ∧ OwnershipKept w.heap w1.heap := by
  induction ops with
  | nil =>
    intro w w1 _ h
    simp only [run, pure, Except.pure, Except.ok.injEq] at h
    rw [← h]; exact ⟨rfl, OwnershipKept.kept_refl _⟩
  | cons op ops ih =>
    intro w w1 hops h
    unfold run at h
    obtain ⟨w2, hstep, hrun⟩ := except_bind_ok h
    obtain ⟨e1, k1⟩ := step_weak_kept (hops op (List.mem_cons_self _ _)) hstep
    obtain ⟨e2, k2⟩ := ih (fun o ho => hops o (List.mem_cons_of_mem _ ho)) hrun
    exact ⟨e2.trans e1, k1.kept_trans k2⟩

theorem inv_observedWorld : Inv observedWorld := by
  intro a
  cases a with
  | zero =>
    simp [observedWorld, observedBlock, ControlBlockRegular, BlockOK, World.sharedRefs,
      World.weakRefs, sharedOn, weakOn, expectedCalls]
  | succ n =>
    simp [observedWorld, BlockOK, World.sharedRefs, World.weakRefs, sharedOn, weakOn]

/-- C26.  Take any sequence of statements on weak handles (construction from a
shared or a weak handle, default and move construction, the three
assignments, destruction), executed from any state.  When it executes without
a fault, no shared variable has changed, no block has been allocated, and in
every block `shared_count`, the stored pointer, the record of deleter
invocations and the number of `destroy()` calls are what they were.
(`expired()` and `use_count()` return a value and no heap.)  From a state that
satisfies the counting invariant a legal sequence does execute without a
fault.  And whatever `weak_count` is, the destructor of the last shared handle
of a block (`shared_count = 1`) calls `destroy()` in that very call, followed
by `deallocate()` exactly when `weak_count = 0`. -/
theorem weak_ops_never_own (w : World) (ops : List Op)
    (hops : ∀ op ∈ ops, op.isWeakOp = true) :
    (∀ w1, run w ops = .ok w1 →
      w1.sp = w.sp ∧ w1.heap.length = w.heap.length ∧
      ∀ (a : Nat) (b : BaseControlBlock), w.heap[a]? = some b →
        ∃ b1, w1.heap[a]? = some b1 ∧ b1.shared_count = b.shared_count ∧
          b1.calls.count Call.destroy = b.calls.count Call.destroy ∧
          b1.deleted = b.deleted ∧ b1.ptr = b.ptr) ∧
    (Inv w → legalRun w ops = true → w.sp.length + ops.length < SIZE_MOD →
      w.wp.length + ops.length < SIZE_MOD → ∃ w1, run w ops = .ok w1) ∧
    ∀ (h : Heap) (a : Nat) (p : Option Nat) (b : BaseControlBlock), h[a]? = some b →
      Call.deallocate ∉ b.calls → b.shared_count = 1 →
      ∃ b1, SharedPtr.dtor ⟨some a, p⟩ h = .ok (h.set a b1) ∧
        b1.shared_count = 0 ∧ b1.weak_count = b.weak_count ∧
        b1.calls = b.calls ++
          (if b.weak_count = 0 then [Call.destroy, Call.deallocate] else [Call.destroy]) := by
  refine ⟨?_, ?_, ?_⟩
  · intro w1 hrun
    obtain ⟨hsp, hlen, hk⟩ := run_weak_kept ops hops hrun
    refine ⟨hsp, hlen, ?_⟩
    intro a b hb
    obtain ⟨b1, hb1, e1, e2, e3, e4⟩ := hk a b hb
    exact ⟨b1, hb1, e1, e4, e3, e2⟩
  · intro hInv hl h1 h2
    obtain ⟨w1, hrun, -⟩ := run_inv ops hInv hl h1 h2
    exact ⟨w1, hrun⟩
  · intro h a p b hb hf h1
    refine ⟨releaseShared b, SharedPtr.dtor_block_eq p hb hf (by omega) (by simp [h1, SIZE_MOD]),
      ?_, ?_, ?_⟩
    all_goals
      unfold releaseShared BaseControlBlock.deallocate BaseControlBlock.destroy
      by_cases h2 : b.weak_count = 0 <;> cases hi : b.inlineObject <;> simp [h1, h2, hi]

theorem weak_ops_never_own_witness :
    run observedWorld observersProgram = .ok observersFinal ∧
    (observersFinal.sp = observedWorld.sp ∧
      observersFinal.heap.length = observedWorld.heap.length ∧
      ∀ (a : Nat) (b : BaseControlBlock), observedWorld.heap[a]? = some b →
        ∃ b1, observersFinal.heap[a]? = some b1 ∧ b1.shared_count = b.shared_count ∧
          b1.calls.count Call.destroy = b.calls.count Call.destroy ∧
          b1.deleted = b.deleted ∧ b1.ptr = b.ptr) ∧
    ∃ w1, run observedWorld observersProgram = .ok w1 :=
  ⟨by decide,
    (weak_ops_never_own observedWorld observersProgram (by decide)).1 observersFinal (by decide),
    (weak_ops_never_own observedWorld observersProgram (by decide)).2.1 inv_observedWorld
      (by decide) (by decide) (by decide)⟩

/-- C27.  The copy assignment `a = a` of the only owner of a block that a weak
handle observes runs the destructor first, which takes `shared_count` from 1
to 0 and calls `destroy()`, and then increments `shared_count`: the program
`auto a = makeShared<T>(args...); WeakPtr<T> w(a); a = a;` ends with
`shared_count = 1` on a block whose `destroy()` has fired.  The destructor of
`a` afterwards takes `shared_count` to 0 again and calls `destroy()` on the
block a second time: the embedded object is handed to the allocator's
`destroy` twice. -/
theorem destroyed_block_revived :
    SharedPtr.dtor ⟨some 0, some 7⟩ [⟨1, 1, true, some 7, [], []⟩] =
      .ok [⟨0, 1, true, some 7, [Call.destroy], [some 7]⟩] ∧
    SharedPtr.increment_count ⟨some 0, some 7⟩
      [⟨0, 1, true, some 7, [Call.destroy], [some 7]⟩] = .ok [revivedBlock] ∧
    run World.empty reviveProgram =
      .ok ⟨[revivedBlock], [some ⟨some 0, some 7⟩], [some ⟨some 0⟩]⟩ ∧
    run World.empty (reviveProgram ++ [.sDtor 0]) =
      .ok ⟨[⟨0, 1, true, some 7, [Call.destroy, Call.destroy], [some 7, some 7]⟩], [none],
        [some ⟨some 0⟩]⟩ := by
  decide

/-- C28.  After `SharedPtr<T> a(p); WeakPtr<T> w(a); a = a;` the live handle
`a` references a block on which `destroy()` has been called, and `expired()`
of `w` is false.  `w.lock()` in that state calls `get_ptr()` of the destroyed
block to build its handle, and `get()`, `operator->` and `operator*` on the
handle it returns call `get_ptr()` of the destroyed block again (the first two
return null, the third dereferences null).  With a factory-made block, whose
`get_ptr()` is the address of the embedded object, `lock()` returns a handle
on the destroyed object. -/
theorem destroyed_block_read :
    (∃ w b, run World.empty (readDestroyedProgram.take 3) = .ok w ∧
      w.shared 0 = some ⟨some 0, some 7⟩ ∧ w.heap[0]? = some b ∧
      Call.destroy ∈ b.calls ∧ b.shared_count = 1 ∧
      WeakPtr.expired ⟨some 0⟩ w.heap = .ok false ∧
      (WeakPtr.lock ⟨some 0⟩ w.heap).map (fun r => r.2) = .ok ⟨some 0, b.get_ptr⟩) ∧
    run World.empty readDestroyedProgram = .ok readDestroyedFinal ∧
    readDestroyedFinal.shared 1 = some ⟨some 0, none⟩ ∧
    SharedPtr.get ⟨some 0, none⟩ readDestroyedFinal.heap = .ok none ∧
    SharedPtr.arrow ⟨some 0, none⟩ readDestroyedFinal.heap = .ok none ∧
    SharedPtr.deref ⟨some 0, none⟩ readDestroyedFinal.heap = .error Fault.nullDeref ∧
    WeakPtr.lock ⟨some 0⟩ [revivedBlock] =
      .ok ([⟨2, 1, true, some 7, [Call.destroy], [some 7]⟩], ⟨some 0, some 7⟩) := by
  refine ⟨⟨⟨[⟨1, 1, false, none, [Call.destroy], [some 7]⟩], [some ⟨some 0, some 7⟩],
    [some ⟨some 0⟩]⟩, ⟨1, 1, false, none, [Call.destroy], [some 7]⟩, ?_⟩, ?_⟩ <;> decide

/-- Outside the copy assignment of a sole owner to itself there is no read
after destruction.  Take any program, started with nothing allocated and
shorter than `2 ^ 64` statements, that is legal, or that has no assignment
statement and runs without undefined behaviour, and the state it reaches.  The
block of every live shared handle is allocated and no `destroy()` (and no
`deallocate()`) call has been made on it; `get()` and `operator->` return the
cached address, reading `get_ptr()` of that block only when the cached address
is null, and `operator*` dereferences the cached address when it is not null.
For every live weak handle on a block: when `expired()` is false no
`destroy()` call has been made on the block and `lock()` builds its handle
from `get_ptr()` of this block; when a `destroy()` call has been made on the
block, `lock()` returns the empty handle and leaves the heap as it is, without
reading the block's pointer.  The factory builds its handle from `get_ptr()`
of the block it has just allocated, on which no call has been made.  A legal
program never runs into undefined behaviour. -/
theorem no_read_after_destroy (ops : List Op) (hlen : ops.length < SIZE_MOD) :
    (legalRun World.empty ops = true → ∃ w, run World.empty ops = .ok w) ∧
    ∀ w, run World.empty ops = .ok w →
      (legalRun World.empty ops = true ∨ ∀ op ∈ ops, op.isAssignment = false) →
      (∀ (i a : Nat) (s : SharedPtr), w.shared i = some s → s.control_block_ = some a →
        ∃ b, w.heap[a]? = some b ∧ Call.destroy ∉ b.calls ∧ b.calls = [] ∧
          s.get w.heap = .ok s.ptr_ ∧ s.arrow w.heap = .ok s.ptr_ ∧
          (s.ptr_ = none → s.get w.heap = .ok b.get_ptr) ∧
          ∀ p, s.ptr_ = some p → s.deref w.heap = .ok p) ∧
      (∀ (j a : Nat) (k : WeakPtr), w.weak j = some k → k.control_block_ = some a →
        ∃ b, w.heap[a]? = some b ∧
          (k.expired w.heap = .ok false →
            Call.destroy ∉ b.calls ∧
            ∃ h1, k.lock w.heap = .ok (h1, ⟨some a, b.get_ptr⟩)) ∧
          (Call.destroy ∈ b.calls →
            k.expired w.heap = .ok true ∧ k.lock w.heap = .ok (w.heap, ⟨none, none⟩))) ∧
      ∀ obj, ∃ nb, makeShared true obj w.heap =
          .ok (w.heap ++ [nb], Completion.returned ⟨some w.heap.length, nb.get_ptr⟩) ∧
        nb.calls = [] := by
  have key : legalRun World.empty ops = true →
      ∃ w, run World.empty ops = .ok w ∧ Inv w := by
    intro hl
    obtain ⟨w, hrun, hInv, -, -, -⟩ := run_inv ops inv_empty hl
      (by simpa [World.empty] using hlen) (by simpa [World.empty] using hlen)
    exact ⟨w, hrun, hInv⟩
  constructor
  · intro hl
    obtain ⟨w, hrun, -⟩ := key hl
    exact ⟨w, hrun⟩
  · intro w hrun hcase
    have hl : legalRun World.empty ops = true := by
      rcases hcase with hl | hops
      · exact hl
      · exact legalRun_of_run_ok ops hops hrun
    obtain ⟨w1, hrun1, hInv⟩ := key hl
    rw [hrun] at hrun1
    cases hrun1
    refine ⟨?_, ?_, ?_⟩
    · intro i a s hs ha
      obtain ⟨b, hb, -, -, hcalls, -⟩ := hInv.shared_block hs ha
      have hf : Call.deallocate ∉ b.calls := by simp [hcalls]
      have hc := run_coherent ops coherent_empty hrun s (shared_mem hs)
      obtain ⟨cb, p⟩ := s
      simp only [] at ha
      subst ha
      obtain ⟨b1, hb1, hn⟩ := hc
      rw [hb] at hb1
      cases hb1
      have hget : SharedPtr.get ⟨some a, p⟩ w.heap = .ok p := by
        cases p with
        | some q => simp [SharedPtr.get, pure, Except.pure]
        | none =>
          simp [SharedPtr.get, access_some hb hf, bind, Except.bind, pure, Except.pure,
            BaseControlBlock.get_ptr, hn rfl]
      refine ⟨b, hb, by simp [hcalls], hcalls, hget, hget, ?_, ?_⟩
      · intro hp
        simp only [] at hp
        subst hp
        rw [hget]
        simp [BaseControlBlock.get_ptr, hn rfl]
      · intro q hq
        simp only [] at hq
        subst hq
        simp [SharedPtr.deref, pure, Except.pure]
    · intro j a k hk ha
      obtain ⟨b, hb, -, -, hcalls, hf, -⟩ := hInv.weak_block hk ha
      obtain ⟨cb⟩ := k
      simp only [] at ha
      subst ha
      refine ⟨b, hb, ?_, ?_⟩
      · intro he
        rw [WeakPtr.expired_block_eq hb hf] at he
        have h0 : b.shared_count ≠ 0 := by simpa using he
        have hc : b.calls = [] := by rw [hcalls]; simp [expectedCalls, h0]
        refine ⟨by simp [hc], ?_⟩
        simp [WeakPtr.lock, WeakPtr.expired_block_eq hb hf, h0, SharedPtr.block_ctor,
          access_some hb hf, SharedPtr.increment_count, bind, Except.bind, pure, Except.pure]
      · intro hd
        have h0 : b.shared_count = 0 := by
          by_contra hne
          rw [hcalls] at hd
          simp [expectedCalls, hne] at hd
        constructor
        · simp [WeakPtr.expired_block_eq hb hf, h0]
        · simp [WeakPtr.lock, WeakPtr.expired_block_eq hb hf, h0, SharedPtr.default_ctor, bind,
            Except.bind, pure, Except.pure]
    · intro obj
      refine ⟨{ ControlBlockMakeShared obj with shared_count := 1 }, ?_, rfl⟩
      rw [makeShared, allocateShared_ok]
      rfl

theorem no_read_after_destroy_witness :
    expiredProgram.length < SIZE_MOD ∧ legalRun World.empty expiredProgram = true ∧
    run World.empty expiredProgram = .ok expiredFinal ∧
    expiredFinal.weak 0 = some ⟨some 0⟩ ∧
    ∃ b, expiredFinal.heap[0]? = some b ∧
      (WeakPtr.expired ⟨some 0⟩ expiredFinal.heap = .ok false →
        Call.destroy ∉ b.calls ∧
        ∃ h1, WeakPtr.lock ⟨some 0⟩ expiredFinal.heap = .ok (h1, ⟨some 0, b.get_ptr⟩)) ∧
      (Call.destroy ∈ b.calls →
        WeakPtr.expired ⟨some 0⟩ expiredFinal.heap = .ok true ∧
        WeakPtr.lock ⟨some 0⟩ expiredFinal.heap = .ok (expiredFinal.heap, ⟨none, none⟩)) :=
  ⟨by decide, by decide, by decide, by decide,
    ((no_read_after_destroy expiredProgram (by decide)).2 expiredFinal (by decide)
      (Or.inl (by decide))).2.1 0 0 ⟨some 0⟩ (by decide) rfl⟩

/-- C31.  `destroy()` of an inline block hands the embedded object (the
address `get_ptr()` returns) to the allocator's `destroy` once and changes
nothing else: `shared_count`, `weak_count`, the variant and the address of the
object are what they were, and no `deallocate()` call is made.  When the last
shared handle of an inline block that weak handles observe is destroyed, the
block ends with `shared_count = 0`, the same `weak_count`, the call
`destroy()` and no `deallocate()` call; the number of outstanding allocations
is unchanged, the block can still be dereferenced, and `expired()` and
`use_count()` of a weak handle on it return true and 0. -/
theorem inline_destroy_keeps_block (b : BaseControlBlock) (hinl : b.inlineObject = true) :
    b.destroy.deleted = b.deleted ++ [b.get_ptr] ∧
    b.destroy.get_ptr = b.get_ptr ∧
    b.destroy.shared_count = b.shared_count ∧ b.destroy.weak_count = b.weak_count ∧
    b.destroy.inlineObject = true ∧
    b.destroy.calls = b.calls ++ [Call.destroy] ∧
    ∀ (h : Heap) (a : Nat) (p : Option Nat), h[a]? = some b → Call.deallocate ∉ b.calls →
      b.shared_count = 1 → 1 ≤ b.weak_count →
      ∃ b1, SharedPtr.dtor ⟨some a, p⟩ h = .ok (h.set a b1) ∧
        b1.shared_count = 0 ∧ b1.weak_count = b.weak_count ∧
        b1.calls = b.calls ++ [Call.destroy] ∧ Call.deallocate ∉ b1.calls ∧
        b1.deleted = b.deleted ++ [b.get_ptr] ∧
        Heap.outstanding (h.set a b1) = Heap.outstanding h ∧
        Heap.access (h.set a b1) (some a) = .ok (a, b1) ∧
        WeakPtr.expired ⟨some a⟩ (h.set a b1) = .ok true ∧
        WeakPtr.use_count ⟨some a⟩ (h.set a b1) = .ok 0 := by
  refine ⟨by simp [BaseControlBlock.destroy, hinl],
    by simp [BaseControlBlock.destroy, BaseControlBlock.get_ptr, hinl],
    by simp [BaseControlBlock.destroy, hinl], by simp [BaseControlBlock.destroy, hinl],
    by simp [BaseControlBlock.destroy, hinl], by simp [BaseControlBlock.destroy, hinl], ?_⟩
  intro h a p hb hf h1 hw
  have hw0 : b.weak_count ≠ 0 := by omega
  have hcalls : (releaseShared b).calls = b.calls ++ [Call.destroy] := by
    simp [releaseShared, h1, hw0, BaseControlBlock.destroy, hinl]
  have hf1 : Call.deallocate ∉ (releaseShared b).calls := by
    simp [hcalls, hf]
  have hsc : (releaseShared b).shared_count = 0 := by
    simp [releaseShared, h1, hw0, BaseControlBlock.destroy, hinl]
  have hb1 : (h.set a (releaseShared b))[a]? = some (releaseShared b) :=
    getElem?_set_of_some hb
  refine ⟨releaseShared b, SharedPtr.dtor_block_eq p hb hf (by omega) (by simp [h1, SIZE_MOD]),
    hsc, ?_, hcalls, hf1, ?_, ?_, access_some hb1 hf1, ?_, ?_⟩
  · simp [releaseShared, h1, hw0, BaseControlBlock.destroy, hinl]
  · simp [releaseShared, h1, hw0, BaseControlBlock.destroy, BaseControlBlock.get_ptr, hinl]
  · have := countP_set_add (fun b => decide (Call.deallocate ∉ b.calls)) (releaseShared b) hb
    simp only [Heap.outstanding]
    simp only [hf, hf1, not_false_eq_true, decide_True, if_true] at this
    omega
  · rw [WeakPtr.expired_block_eq hb1 hf1]
    simp [hsc]
  · simp [WeakPtr.use_count, WeakPtr.expired_block_eq hb1 hf1, hsc, bind, Except.bind, pure,
      Except.pure]

theorem inline_destroy_keeps_block_witness :
    observedInlineBlock.destroy.deleted = [some 7] ∧
    observedInlineBlock.destroy.get_ptr = some 7 ∧
    ∃ b1, SharedPtr.dtor ⟨some 0, some 7⟩ [observedInlineBlock] = .ok [b1] ∧
      b1.shared_count = 0 ∧ b1.weak_count = 1 ∧
      b1.calls = [Call.destroy] ∧ Call.deallocate ∉ b1.calls ∧
      b1.deleted = [some 7] ∧
      Heap.outstanding [b1] = Heap.outstanding [observedInlineBlock] ∧
      Heap.access [b1] (some 0) = .ok (0, b1) ∧
      WeakPtr.expired ⟨some 0⟩ [b1] = .ok true ∧
      WeakPtr.use_count ⟨some 0⟩ [b1] = .ok 0 :=
  ⟨(inline_destroy_keeps_block observedInlineBlock rfl).1,
    (inline_destroy_keeps_block observedInlineBlock rfl).2.1,
    (inline_destroy_keeps_block observedInlineBlock rfl).2.2.2.2.2.2 [observedInlineBlock] 0
      (some 7) rfl (by decide) (by decide) (by decide)⟩

/-- C38.  Move construction of a weak handle from a live variable `w_j = k`:
the new handle references the control block of `k`, the source variable is
left without control block, and the heap is the same heap, so `weak_count` and
`shared_count` of every block are unchanged; no shared variable and no other
weak variable changes.  For the handle the source is left as, `expired()` is
true, `use_count()` is 0 and the destructor leaves the heap as it is. -/
theorem weak_move_transfers (w : World) (j : Nat) (k : WeakPtr) (hk : w.weak j = some k) :
    WeakPtr.move_ctor k = (⟨k.control_block_⟩, ⟨none⟩) ∧
    step w (.wMove j) =
      .ok ⟨w.heap, w.sp, w.wp.set j (some ⟨none⟩) ++ [some ⟨k.control_block_⟩]⟩ ∧
    ∀ h : Heap, WeakPtr.expired ⟨none⟩ h = .ok true ∧ WeakPtr.use_count ⟨none⟩ h = .ok 0 ∧
      WeakPtr.dtor ⟨none⟩ h = .ok h := by
  refine ⟨rfl, ?_, ?_⟩
  · simp [step, hk, WeakPtr.move_ctor, pure, Except.pure]
  · intro h
    refine ⟨WeakPtr.expired_empty_eq h, ?_, WeakPtr.weak_dtor_empty_eq h⟩
    simp [WeakPtr.use_count, WeakPtr.expired_empty_eq, bind, Except.bind, pure, Except.pure]

theorem weak_move_transfers_witness :
    observedWorld.weak 0 = some ⟨some 0⟩ ∧
    step observedWorld (.wMove 0) =
      .ok ⟨[observedBlock], [some ⟨some 0, some 7⟩], [some ⟨none⟩, some ⟨some 0⟩]⟩ :=
  ⟨rfl, (weak_move_transfers observedWorld 0 ⟨some 0⟩ rfl).2.1⟩

theorem SharedPtr.increment_count_empty (q : Option Nat) (h : Heap) :
    SharedPtr.increment_count ⟨none, q⟩ h = .error Fault.nullDeref := by
  simp [SharedPtr.increment_count, Heap.access, bind, Except.bind]

theorem WeakPtr.weak_increment_count_empty (h : Heap) :
    WeakPtr.increment_count ⟨none⟩ h = .error Fault.nullDeref := by
  simp [WeakPtr.increment_count, Heap.access, bind, Except.bind]

/-- C33.  The converting copy constructor and the two copy assignment
operators call `increment_count()` without a null test.  From a source without
control block the converting copy constructor dereferences the null control
block, on any heap; the copy assignments, same-type and converting, first
release the block of the target and then dereference the null control block,
so they never complete, whatever the target is.  The same-type copy
constructor has the null test and completes. -/
theorem copy_from_empty_derefs_null :
    (∀ (q : Option Nat) (off : Nat) (h : Heap),
      SharedPtr.conv_copy_ctor ⟨none, q⟩ off h = .error Fault.nullDeref) ∧
    (∀ (this : SharedPtr) (q : Option Nat) (h : Heap),
      ∃ e, this.copy_assign ⟨none, q⟩ h = .error e) ∧
    (∀ (this : SharedPtr) (q : Option Nat) (off : Nat) (h : Heap),
      ∃ e, this.conv_copy_assign ⟨none, q⟩ off h = .error e) ∧
    SharedPtr.copy_assign ⟨none, none⟩ ⟨none, none⟩ [] = .error Fault.nullDeref ∧
    SharedPtr.conv_copy_assign ⟨none, none⟩ ⟨none, none⟩ 4 [] = .error Fault.nullDeref ∧
    SharedPtr.copy_assign ⟨some 0, some 7⟩ ⟨none, none⟩ [sharedTwiceBlock] =
      .error Fault.nullDeref ∧
    run World.empty [.sDefault, .sConvCopy 0 4] = .error Fault.nullDeref ∧
    run World.empty [.sRaw (some 7), .sDefault, .sAssign 0 1] = .error Fault.nullDeref ∧
    (∀ (q : Option Nat) (h : Heap), SharedPtr.copy_ctor ⟨none, q⟩ h = .ok (h, ⟨none, q⟩)) := by
  refine ⟨?_, ?_, ?_, by decide, by decide, by decide, by decide, by decide, ?_⟩
  · intro q off h
    simp [SharedPtr.conv_copy_ctor, SharedPtr.increment_count_empty, bind, Except.bind]
  · intro this q h
    cases hd : this.dtor h with
    | error e => exact ⟨e, by simp [SharedPtr.copy_assign, hd, bind, Except.bind]⟩
    | ok h1 =>
      exact ⟨Fault.nullDeref, by
        simp [SharedPtr.copy_assign, hd, SharedPtr.increment_count_empty, bind, Except.bind]⟩
  · intro this q off h
    cases hd : this.dtor h with
    | error e => exact ⟨e, by simp [SharedPtr.conv_copy_assign, hd, bind, Except.bind]⟩
    | ok h1 =>
      exact ⟨Fault.nullDeref, by
        simp [SharedPtr.conv_copy_assign, hd, SharedPtr.increment_count_empty, bind,
          Except.bind]⟩
  · intro q h
    simp [SharedPtr.copy_ctor, pure, Except.pure]

/-- C34.  The copy constructors of `WeakPtr` (from a weak handle, same-type and
converting, and from a shared handle) and its declared assignment operators
increment `weak_count` through the control block without a null test.  From a
source without control block the constructors dereference the null control
block, on any heap, and the converting assignment and the assignment from a
shared handle never complete, whatever the target is.  Only the implicit
same-type copy assignment and the move constructor, which do not count,
complete on such a source. -/
theorem weak_from_empty_derefs_null :
    (∀ h : Heap, WeakPtr.copy_ctor ⟨none⟩ h = .error Fault.nullDeref) ∧
    (∀ (p : Option Nat) (h : Heap),
      WeakPtr.from_shared ⟨none, p⟩ h = .error Fault.nullDeref) ∧
    (∀ (this : WeakPtr) (h : Heap), ∃ e, this.conv_assign ⟨none⟩ h = .error e) ∧
    (∀ (this : WeakPtr) (p : Option Nat) (h : Heap),
      ∃ e, this.assign_shared ⟨none, p⟩ h = .error e) ∧
    WeakPtr.conv_assign ⟨none⟩ ⟨none⟩ [] = .error Fault.nullDeref ∧
    WeakPtr.assign_shared ⟨none⟩ ⟨none, none⟩ [] = .error Fault.nullDeref ∧
    run World.empty [.sDefault, .wFromShared 0] = .error Fault.nullDeref ∧
    run World.empty [.wDefault, .wCopy 0] = .error Fault.nullDeref ∧
    run World.empty [.sDefault, .wDefault, .wAssignShared 0 0] = .error Fault.nullDeref ∧
    WeakPtr.implicit_copy_assign ⟨some 0⟩ ⟨none⟩ = ⟨none⟩ ∧
    WeakPtr.move_ctor ⟨none⟩ = (⟨none⟩, ⟨none⟩) := by
  refine ⟨?_, ?_, ?_, ?_, by decide, by decide, by decide, by decide, by decide, rfl, rfl⟩
  · intro h
    simp [WeakPtr.copy_ctor, WeakPtr.weak_increment_count_empty, bind, Except.bind]
  · intro p h
    simp [WeakPtr.from_shared, WeakPtr.weak_increment_count_empty, bind, Except.bind]
  · intro this h
    cases hd : this.dtor h with
    | error e => exact ⟨e, by simp [WeakPtr.conv_assign, hd, bind, Except.bind]⟩
    | ok h1 =>
      exact ⟨Fault.nullDeref, by
        simp [WeakPtr.conv_assign, hd, Heap.access, bind, Except.bind]⟩
  · intro this p h
    cases hd : this.dtor h with
    | error e => exact ⟨e, by simp [WeakPtr.assign_shared, hd, bind, Except.bind]⟩
    | ok h1 =>
      exact ⟨Fault.nullDeref, by
        simp [WeakPtr.assign_shared, hd, WeakPtr.weak_increment_count_empty, bind,
          Except.bind]⟩

theorem weak_set_same {h : Heap} {sp : List (Option SharedPtr)} {wp : List (Option WeakPtr)}
    {j : Nat} {x : Option WeakPtr} (k : WeakPtr) (hj : wp[j]? = some x) :
    World.weak ⟨h, sp, wp.set j (some k)⟩ j = some k := by
  rw [weak_eq_some]
  exact getElem?_set_of_some hj

theorem releaseShared_fields (b : BaseControlBlock) :
    (releaseShared b).shared_count = b.shared_count - 1 ∧
    (releaseShared b).weak_count = b.weak_count ∧
    (releaseShared b).calls = b.calls ++
      (if b.shared_count - 1 = 0 then
        (if b.weak_count = 0 then [Call.destroy, Call.deallocate] else [Call.destroy])
       else []) := by
  refine ⟨?_, ?_, ?_⟩
  all_goals
    unfold releaseShared BaseControlBlock.deallocate BaseControlBlock.destroy
    by_cases h1 : b.shared_count - 1 = 0 <;> by_cases h2 : b.weak_count = 0 <;>
      cases hi : b.inlineObject <;> simp [h1, h2, hi]

theorem releaseWeak_fields (b : BaseControlBlock) :
    (releaseWeak b).weak_count = b.weak_count - 1 ∧
    (releaseWeak b).shared_count = b.shared_count ∧
    (releaseWeak b).calls = b.calls ++
      (if b.shared_count = 0 ∧ b.weak_count - 1 = 0 then [Call.deallocate] else []) := by
  refine ⟨?_, ?_, ?_⟩
  all_goals
    unfold releaseWeak BaseControlBlock.deallocate
    by_cases h1 : b.shared_count = 0 <;> by_cases h2 : b.weak_count - 1 = 0 <;>
      simp [h1, h2]

/-- C32.  Copy assignment `a = b`, same-type and converting, for `a = (x, p)`
and `b = (y, q)` on two different allocated blocks: the block `x` is left
exactly as the destructor of `a` leaves it (`shared_count` one less,
`destroy()` when it reaches 0, then `deallocate()` when `weak_count` is 0
too), `shared_count` of the block `y` goes up by exactly one and nothing else
of it changes, and `a` ends with the block `y` and the cached pointer of `b`
(converted, in the converting form).  When `a` has no control block only the
increment happens.  As a statement of a program the assignment writes to `a`
only. -/
theorem assign_across_blocks (h : Heap) (x y off : Nat) (p q : Option Nat)
    (bx cy : BaseControlBlock) (hx : h[x]? = some bx) (hy : h[y]? = some cy) (hxy : x ≠ y)
    (hlx : Call.deallocate ∉ bx.calls) (hly : Call.deallocate ∉ cy.calls)
    (hnx : 1 ≤ bx.shared_count) (hrx : bx.shared_count < SIZE_MOD)
    (hry : cy.shared_count + 1 < SIZE_MOD) :
    (∃ b1, SharedPtr.dtor ⟨some x, p⟩ h = .ok (h.set x b1) ∧
      SharedPtr.copy_assign ⟨some x, p⟩ ⟨some y, q⟩ h =
        .ok ((h.set x b1).set y { cy with shared_count := cy.shared_count + 1 }, ⟨some y, q⟩) ∧
      SharedPtr.conv_copy_assign ⟨some x, p⟩ ⟨some y, q⟩ off h =
        .ok ((h.set x b1).set y { cy with shared_count := cy.shared_count + 1 },
          ⟨some y, convert off q⟩) ∧
      b1.shared_count = bx.shared_count - 1 ∧ b1.weak_count = bx.weak_count ∧
      b1.calls = bx.calls ++
        (if bx.shared_count - 1 = 0 then
          (if bx.weak_count = 0 then [Call.destroy, Call.deallocate] else [Call.destroy])
         else [])) ∧
    SharedPtr.copy_assign ⟨none, p⟩ ⟨some y, q⟩ h =
      .ok (h.set y { cy with shared_count := cy.shared_count + 1 }, ⟨some y, q⟩) ∧
    ∀ (w w1 : World) (i j : Nat), w.heap = h → i ≠ j →
      w.shared i = some ⟨some x, p⟩ → w.shared j = some ⟨some y, q⟩ →
      step w (.sAssign i j) = .ok w1 →
      w1.shared i = some ⟨some y, q⟩ ∧ w1.shared j = some ⟨some y, q⟩ ∧ w1.wp = w.wp ∧
        ∀ k, k ≠ i → w1.sp[k]? = w.sp[k]? := by
  have hd := SharedPtr.dtor_block_eq p hx hlx (by omega) hrx
  have hy1 : (h.set x (releaseShared bx))[y]? = some cy := by
    rw [List.getElem?_set_ne hxy]; exact hy
  have hca : SharedPtr.copy_assign ⟨some x, p⟩ ⟨some y, q⟩ h =
      .ok ((h.set x (releaseShared bx)).set y { cy with shared_count := cy.shared_count + 1 },
        ⟨some y, q⟩) := by
    simp [SharedPtr.copy_assign, hd, SharedPtr.increment_count_block_eq q hy1 hly hry, bind,
      Except.bind, pure, Except.pure]
  obtain ⟨f1, f2, f3⟩ := releaseShared_fields bx
  refine ⟨⟨releaseShared bx, hd, hca, ?_, f1, f2, f3⟩, ?_, ?_⟩
  · simp [SharedPtr.conv_copy_assign, hd,
      SharedPtr.increment_count_block_eq (convert off q) hy1 hly hry, bind, Except.bind, pure,
      Except.pure]
  · simp [SharedPtr.copy_assign, SharedPtr.dtor_empty_eq,
      SharedPtr.increment_count_block_eq q hy hly hry, bind, Except.bind, pure, Except.pure]
  · intro w w1 i j hw hij hi hj hstep
    subst hw
    have hi1 := shared_eq_some.1 hi
    simp only [step, hi, hj, hca, bind, Except.bind, pure, Except.pure, Except.ok.injEq] at hstep
    rw [← hstep]
    refine ⟨shared_set_same _ hi1, ?_, rfl, ?_⟩
    · rw [shared_eq_some]
      show (w.sp.set i (some ⟨some y, q⟩))[j]? = _
      rw [List.getElem?_set_ne hij]
      exact shared_eq_some.1 hj
    · intro k hk
      show (w.sp.set i (some ⟨some y, q⟩))[k]? = _
      rw [List.getElem?_set_ne (Ne.symm hk)]

theorem assign_across_blocks_witness :
    ∃ b1, SharedPtr.dtor ⟨some 0, some 7⟩ twoBlockWorld.heap = .ok (twoBlockWorld.heap.set 0 b1) ∧
      SharedPtr.copy_assign ⟨some 0, some 7⟩ ⟨some 1, some 9⟩ twoBlockWorld.heap =
        .ok ((twoBlockWorld.heap.set 0 b1).set 1 { otherOwnerBlock with shared_count := 1 + 1 },
          ⟨some 1, some 9⟩) ∧
      SharedPtr.conv_copy_assign ⟨some 0, some 7⟩ ⟨some 1, some 9⟩ 4 twoBlockWorld.heap =
        .ok ((twoBlockWorld.heap.set 0 b1).set 1 { otherOwnerBlock with shared_count := 1 + 1 },
          ⟨some 1, convert 4 (some 9)⟩) ∧
      b1.shared_count = 1 - 1 ∧ b1.weak_count = 1 ∧
      b1.calls = [] ++
        (if 1 - 1 = 0 then
          (if 1 = 0 then [Call.destroy, Call.deallocate] else [Call.destroy])
         else []) :=
  (assign_across_blocks twoBlockWorld.heap 0 1 4 (some 7) (some 9) observedBlock otherOwnerBlock
    rfl rfl (by decide) (by decide) (by decide) (by decide) (by decide) (by decide)).1

/-- C35.  Move assignment `a = std::move(b)`, same-type and converting, for
`a = (x, p)` on an allocated block and any other handle `b = (cb, q)`: the
block `x` is left exactly as the destructor of `a` leaves it and no other
block changes, `a` ends with the control block and the cached pointer `b` had
(converted, in the converting form), and `b` ends without control block and
with a null cached pointer.  So the counters of the block of `b` are unchanged
when it is not `x`; when it is `x`, which then has `shared_count ≥ 2`, its
`shared_count` goes down by exactly one and no teardown call is made.  When
`a` has no control block the heap is unchanged.  As a statement of a program
the assignment writes to `a` and `b` only. -/
theorem move_assign_transfers (h : Heap) (x off : Nat) (p q cb : Option Nat)
    (bx : BaseControlBlock) (hx : h[x]? = some bx) (hlx : Call.deallocate ∉ bx.calls)
    (hnx : 1 ≤ bx.shared_count) (hrx : bx.shared_count < SIZE_MOD) :
    (∃ b1, SharedPtr.dtor ⟨some x, p⟩ h = .ok (h.set x b1) ∧
      SharedPtr.move_assign ⟨some x, p⟩ ⟨cb, q⟩ h = .ok (h.set x b1, ⟨cb, q⟩, ⟨none, none⟩) ∧
      SharedPtr.conv_move_assign ⟨some x, p⟩ ⟨cb, q⟩ off h =
        .ok (h.set x b1, ⟨cb, convert off q⟩, ⟨none, none⟩) ∧
      b1.shared_count = bx.shared_count - 1 ∧ b1.weak_count = bx.weak_count ∧
      b1.calls = bx.calls ++
        (if bx.shared_count - 1 = 0 then
          (if bx.weak_count = 0 then [Call.destroy, Call.deallocate] else [Call.destroy])
         else []) ∧
      (2 ≤ bx.shared_count → b1.calls = bx.calls) ∧
      (∀ y, y ≠ x → (h.set x b1)[y]? = h[y]?) ∧
      ∀ (w w1 : World) (i j : Nat), w.heap = h → i ≠ j →
        w.shared i = some ⟨some x, p⟩ → w.shared j = some ⟨cb, q⟩ →
        step w (.sMoveAssign i j) = .ok w1 →
        w1.heap = h.set x b1 ∧ w1.shared i = some ⟨cb, q⟩ ∧
        w1.shared j = some ⟨none, none⟩ ∧ w1.wp = w.wp ∧
        ∀ k, k ≠ i → k ≠ j → w1.sp[k]? = w.sp[k]?) ∧
    SharedPtr.move_assign ⟨none, p⟩ ⟨cb, q⟩ h = .ok (h, ⟨cb, q⟩, ⟨none, none⟩) := by
  have hd := SharedPtr.dtor_block_eq p hx hlx (by omega) hrx
  have hma : SharedPtr.move_assign ⟨some x, p⟩ ⟨cb, q⟩ h =
      .ok (h.set x (releaseShared bx), ⟨cb, q⟩, ⟨none, none⟩) := by
    simp [SharedPtr.move_assign, hd, bind, Except.bind, pure, Except.pure]
  obtain ⟨f1, f2, f3⟩ := releaseShared_fields bx
  refine ⟨⟨releaseShared bx, hd, hma, ?_, f1, f2, f3, ?_, ?_, ?_⟩, ?_⟩
  · simp [SharedPtr.conv_move_assign, hd, bind, Except.bind, pure, Except.pure]
  · intro h2
    have : bx.shared_count - 1 ≠ 0 := by omega
    rw [f3]
    simp [this]
  · intro y hy
    rw [List.getElem?_set_ne (Ne.symm hy)]
  · intro w w1 i j hw hij hi hj hstep
    subst hw
    have hi1 := shared_eq_some.1 hi
    have hj1 := shared_eq_some.1 hj
    simp only [step, hi, hj, hma, bind, Except.bind, pure, Except.pure, Except.ok.injEq] at hstep
    rw [← hstep]
    refine ⟨rfl, ?_, ?_, rfl, ?_⟩
    · rw [shared_eq_some]
      show ((w.sp.set i (some ⟨cb, q⟩)).set j (some ⟨none, none⟩))[i]? = _
      rw [List.getElem?_set_ne (Ne.symm hij)]
      exact getElem?_set_of_some hi1
    · refine shared_set_same _ (x := some ⟨cb, q⟩) ?_
      rw [List.getElem?_set_ne hij]
      exact hj1
    · intro k hki hkj
      show ((w.sp.set i (some ⟨cb, q⟩)).set j (some ⟨none, none⟩))[k]? = _
      rw [List.getElem?_set_ne (Ne.symm hkj), List.getElem?_set_ne (Ne.symm hki)]
  · simp [SharedPtr.move_assign, SharedPtr.dtor_empty_eq, bind, Except.bind, pure, Except.pure]

theorem move_assign_transfers_witness :
    SharedPtr.move_assign ⟨none, none⟩ ⟨some 1, some 9⟩ twoBlockWorld.heap =
      .ok (twoBlockWorld.heap, ⟨some 1, some 9⟩, ⟨none, none⟩) ∧
    step twoBlockWorld (.sMoveAssign 0 1) = .ok twoBlockMoved ∧
    twoBlockMoved.shared 0 = some ⟨some 1, some 9⟩ ∧
    twoBlockMoved.shared 1 = some ⟨none, none⟩ ∧
    twoBlockMoved.heap[1]? = twoBlockWorld.heap[1]? :=
  ⟨(move_assign_transfers twoBlockWorld.heap 0 4 (some 7) (some 9) (some 1) observedBlock rfl
      (by decide) (by decide) (by decide)).2,
    by decide,
    (Exists.elim (move_assign_transfers twoBlockWorld.heap 0 4 (some 7) (some 9) (some 1)
      observedBlock rfl (by decide) (by decide) (by decide)).1
      (fun _ hb1 => (hb1.2.2.2.2.2.2.2.2 twoBlockWorld twoBlockMoved 0 1 rfl (by decide)
        (by decide) (by decide) (by decide)).2.1)),
    by decide, by decide⟩

/-- C36.  Assignment `w = s` of a shared handle `s = (y, p)` to a weak handle
`w` on a different allocated block `x`, in the same-type and in the converting
form (one body): the block `x` is left exactly as the destructor of `w` leaves
it (`weak_count` one less, `shared_count` kept, `deallocate()` called if and
only if `shared_count` is 0 and `weak_count` thereby becomes 0),
`weak_count` of the block `y` goes up by exactly one and nothing else of it
changes, and `w` ends referencing `y`.  When `w` has no control block only the
increment happens.  When `w` observes the block of `s` already, the heap after
the assignment is the heap before it: `weak_count` is unchanged and no
`deallocate()` call is made.  As a statement of a program the assignment
writes to `w` only. -/
theorem weak_assign_shared_counts (h : Heap) (x y : Nat) (p : Option Nat)
    (bx cy : BaseControlBlock) (hx : h[x]? = some bx) (hy : h[y]? = some cy) (hxy : x ≠ y)
    (hlx : Call.deallocate ∉ bx.calls) (hly : Call.deallocate ∉ cy.calls)
    (hnx : 1 ≤ bx.weak_count) (hrx : bx.weak_count < SIZE_MOD)
    (hry : cy.weak_count + 1 < SIZE_MOD) :
    (∃ b1, WeakPtr.dtor ⟨some x⟩ h = .ok (h.set x b1) ∧
      WeakPtr.assign_shared ⟨some x⟩ ⟨some y, p⟩ h =
        .ok ((h.set x b1).set y { cy with weak_count := cy.weak_count + 1 }, ⟨some y⟩) ∧
      b1.weak_count = bx.weak_count - 1 ∧ b1.shared_count = bx.shared_count ∧
      b1.calls = bx.calls ++
        (if bx.shared_count = 0 ∧ bx.weak_count - 1 = 0 then [Call.deallocate] else [])) ∧
    WeakPtr.assign_shared ⟨none⟩ ⟨some y, p⟩ h =
      .ok (h.set y { cy with weak_count := cy.weak_count + 1 }, ⟨some y⟩) ∧
    (bx.shared_count ≠ 0 →
      WeakPtr.assign_shared ⟨some x⟩ ⟨some x, p⟩ h = .ok (h, ⟨some x⟩)) ∧
    ∀ (w w1 : World) (j i : Nat) (k : WeakPtr) (s : SharedPtr),
      w.weak j = some k → w.shared i = some s →
      step w (.wAssignShared j i) = .ok w1 →
      w1.sp = w.sp ∧ w1.weak j = some ⟨s.control_block_⟩ ∧
        ∀ n, n ≠ j → w1.wp[n]? = w.wp[n]? := by
  have hd := WeakPtr.weak_dtor_block_eq hx hlx (by omega) hrx
  have hy1 : (h.set x (releaseWeak bx))[y]? = some cy := by
    rw [List.getElem?_set_ne hxy]; exact hy
  obtain ⟨f1, f2, f3⟩ := releaseWeak_fields bx
  refine ⟨⟨releaseWeak bx, hd, ?_, f1, f2, f3⟩, ?_, ?_, ?_⟩
  · simp [WeakPtr.assign_shared, hd, WeakPtr.weak_increment_count_block_eq hy1 hly hry, bind,
      Except.bind, pure, Except.pure]
  · simp [WeakPtr.assign_shared, WeakPtr.weak_dtor_empty_eq,
      WeakPtr.weak_increment_count_block_eq hy hly hry, bind, Except.bind, pure, Except.pure]
  · intro hs0
    have hrel : releaseWeak bx = { bx with weak_count := bx.weak_count - 1 } := by
      simp [releaseWeak, hs0]
    have hx1 : (h.set x (releaseWeak bx))[x]? = some { bx with weak_count := bx.weak_count - 1 } := by
      rw [hrel]; exact getElem?_set_of_some hx
    have e : bx.weak_count - 1 + 1 = bx.weak_count := by omega
    rw [WeakPtr.assign_shared]
    simp only [hd, bind, Except.bind]
    rw [WeakPtr.weak_increment_count_block_eq hx1 (by simpa using hlx) (by simp; omega)]
    simp only [List.set_set, e, pure, Except.pure]
    rw [set_same hx]
  · intro w w1 j i k s hk hs hstep
    have hj1 := weak_eq_some.1 hk
    simp only [step, hk, hs] at hstep
    obtain ⟨⟨h1, k1⟩, hm, hres⟩ := except_bind_ok hstep
    obtain ⟨h2, -, hm1⟩ := except_bind_ok hm
    obtain ⟨h3, -, hk1⟩ := except_bind_ok hm1
    simp only [pure, Except.pure, Except.ok.injEq, Prod.mk.injEq] at hk1 hres
    rw [← hres, ← hk1.2]
    refine ⟨rfl, weak_set_same _ hj1, ?_⟩
    intro n hn
    show (w.wp.set j _)[n]? = _
    rw [List.getElem?_set_ne (Ne.symm hn)]

theorem weak_assign_shared_counts_witness :
    (∃ b1, WeakPtr.dtor ⟨some 0⟩ twoBlockWorld.heap = .ok (twoBlockWorld.heap.set 0 b1) ∧
      WeakPtr.assign_shared ⟨some 0⟩ ⟨some 1, some 9⟩ twoBlockWorld.heap =
        .ok ((twoBlockWorld.heap.set 0 b1).set 1 { otherOwnerBlock with weak_count := 0 + 1 },
          ⟨some 1⟩) ∧
      b1.weak_count = 1 - 1 ∧ b1.shared_count = 1 ∧
      b1.calls = [] ++
        (if 1 = 0 ∧ 1 - 1 = 0 then [Call.deallocate] else [])) ∧
    WeakPtr.assign_shared ⟨some 0⟩ ⟨some 0, some 7⟩ twoBlockWorld.heap =
      .ok (twoBlockWorld.heap, ⟨some 0⟩) :=
  ⟨(weak_assign_shared_counts twoBlockWorld.heap 0 1 (some 9) observedBlock otherOwnerBlock rfl
      rfl (by decide) (by decide) (by decide) (by decide) (by decide) (by decide)).1,
    (weak_assign_shared_counts twoBlockWorld.heap 0 1 (some 7) observedBlock otherOwnerBlock rfl
      rfl (by decide) (by decide) (by decide) (by decide) (by decide) (by decide)).2.2.1
      (by decide)⟩

theorem CountedOnly.counted_refl (h : Heap) : CountedOnly h h :=
  fun _ b hb => ⟨b, hb, rfl, rfl⟩

theorem ReleasedOnly.released_refl (h : Heap) : ReleasedOnly h h :=
  fun _ b hb => ⟨b, hb, rfl, fun _ => rfl⟩

theorem CountedOnly.appended (h l : Heap) : CountedOnly h (h ++ l) := by
  intro a b hb
  exact ⟨b, by rw [List.getElem?_append_left (lt_length_of_getElem? hb)]; exact hb, rfl, rfl⟩

theorem ReleasedOnly.of_append {h l h1 : Heap} (hr : ReleasedOnly (h ++ l) h1) :
    ReleasedOnly h h1 := by
  intro a b hb
  exact hr a b (by rw [List.getElem?_append_left (lt_length_of_getElem? hb)]; exact hb)

theorem ObserversKept.of_counted {h h1 : Heap} (hc : CountedOnly h h1) : ObserversKept h h1 := by
  intro a b hb
  obtain ⟨b1, hb1, e1, e2⟩ := hc a b hb
  exact ⟨b1, hb1, e1, fun _ => e2⟩

theorem ObserversKept.of_released {h h1 : Heap} (hr : ReleasedOnly h h1) :
    ObserversKept h h1 := by
  intro a b hb
  obtain ⟨b1, hb1, e1, e2⟩ := hr a b hb
  exact ⟨b1, hb1, e1, fun h0 => by rw [e2 h0]⟩

theorem ObserversKept.of_released_counted {h h1 h2 : Heap} (hr : ReleasedOnly h h1)
    (hc : CountedOnly h1 h2) : ObserversKept h h2 := by
  intro a b hb
  obtain ⟨b1, hb1, e1, e2⟩ := hr a b hb
  obtain ⟨b2, hb2, f1, f2⟩ := hc a b1 hb1
  exact ⟨b2, hb2, f1.trans e1, fun h0 => by rw [f2, e2 h0]⟩

theorem ObserversKept.weak_kept {h h1 : Heap} (ho : ObserversKept h h1) : WeakCountKept h h1 := by
  intro a b hb
  obtain ⟨b1, hb1, e1, -⟩ := ho a b hb
  exact ⟨b1, hb1, e1⟩

theorem WeakCountKept.wk_trans {h h1 h2 : Heap} (h01 : WeakCountKept h h1)
    (h12 : WeakCountKept h1 h2) : WeakCountKept h h2 := by
  intro a b hb
  obtain ⟨b1, hb1, e1⟩ := h01 a b hb
  obtain ⟨b2, hb2, e2⟩ := h12 a b1 hb1
  exact ⟨b2, hb2, e2.trans e1⟩

theorem SharedPtr.increment_count_counted {h h1 : Heap} {this : SharedPtr}
    (hm : this.increment_count h = .ok h1) : CountedOnly h h1 := by
  obtain ⟨⟨a, b⟩, hacc, hres⟩ := except_bind_ok hm
  obtain ⟨-, hb, -⟩ := access_ok_inv hacc
  simp only [pure, Except.pure, Except.ok.injEq] at hres
  rw [← hres]
  intro x c hc
  by_cases hx : a = x
  · subst hx
    rw [hb] at hc
    cases hc
    exact ⟨_, getElem?_set_of_some hb, rfl, rfl⟩
  · exact ⟨c, by rw [List.getElem?_set_ne hx]; exact hc, rfl, rfl⟩

/-- The heap after several writes to the block at one address. -/
theorem set_touch {h : Heap} {a : Nat} {b c : BaseControlBlock} (hb : h[a]? = some b)
    (h0 : b.shared_count ≠ 0) (hw : c.weak_count = b.weak_count) :
    ReleasedOnly h (h.set a c) := by
  intro x d hd
  by_cases hx : a = x
  · subst hx
    rw [hb] at hd
    cases hd
    exact ⟨c, getElem?_set_of_some hb, hw, fun e => absurd e h0⟩
  · exact ⟨d, by rw [List.getElem?_set_ne hx]; exact hd, rfl, fun _ => rfl⟩

theorem Heap.call_destroy_touch {h h1 : Heap} {cb : Option Nat}
    (hm : h.call_destroy cb = .ok h1) :
    ∃ a b, cb = some a ∧ h[a]? = some b ∧ h1 = h.set a b.destroy := by
  obtain ⟨⟨a, b⟩, hacc, hres⟩ := except_bind_ok hm
  obtain ⟨hcb, hb, -⟩ := access_ok_inv hacc
  simp only [pure, Except.pure, Except.ok.injEq] at hres
  exact ⟨a, b, hcb, hb, hres.symm⟩

theorem Heap.call_deallocate_touch {h h1 : Heap} {cb : Option Nat}
    (hm : h.call_deallocate cb = .ok h1) :
    ∃ a b, cb = some a ∧ h[a]? = some b ∧ h1 = h.set a b.deallocate := by
  obtain ⟨⟨a, b⟩, hacc, hres⟩ := except_bind_ok hm
  obtain ⟨hcb, hb, -⟩ := access_ok_inv hacc
  simp only [pure, Except.pure, Except.ok.injEq] at hres
  exact ⟨a, b, hcb, hb, hres.symm⟩

theorem destroy_weak_count (b : BaseControlBlock) : b.destroy.weak_count = b.weak_count := by
  unfold BaseControlBlock.destroy
  split <;> rfl

theorem SharedPtr.dtor_released {h h1 : Heap} {this : SharedPtr}
    (hm : this.dtor h = .ok h1) : ReleasedOnly h h1 := by
  unfold SharedPtr.dtor at hm
  split at hm
  · simp only [pure, Except.pure, Except.ok.injEq] at hm
    rw [← hm]; exact ReleasedOnly.released_refl h
  · obtain ⟨⟨a, b⟩, hacc, hm1⟩ := except_bind_ok hm
    obtain ⟨hcb, hb, -⟩ := access_ok_inv hacc
    dsimp only at hm1
    split at hm1
    · simp only [pure, Except.pure, Except.ok.injEq] at hm1
      rw [← hm1]; exact ReleasedOnly.released_refl h
    · rename_i h0
      obtain ⟨h2, hdec, hm2⟩ := except_bind_ok hm1
      obtain ⟨⟨a0, b0⟩, hacc0, hres0⟩ := except_bind_ok hdec
      rw [hacc] at hacc0
      simp only [Except.ok.injEq, Prod.mk.injEq] at hacc0
      obtain ⟨rfl, rfl⟩ := hacc0
      simp only [pure, Except.pure, Except.ok.injEq] at hres0
      subst hres0
      obtain ⟨⟨a1, b1⟩, hacc1, hm3⟩ := except_bind_ok hm2
      obtain ⟨hcb1, hb1, -⟩ := access_ok_inv hacc1
      rw [hcb] at hcb1
      simp only [Option.some.injEq] at hcb1
      subst hcb1
      rw [getElem?_set_of_some hb] at hb1
      simp only [Option.some.injEq] at hb1
      dsimp only at hm3
      split at hm3
      · obtain ⟨h3, hdes, hdea⟩ := except_bind_ok hm3
        obtain ⟨a2, b2, hcb2, hb2, e2⟩ := Heap.call_destroy_touch hdes
        rw [hcb] at hcb2
        simp only [Option.some.injEq] at hcb2
        subst hcb2
        rw [getElem?_set_of_some hb] at hb2
        simp only [Option.some.injEq] at hb2
        subst e2
        obtain ⟨a3, b3, hcb3, hb3, e3⟩ := Heap.call_deallocate_touch hdea
        rw [hcb] at hcb3
        simp only [Option.some.injEq] at hcb3
        subst hcb3
        rw [getElem?_set_of_some (getElem?_set_of_some hb)] at hb3
        simp only [Option.some.injEq] at hb3
        subst e3
        simp only [List.set_set]
        refine set_touch hb h0 ?_
        rw [← hb3, ← hb2]
        simp [BaseControlBlock.deallocate, destroy_weak_count]
      · split at hm3
        · obtain ⟨a2, b2, hcb2, hb2, e2⟩ := Heap.call_destroy_touch hm3
          rw [hcb] at hcb2
          simp only [Option.some.injEq] at hcb2
          subst hcb2
          rw [getElem?_set_of_some hb] at hb2
          simp only [Option.some.injEq] at hb2
          subst e2
          simp only [List.set_set]
          refine set_touch hb h0 ?_
          rw [← hb2]
          simp [destroy_weak_count]
        · simp only [pure, Except.pure, Except.ok.injEq] at hm3
          rw [← hm3]
          exact set_touch hb h0 rfl

theorem SharedPtr.move_assign_released {h h1 : Heap} {this other s t : SharedPtr}
    (hm : this.move_assign other h = .ok (h1, s, t)) :
    ReleasedOnly h h1 ∧ t = ⟨none, none⟩ := by
  obtain ⟨h2, hd, hres⟩ := except_bind_ok hm
  simp only [pure, Except.pure, Except.ok.injEq, Prod.mk.injEq] at hres
  rw [← hres.1, ← hres.2.2]
  exact ⟨SharedPtr.dtor_released hd, rfl⟩

theorem SharedPtr.conv_move_assign_released {h h1 : Heap} {this other s t : SharedPtr}
    {off : Nat} (hm : this.conv_move_assign other off h = .ok (h1, s, t)) :
    ReleasedOnly h h1 := by
  obtain ⟨h2, hd, hres⟩ := except_bind_ok hm
  simp only [pure, Except.pure, Except.ok.injEq, Prod.mk.injEq] at hres
  rw [← hres.1]
  exact SharedPtr.dtor_released hd

theorem SharedPtr.reset_released {h h1 : Heap} {this s : SharedPtr}
    (hm : this.reset h = .ok (h1, s)) : ReleasedOnly h h1 := by
  obtain ⟨⟨h2, s1, t⟩, hma, hm1⟩ := except_bind_ok hm
  obtain ⟨h3, hd, hres⟩ := except_bind_ok hm1
  simp only [pure, Except.pure, Except.ok.injEq, Prod.mk.injEq] at hres
  obtain ⟨g, ht⟩ := SharedPtr.move_assign_released hma
  try dsimp only at hd
  rw [ht, SharedPtr.dtor_empty_eq] at hd
  cases hd
  rw [← hres.1]
  exact g

theorem SharedPtr.reset_ptr_released {h h1 : Heap} {this s : SharedPtr} {p : Option Nat}
    (hm : this.reset_ptr p h = .ok (h1, s)) : ReleasedOnly h h1 := by
  unfold SharedPtr.reset_ptr at hm
  rw [SharedPtr.raw_ctor_eq] at hm
  dsimp only at hm
  obtain ⟨⟨h2, s1, t⟩, hma, hm1⟩ := except_bind_ok hm
  obtain ⟨h3, hd, hres⟩ := except_bind_ok hm1
  simp only [pure, Except.pure, Except.ok.injEq, Prod.mk.injEq] at hres
  obtain ⟨g, ht⟩ := SharedPtr.move_assign_released hma
  try dsimp only at hd
  rw [ht, SharedPtr.dtor_empty_eq] at hd
  cases hd
  rw [← hres.1]
  exact g.of_append

theorem SharedPtr.copy_ctor_counted {h h1 : Heap} {other s : SharedPtr}
    (hm : other.copy_ctor h = .ok (h1, s)) : CountedOnly h h1 := by
  unfold SharedPtr.copy_ctor at hm
  dsimp only at hm
  split at hm
  · obtain ⟨h2, hinc, hres⟩ := except_bind_ok hm
    simp only [pure, Except.pure, Except.ok.injEq, Prod.mk.injEq] at hres
    rw [← hres.1]
    exact SharedPtr.increment_count_counted hinc
  · simp only [pure, Except.pure, Except.ok.injEq, Prod.mk.injEq] at hm
    rw [← hm.1]
    exact CountedOnly.counted_refl h

theorem SharedPtr.conv_copy_ctor_counted {h h1 : Heap} {other s : SharedPtr} {off : Nat}
    (hm : other.conv_copy_ctor off h = .ok (h1, s)) : CountedOnly h h1 := by
  obtain ⟨h2, hinc, hres⟩ := except_bind_ok hm
  simp only [pure, Except.pure, Except.ok.injEq, Prod.mk.injEq] at hres
  rw [← hres.1]
  exact SharedPtr.increment_count_counted hinc

theorem SharedPtr.copy_assign_observers {h h1 : Heap} {this other s : SharedPtr}
    (hm : this.copy_assign other h = .ok (h1, s)) : ObserversKept h h1 := by
  obtain ⟨h2, hd, hm1⟩ := except_bind_ok hm
  obtain ⟨h3, hinc, hres⟩ := except_bind_ok hm1
  simp only [pure, Except.pure, Except.ok.injEq, Prod.mk.injEq] at hres
  rw [← hres.1]
  exact ObserversKept.of_released_counted (SharedPtr.dtor_released hd)
    (SharedPtr.increment_count_counted hinc)

theorem SharedPtr.conv_copy_assign_observers {h h1 : Heap} {this other s : SharedPtr}
    {off : Nat} (hm : this.conv_copy_assign other off h = .ok (h1, s)) :
    ObserversKept h h1 := by
  obtain ⟨h2, hd, hm1⟩ := except_bind_ok hm
  obtain ⟨h3, hinc, hres⟩ := except_bind_ok hm1
  simp only [pure, Except.pure, Except.ok.injEq, Prod.mk.injEq] at hres
  rw [← hres.1]
  exact ObserversKept.of_released_counted (SharedPtr.dtor_released hd)
    (SharedPtr.increment_count_counted hinc)

theorem step_shared_observers {w w1 : World} {op : Op} (hop : op.isSharedOp = true)
    (h : step w op = .ok w1) : w1.wp = w.wp ∧ ObserversKept w.heap w1.heap := by
  have hrefl : ObserversKept w.heap w.heap :=
    ObserversKept.of_counted (CountedOnly.counted_refl _)
  have hskip : ∀ {x : World}, (pure w : Except Fault World) = .ok x →
      x.wp = w.wp ∧ ObserversKept w.heap x.heap := by
    intro x hx
    simp only [pure, Except.pure, Except.ok.injEq] at hx
    rw [← hx]; exact ⟨rfl, hrefl⟩
  cases op <;> simp only [Op.isSharedOp, Bool.false_eq_true] at hop <;> simp only [step] at h
  case sDefault =>
    simp only [pure, Except.pure, Except.ok.injEq] at h
    rw [← h]; exact ⟨rfl, hrefl⟩
  case sRaw p =>
    rw [SharedPtr.raw_ctor_eq] at h
    simp only [pure, Except.pure, Except.ok.injEq] at h
    rw [← h]
    exact ⟨rfl, ObserversKept.of_counted (CountedOnly.appended _ _)⟩
  case sMake obj =>
    unfold makeShared at h
    rw [allocateShared_ok] at h
    simp only [pure, Except.pure, bind, Except.bind, Except.ok.injEq] at h
    rw [← h]
    exact ⟨rfl, ObserversKept.of_counted (CountedOnly.appended _ _)⟩
  case sCopy i =>
    cases hso : w.shared i with
    | none => rw [hso] at h; exact hskip h
    | some other =>
      rw [hso] at h
      obtain ⟨⟨h1, t⟩, hm, hres⟩ := except_bind_ok h
      simp only [pure, Except.pure, Except.ok.injEq] at hres
      rw [← hres]
      exact ⟨rfl, ObserversKept.of_counted (SharedPtr.copy_ctor_counted hm)⟩
  case sConvCopy i off =>
    cases hso : w.shared i with
    | none => rw [hso] at h; exact hskip h
    | some other =>
      rw [hso] at h
      obtain ⟨⟨h1, t⟩, hm, hres⟩ := except_bind_ok h
      simp only [pure, Except.pure, Except.ok.injEq] at hres
      rw [← hres]
      exact ⟨rfl, ObserversKept.of_counted (SharedPtr.conv_copy_ctor_counted hm)⟩
  case sMove i =>
    cases hso : w.shared i with
    | none => rw [hso] at h; exact hskip h
    | some other =>
      rw [hso] at h
      simp only [SharedPtr.move_ctor, pure, Except.pure, Except.ok.injEq] at h
      rw [← h]; exact ⟨rfl, hrefl⟩
  case sConvMove i off =>
    cases hso : w.shared i with
    | none => rw [hso] at h; exact hskip h
    | some other =>
      rw [hso] at h
      simp only [SharedPtr.conv_move_ctor, pure, Except.pure, Except.ok.injEq] at h
      rw [← h]; exact ⟨rfl, hrefl⟩
  case sDtor i =>
    cases hso : w.shared i with
    | none => rw [hso] at h; exact hskip h
    | some this =>
      rw [hso] at h
      obtain ⟨h1, hm, hres⟩ := except_bind_ok h
      simp only [pure, Except.pure, Except.ok.injEq] at hres
      rw [← hres]
      exact ⟨rfl, ObserversKept.of_released (SharedPtr.dtor_released hm)⟩
  case sReset i =>
    cases hso : w.shared i with
    | none => rw [hso] at h; exact hskip h
    | some this =>
      rw [hso] at h
      obtain ⟨⟨h1, t⟩, hm, hres⟩ := except_bind_ok h
      simp only [pure, Except.pure, Except.ok.injEq] at hres
      rw [← hres]
      exact ⟨rfl, ObserversKept.of_released (SharedPtr.reset_released hm)⟩
  case sResetPtr i p =>
    cases hso : w.shared i with
    | none => rw [hso] at h; exact hskip h
    | some this =>
      rw [hso] at h
      obtain ⟨⟨h1, t⟩, hm, hres⟩ := except_bind_ok h
      simp only [pure, Except.pure, Except.ok.injEq] at hres
      rw [← hres]
      exact ⟨rfl, ObserversKept.of_released (SharedPtr.reset_ptr_released hm)⟩
  case sSwap i j =>
    cases hsi : w.shared i with
    | none => rw [hsi] at h; exact hskip h
    | some this =>
      cases hsj : w.shared j with
      | none => rw [hsi, hsj] at h; exact hskip h
      | some other =>
        rw [hsi, hsj] at h
        simp only [SharedPtr.swap, pure, Except.pure, Except.ok.injEq] at h
        rw [← h]; exact ⟨rfl, hrefl⟩
  case sAssign i j =>
    cases hsi : w.shared i with
    | none => rw [hsi] at h; exact hskip h
    | some this =>
      cases hsj : w.shared j with
      | none => rw [hsi, hsj] at h; exact hskip h
      | some other =>
        rw [hsi, hsj] at h
        obtain ⟨⟨h1, t⟩, hm, hres⟩ := except_bind_ok h
        simp only [pure, Except.pure, Except.ok.injEq] at hres
        rw [← hres]
        exact ⟨rfl, SharedPtr.copy_assign_observers hm⟩
  case sConvAssign i j off =>
    cases hsi : w.shared i with
    | none => rw [hsi] at h; exact hskip h
    | some this =>
      cases hsj : w.shared j with
      | none => rw [hsi, hsj] at h; exact hskip h
      | some other =>
        rw [hsi, hsj] at h
        obtain ⟨⟨h1, t⟩, hm, hres⟩ := except_bind_ok h
        simp only [pure, Except.pure, Except.ok.injEq] at hres
        rw [← hres]
        exact ⟨rfl, SharedPtr.conv_copy_assign_observers hm⟩
  case sMoveAssign i j =>
    cases hsi : w.shared i with
    | none => rw [hsi] at h; exact hskip h
    | some this =>
      cases hsj : w.shared j with
      | none => rw [hsi, hsj] at h; exact hskip h
      | some other =>
        rw [hsi, hsj] at h
        obtain ⟨⟨h1, t, u⟩, hm, hres⟩ := except_bind_ok h
        simp only [pure, Except.pure, Except.ok.injEq] at hres
        rw [← hres]
        exact ⟨rfl, ObserversKept.of_released (SharedPtr.move_assign_released hm).1⟩
  case sConvMoveAssign i j off =>
    cases hsi : w.shared i with
    | none => rw [hsi] at h; exact hskip h
    | some this =>
      cases hsj : w.shared j with
      | none => rw [hsi, hsj] at h; exact hskip h
      | some other =>
        rw [hsi, hsj] at h
        obtain ⟨⟨h1, t, u⟩, hm, hres⟩ := except_bind_ok h
        simp only [pure, Except.pure, Except.ok.injEq] at hres
        rw [← hres]
        exact ⟨rfl, ObserversKept.of_released (SharedPtr.conv_move_assign_released hm)⟩

theorem run_shared_weak_kept (ops : List Op) : ∀ {w w1 : World},
    (∀ op ∈ ops, op.isSharedOp = true) → run w ops = .ok w1 →
    w1.wp = w.wp ∧ WeakCountKept w.heap w1.heap := by
  induction ops with
  | nil =>
    intro w w1 _ h
    simp only [run, pure, Except.pure, Except.ok.injEq] at h
    rw [← h]; exact ⟨rfl, fun _ b hb => ⟨b, hb, rfl⟩⟩
  | cons op ops ih =>
    intro w w1 hops h
    unfold run at h
    obtain ⟨w2, hstep, hrun⟩ := except_bind_ok h
    obtain ⟨e1, k1⟩ := step_shared_observers (hops op (List.mem_cons_self _ _)) hstep
    obtain ⟨e2, k2⟩ := ih (fun o ho => hops o (List.mem_cons_of_mem _ ho)) hrun
    exact ⟨e2.trans e1, k1.weak_kept.wk_trans k2⟩

theorem inv_twoBlockWorld : Inv twoBlockWorld := by
  intro a
  cases a with
  | zero =>
    simp [twoBlockWorld, observedBlock, ControlBlockRegular, BlockOK, World.sharedRefs,
      World.weakRefs, sharedOn, weakOn, expectedCalls]
  | succ n =>
    cases n with
    | zero =>
      simp [twoBlockWorld, otherOwnerBlock, ControlBlockRegular, BlockOK, World.sharedRefs,
        World.weakRefs, sharedOn, weakOn, expectedCalls]
    | succ m =>
      simp [twoBlockWorld, BlockOK, World.sharedRefs, World.weakRefs, sharedOn, weakOn]

/-- C37.  Take any sequence of statements on shared handles (default,
raw-pointer, factory, copy, move and converting construction, the four
assignments, `reset`, `swap`, destruction), executed from any state.  When it
executes without a fault, no weak variable has changed and every block that
existed has the `weak_count` it had.  Each single statement of the kind,
moreover, makes no teardown call on a block whose `shared_count` is 0: a block
whose object is destroyed and which weak handles observe is not deallocated by
it; in particular the destructor of a shared handle on such a block leaves the
heap as it is.  (`get()` and `use_count()` return a value and no heap.)  From
a state that satisfies the counting invariant a legal sequence does execute
without a fault. -/
theorem shared_ops_keep_weak_count (w : World) (ops : List Op)
    (hops : ∀ op ∈ ops, op.isSharedOp = true) :
    (∀ w1, run w ops = .ok w1 →
      w1.wp = w.wp ∧
      ∀ (a : Nat) (b : BaseControlBlock), w.heap[a]? = some b →
        ∃ b1, w1.heap[a]? = some b1 ∧ b1.weak_count = b.weak_count) ∧
    (∀ op ∈ ops, ∀ (v v1 : World), step v op = .ok v1 →
      v1.wp = v.wp ∧
      ∀ (a : Nat) (b : BaseControlBlock), v.heap[a]? = some b →
        ∃ b1, v1.heap[a]? = some b1 ∧ b1.weak_count = b.weak_count ∧
          (b.shared_count = 0 → b1.calls = b.calls)) ∧
    (Inv w → legalRun w ops = true → w.sp.length + ops.length < SIZE_MOD →
      w.wp.length + ops.length < SIZE_MOD → ∃ w1, run w ops = .ok w1) ∧
    ∀ (h : Heap) (a : Nat) (p : Option Nat) (b : BaseControlBlock), h[a]? = some b →
      Call.deallocate ∉ b.calls → b.shared_count = 0 →
      SharedPtr.dtor ⟨some a, p⟩ h = .ok h := by
  refine ⟨?_, ?_, ?_, ?_⟩
  · intro w1 hrun
    exact run_shared_weak_kept ops hops hrun
  · intro op hop v v1 hstep
    exact step_shared_observers (hops op hop) hstep
  · intro hInv hl h1 h2
    obtain ⟨w1, hrun, -⟩ := run_inv ops hInv hl h1 h2
    exact ⟨w1, hrun⟩
  · intro h a p b hb hf h0
    simp [SharedPtr.dtor, access_some hb hf, h0, bind, Except.bind, pure, Except.pure]

theorem shared_ops_keep_weak_count_witness :
    run twoBlockWorld ownersProgram = .ok ownersFinal ∧
    (ownersFinal.wp = twoBlockWorld.wp ∧
      ∀ (a : Nat) (b : BaseControlBlock), twoBlockWorld.heap[a]? = some b →
        ∃ b1, ownersFinal.heap[a]? = some b1 ∧ b1.weak_count = b.weak_count) ∧
    ∃ w1, run twoBlockWorld ownersProgram = .ok w1 :=
  ⟨by decide,
    (shared_ops_keep_weak_count twoBlockWorld ownersProgram (by decide)).1 ownersFinal
      (by decide),
    (shared_ops_keep_weak_count twoBlockWorld ownersProgram (by decide)).2.2.1
      inv_twoBlockWorld (by decide) (by decide) (by decide)⟩

end SmartPointers
